import Mathlib

/-!
Verification development for the SECS-II / HSMS message library
(`pkg/ast` and `pkg/parser/hsms` of lib-secs2-hsms-go).

The Go sources are shallowly embedded: each Go function that the checked
properties mention is translated into an executable Lean definition of the
same name.  Go byte slices become `List Nat` (every entry below 256),
Go `int`/`int64` become `Int`, Go `uint64` becomes `Nat` reduced mod `2^64`,
Go strings become Lean `String`.  A Go function that can panic is embedded
as an `Option`-valued function returning `none` exactly on the panicking
inputs; `recover` (used by `hsms.Parse`) then maps `none` to a parse failure.

Modelling notes, applied uniformly:
* Go maps (`map[string]int` for the variable tables, `map[string]interface{}`
  for fill-in values) are embedded as association lists.  All map iterations
  performed by the sources are order-insensitive (writes go to distinct
  positions, or at most one entry can match), so fixing the association-list
  order is a sound determinization; the variable tables are built by the
  factories in ascending-position order and the well-formedness predicate
  records that.
* `FloatNode` stores Go `float64` values; they are embedded by their IEEE-754
  bit patterns, an F4 node by the binary32 pattern its (exactly
  representable) value widens from and an F8 node by the binary64 pattern.
  `math.Float64bits` / `math.Float32bits(float32 v)` then become the
  identity on the pattern, and the finiteness representation invariant
  becomes "the exponent field is not all ones".  F4 nodes whose stored
  float64 is not exactly a binary32 value, and integer inputs to the float
  factory, are outside this embedding.
* The recursions of the byte decoder and of `FillVariables`/`fillEllipsis`
  are not structural (the decoder recurses on a length read from the input,
  the ellipsis loop rewinds its index); they take an explicit fuel argument.
  Fuel is an artifact of the embedding: theorems either supply a
  sufficient fuel explicitly or hold for every sufficiently large fuel.
-/

namespace SecsII

/-- MAX_BYTE_SIZE from interface.go: `1<<24 - 1`. -/
def MAX_BYTE_SIZE : Nat := 2 ^ 24 - 1

/-- Go conversion `byte(x)` for a Go `int` value: two's-complement
truncation to 8 bits. -/
def goByte (x : Int) : Nat := (x % 256).toNat

/-- Big-endian recomposition of a byte list (binary.BigEndian.UintNN and the
big-endian loops of the sources). -/
def beBytesToNat (bs : List Nat) : Nat := bs.foldl (fun a b => a * 256 + b) 0

/-- Big-endian byte decomposition of width `w`: the byte loops
`byte(bits >> (i*8))` for `i = w-1 .. 0` of the integer encoders. -/
def natToBEBytes (w : Nat) (x : Nat) : List Nat :=
  (List.range w).map (fun i => x / 256 ^ (w - 1 - i) % 256)

/-- Two's-complement reading of a `w`-byte unsigned value (the casts
`int8(..)`, `int16(..)`, `int32(..)`, `int64(..)` of parser.go). -/
def toSigned (w : Nat) (n : Nat) : Int :=
  if n < 2 ^ (8 * w - 1) then (n : Int) else (n : Int) - 2 ^ (8 * w)

/-- Go conversion `uint64(v)` of a Go signed integer: reduction mod `2^64`. -/
def goUint64OfInt (v : Int) : Nat := (v % (2 ^ 64 : Int)).toNat

/-- Character classes of the variable-name rule (regexp `\w` is
`[A-Za-z0-9_]`). -/
def isWordChar (c : Char) : Bool :=
  (('A' ≤ c && c ≤ 'Z') || ('a' ≤ c && c ≤ 'z') || ('0' ≤ c && c ≤ '9') || c = '_')

/-- First character of a variable name: `[A-Za-z_]`. -/
def isVarHeadChar (c : Char) : Bool :=
  (('A' ≤ c && c ≤ 'Z') || ('a' ≤ c && c ≤ 'z') || c = '_')

/-- Decimal digit test. -/
def isDigitChar (c : Char) : Bool := '0' ≤ c && c ≤ '9'

mutual

/-- Zero or more trailing array tags `(\[\d+\])*` of a variable name,
as a two-state character machine equivalent to the regex tail. -/
def varTagsOk : List Char → Bool
  | [] => true
  | '[' :: rest => varTagDigits rest false
  | _ => false

/-- Inside a `[...]` tag: at least one digit, then the closing bracket and
possibly further tags. -/
def varTagDigits : List Char → Bool → Bool
  | [], _ => false
  | c :: rest, seen =>
      if isDigitChar c then varTagDigits rest true
      else if c = ']' then seen && varTagsOk rest
      else false

end

/-- Body of a variable name after the head character: `\w*` then array tags. -/
def varBodyOk (cs : List Char) : Bool :=
  varTagsOk (cs.dropWhile isWordChar)

/-- isValidVarName from interface.go: regexp `^[A-Za-z_]\w*(\[\d+\])*$`.
Embedded as an executable character-list matcher. -/
def isValidVarName (name : String) : Bool :=
  match name.data with
  | [] => false
  | c :: cs => isVarHeadChar c && varBodyOk cs

/-- isEllipsis from interface.go: regexp `^\.{3}(\[\d+\])?$`. -/
def isEllipsis (name : String) : Bool :=
  match name.data with
  | '.' :: '.' :: '.' :: rest =>
      match rest with
      | [] => true
      | '[' :: rest2 =>
          let ds := rest2.takeWhile isDigitChar
          let rest3 := rest2.dropWhile isDigitChar
          match rest3 with
          | [']'] => decide (ds ≠ [])
          | _ => false
      | _ => false
  | _ => false

/-- Variable table of an item node: Go `map[string]int` (name to position),
embedded as an association list; the factories insert names in ascending
position order and the well-formedness predicate keeps that order. -/
abbrev VarMap := List (String × Nat)

/-- Lookup in a variable table (Go map indexing `m[name]`). -/
def lookupVar (m : VarMap) (k : String) : Option Nat :=
  match m with
  | [] => none
  | (k0, v0) :: rest => if k0 = k then some v0 else lookupVar rest k

/-- Lookup of the name at a position (the `variablesSwapKeyValue` map of
list.go, read at one position); Go map misses yield the zero value "". -/
def lookupPos (m : VarMap) (p : Nat) : String :=
  match m with
  | [] => ""
  | (k0, v0) :: rest => if v0 = p then k0 else lookupPos rest p

/-- Insertion into a sorted-by-position table, ordering by position
(the comparison `variablePosition[result[i]] < variablePosition[result[j]]`
of getVariableNames). -/
def insertByPos (e : String × Nat) : VarMap → VarMap
  | [] => [e]
  | e0 :: rest => if e.2 < e0.2 then e :: e0 :: rest else e0 :: insertByPos e rest

/-- Sorting a variable table by position (getVariableNames' sort.Slice). -/
def sortByPos : VarMap → VarMap
  | [] => []
  | e :: rest => insertByPos e (sortByPos rest)

/-- getVariableNames from interface.go: the names sorted by their
positions. -/
def getVariableNames (m : VarMap) : List String :=
  (sortByPos m).map (fun e => e.1)

/-- Byte width per element of each item type (the `bytePerValue` map of
getDataByteLength); missing keys give the Go zero value 0. -/
def bytePerValue (typ : String) : Nat :=
  if typ = "list" then 1 else if typ = "binary" then 1
  else if typ = "boolean" then 1 else if typ = "ascii" then 1
  else if typ = "i8" then 8 else if typ = "i1" then 1
  else if typ = "i2" then 2 else if typ = "i4" then 4
  else if typ = "f8" then 8 else if typ = "f4" then 4
  else if typ = "u8" then 8 else if typ = "u1" then 1
  else if typ = "u2" then 2 else if typ = "u4" then 4
  else 0

/-- getDataByteLength from interface.go: `size * bytePerValue[typ]`. -/
def getDataByteLength (typ : String) (size : Int) : Int :=
  size * (bytePerValue typ : Int)

/-- Format code per item type (the `formatCode` map of getHeaderBytes,
octal values); missing keys give 0. -/
def formatCodeOf (typ : String) : Nat :=
  if typ = "list" then 0o00 else if typ = "binary" then 0o10
  else if typ = "boolean" then 0o11 else if typ = "ascii" then 0o20
  else if typ = "i8" then 0o30 else if typ = "i1" then 0o31
  else if typ = "i2" then 0o32 else if typ = "i4" then 0o34
  else if typ = "f8" then 0o40 else if typ = "f4" then 0o44
  else if typ = "u8" then 0o50 else if typ = "u1" then 0o51
  else if typ = "u2" then 0o52 else if typ = "u4" then 0o54
  else 0

/-- getHeaderBytes from interface.go: the format byte followed by the
stripped big-endian length bytes; `none` is the `error` return used when
the byte length exceeds MAX_BYTE_SIZE. -/
def getHeaderBytes (typ : String) (size : Int) : Option (List Nat) :=
  let dataByteLength := getDataByteLength typ size
  if dataByteLength > (MAX_BYTE_SIZE : Int) then none
  else
    let b0 := goByte (dataByteLength / 2 ^ 16)
    let b1 := goByte (dataByteLength / 2 ^ 8)
    let b2 := goByte dataByteLength
    let lengthBytes := if b0 = 0 then (if b1 = 0 then [b2] else [b1, b2]) else [b0, b1, b2]
    some ((formatCodeOf typ * 4 + lengthBytes.length) :: lengthBytes)

/-- ItemNode: the tagged union of the Go item-node implementations
(emptyItemNode, ListNode, BinaryNode, BooleanNode, ASCIINode, IntNode,
UintNode, FloatNode).  ASCIINode keeps the source's `value` / `variable`
(name, minLength, maxLength) / `isValue` fields; float values are IEEE bit
patterns of the node's width (see the module comment). -/
inductive ItemNode where
  | empty
  | list (values : List ItemNode) (vars : VarMap)
  | binary (values : List Nat) (vars : VarMap)
  | boolean (values : List Bool) (vars : VarMap)
  | ascii (value : String) (varName : String) (minLength maxLength : Int) (isValue : Bool)
  | int (byteSize : Nat) (values : List Int) (vars : VarMap)
  | uint (byteSize : Nat) (values : List Nat) (vars : VarMap)
  | float (byteSize : Nat) (values : List Nat) (vars : VarMap)

mutual

/-- Variables() of each node implementation: sorted direct vars for the
flat nodes, the single variable of a variable-mode ASCIINode, and the
depth-first traversal of ListNode.Variables. -/
def itemVariables : ItemNode → List String
  | .empty => []
  | .list values vars => listSlotVariables values vars 0
  | .binary _ vars => getVariableNames vars
  | .boolean _ vars => getVariableNames vars
  | .ascii _ varName _ _ isValue => if isValue then [] else [varName]
  | .int _ _ vars => getVariableNames vars
  | .uint _ _ vars => getVariableNames vars
  | .float _ _ vars => getVariableNames vars

/-- Slot loop of ListNode.Variables: an emptyItemNode slot contributes the
name at its position (Go map default "" when absent), any other slot
contributes its own Variables() recursively. -/
def listSlotVariables : List ItemNode → VarMap → Nat → List String
  | [], _, _ => []
  | item :: rest, vars, i =>
      (match item with
       | .empty => [lookupPos vars i]
       | other => itemVariables other) ++ listSlotVariables rest vars (i + 1)

end

/-- Size() of each node implementation; `-1` for a variable-mode ASCIINode. -/
def itemSize : ItemNode → Int
  | .empty => 0
  | .list values _ => values.length
  | .binary values _ => values.length
  | .boolean values _ => values.length
  | .ascii value _ _ _ isValue => if isValue then value.length else -1
  | .int _ values _ => values.length
  | .uint _ values _ => values.length
  | .float _ values _ => values.length

/-- Type-name string used by the byte length and header tables, matching the
format strings of the Go sources ("i%d", "u%d", "f%d"). -/
def itemTypName : ItemNode → String
  | .empty => ""
  | .list _ _ => "list"
  | .binary _ _ => "binary"
  | .boolean _ _ => "boolean"
  | .ascii _ _ _ _ _ => "ascii"
  | .int byteSize _ _ => "i" ++ toString byteSize
  | .uint byteSize _ _ => "u" ++ toString byteSize
  | .float byteSize _ _ => "f" ++ toString byteSize

/-- Encoding of one boolean element (BooleanNode.ToBytes). -/
def boolByte (b : Bool) : Nat := if b then 1 else 0

mutual

/-- ToBytes() of each node implementation.  The translation is total: the Go
methods never panic, returning the empty slice when vars remain or
when getHeaderBytes reports the size-limit error. -/
def itemToBytes : ItemNode → List Nat
  | .empty => []
  | .list values vars =>
      if vars ≠ [] then []
      else
        match getHeaderBytes "list" (values.length : Int) with
        | none => []
        | some header =>
            match childrenToBytes values with
            | none => []
            | some body => header ++ body
  | .binary values vars =>
      if vars ≠ [] then []
      else
        match getHeaderBytes "binary" (values.length : Int) with
        | none => []
        | some header => header ++ values.map (fun v => v % 256)
  | .boolean values vars =>
      if vars ≠ [] then []
      else
        match getHeaderBytes "boolean" (values.length : Int) with
        | none => []
        | some header => header ++ values.map boolByte
  | .ascii value _ _ _ isValue =>
      if !isValue then []
      else
        match getHeaderBytes "ascii" (value.length : Int) with
        | none => []
        | some header => header ++ value.data.map (fun c => c.toNat % 256)
  | .int byteSize values vars =>
      if vars ≠ [] then []
      else
        match getHeaderBytes ("i" ++ toString byteSize) (values.length : Int) with
        | none => []
        | some header =>
            header ++ (values.map (fun v => natToBEBytes byteSize (goUint64OfInt v))).flatten
  | .uint byteSize values vars =>
      if vars ≠ [] then []
      else
        match getHeaderBytes ("u" ++ toString byteSize) (values.length : Int) with
        | none => []
        | some header => header ++ (values.map (natToBEBytes byteSize)).flatten
  | .float byteSize values vars =>
      if vars ≠ [] then []
      else
        match getHeaderBytes ("f" ++ toString byteSize) (values.length : Int) with
        | none => []
        | some header => header ++ (values.map (natToBEBytes byteSize)).flatten

/-- Child loop of ListNode.ToBytes: `none` models the early `return []byte{}`
taken when some child's encoding is empty. -/
def childrenToBytes : List ItemNode → Option (List Nat)
  | [] => some []
  | c :: rest =>
      let cb := itemToBytes c
      if cb = [] then none
      else
        match childrenToBytes rest with
        | none => none
        | some bs => some (cb ++ bs)

end

/-- Strictly ascending positions in a variable table (the determinized order
in which the factories insert entries; implies position uniqueness). -/
def pairwiseAscPos : VarMap → Bool
  | [] => true
  | [_] => true
  | e1 :: e2 :: rest => decide (e1.2 < e2.2) && pairwiseAscPos (e2 :: rest)

/-- Name-uniqueness check (the duplicate-name panics of the factories). -/
def namesNodup : List String → Bool
  | [] => true
  | x :: rest => !(rest.contains x) && namesNodup rest

/-- Common well-formedness of a flat node's variable table: valid names,
positions below the size, ascending (hence unique) positions, unique names,
and the zero value stored at each variable position. -/
def varTableWf (m : VarMap) (size : Nat) (zeroAt : Nat → Bool) : Bool :=
  m.all (fun e => isValidVarName e.1 && decide (e.2 < size) && zeroAt e.2) &&
  pairwiseAscPos m && namesNodup (m.map (fun e => e.1))

/-- Finiteness of an IEEE-754 bit pattern of width `w` bytes (w = 4 or 8):
the exponent field is not all ones (`math.IsInf / math.IsNaN` are false). -/
def finiteFloatBits (w : Nat) (v : Nat) : Bool :=
  if w = 4 then decide (v / 2 ^ 23 % 256 ≠ 255)
  else decide (v / 2 ^ 52 % 2048 ≠ 2047)

/-- Test for the emptyItemNode sentinel (the `item.(emptyItemNode)` type
assertions of list.go). -/
def isEmptyItem : ItemNode → Bool
  | .empty => true
  | _ => false

/-- Slot/variable correspondence for ListNode: a slot holds the zero value
emptyItemNode exactly when a variable occupies that position. -/
def listSlotsWf (values : List ItemNode) (m : VarMap) : Bool :=
  (List.range values.length).all (fun i =>
    isEmptyItem (values.getD i ItemNode.empty) == decide (lookupPos m i ≠ ""))

/-- Variable-table well-formedness for ListNode: names are valid or a single
ellipsis not in the first slot (ListNode.checkRep). -/
def listVarTableWf (m : VarMap) (size : Nat) : Bool :=
  m.all (fun e => (isValidVarName e.1 || isEllipsis e.1) && decide (e.2 < size)) &&
  (m.countP (fun e => isEllipsis e.1)) ≤ 1 &&
  m.all (fun e => !isEllipsis e.1 || decide (e.2 ≠ 0)) &&
  pairwiseAscPos m && namesNodup (m.map (fun e => e.1))

mutual

/-- Representation invariants of the item nodes (the checkRep methods plus
the factory size checks and the Go type-level facts: byte-valued entries,
width-bounded integers).  For ListNode it additionally records the
determinized slot/variable correspondence and requires every child to be
well-formed and the tree-wide variable names to be unique. -/
def itemWf : ItemNode → Bool
  | .empty => true
  | .list values vars =>
      decide ((values.length : Int) ≤ (MAX_BYTE_SIZE : Int)) &&
      listVarTableWf vars values.length &&
      listSlotsWf values vars &&
      namesNodup (itemVariables (.list values vars)) &&
      childrenWf values
  | .binary values vars =>
      decide (values.length ≤ MAX_BYTE_SIZE) &&
      values.all (fun v => decide (v < 256)) &&
      varTableWf vars values.length (fun p => values.getD p 1 = 0)
  | .boolean values vars =>
      decide (values.length ≤ MAX_BYTE_SIZE) &&
      varTableWf vars values.length (fun p => values.getD p true = false)
  | .ascii value varName minLength maxLength isValue =>
      if isValue then
        decide (value.length ≤ MAX_BYTE_SIZE) &&
        value.data.all (fun c => decide (c.toNat ≤ 127)) &&
        decide (varName = "") && decide (minLength = 0) && decide (maxLength = 0)
      else
        decide (value = "") && isValidVarName varName &&
        decide (0 ≤ minLength) && decide (-1 ≤ maxLength) &&
        (decide (maxLength = -1) || decide (minLength ≤ maxLength))
  | .int byteSize values vars =>
      (decide (byteSize = 1) || decide (byteSize = 2) || decide (byteSize = 4) ||
        decide (byteSize = 8)) &&
      decide (values.length * byteSize ≤ MAX_BYTE_SIZE) &&
      values.all (fun v =>
        decide (-(2 ^ (byteSize * 8 - 1) : Int) ≤ v) &&
        decide (v ≤ (2 ^ (byteSize * 8 - 1) : Int) - 1)) &&
      varTableWf vars values.length (fun p => values.getD p 1 = 0)
  | .uint byteSize values vars =>
      (decide (byteSize = 1) || decide (byteSize = 2) || decide (byteSize = 4) ||
        decide (byteSize = 8)) &&
      decide (values.length * byteSize ≤ MAX_BYTE_SIZE) &&
      values.all (fun v => decide (v < 2 ^ (byteSize * 8))) &&
      varTableWf vars values.length (fun p => values.getD p 1 = 0)
  | .float byteSize values vars =>
      (decide (byteSize = 4) || decide (byteSize = 8)) &&
      decide (values.length * byteSize ≤ MAX_BYTE_SIZE) &&
      values.all (fun v => decide (v < 2 ^ (byteSize * 8)) && finiteFloatBits byteSize v) &&
      varTableWf vars values.length (fun p => values.getD p 1 = 0)

/-- Well-formedness of every child of a ListNode. -/
def childrenWf : List ItemNode → Bool
  | [] => true
  | c :: rest => itemWf c && childrenWf rest

end

/-- One cell of the variadic `values ...interface{}` arguments of the item
factories.  `int` covers every Go integer kind by its mathematical value,
`float` is an IEEE bit pattern of the receiving node's width. -/
inductive NodeInput where
  | int (v : Int)
  | byte (b : Nat)
  | bool (b : Bool)
  | str (s : String)
  | item (n : ItemNode)
  | float (bits : Nat)

/-!
`NodeInput.int` covers the Go kinds `int, int8..int64, uint, uint16..uint64`
that every numeric factory's type switch matches; `NodeInput.byte` is a
`byte`-typed (uint8) Go value, which the integer factories match but the
binary, boolean and list factories do not — their type switches fall
through to the invalid-type panic.
-/

/-- Classification of one factory input: a stored value, a variable name, or
a type-switch `default:` panic. -/
inductive InputCell (α : Type) where
  | val (a : α)
  | variable (name : String)
  | bad

/-- Generic accumulation loop of the numeric/boolean/list factories: values
are appended, a string registers a variable at the current index after the
duplicate-name check, `bad` cells model the invalid-type panics. -/
def buildInputs {α : Type} (cell : NodeInput → InputCell α) (zero : α) :
    List NodeInput → Nat → List α → VarMap → Option (List α × VarMap)
  | [], _, vals, vars => some (vals, vars)
  | inp :: rest, i, vals, vars =>
      match cell inp with
      | .val a => buildInputs cell zero rest (i + 1) (vals ++ [a]) vars
      | .variable s =>
          if (lookupVar vars s).isSome then none
          else buildInputs cell zero rest (i + 1) (vals ++ [zero]) (vars ++ [(s, i)])
      | .bad => none

/-- Generic duplicate-free check over any type with decidable equality
(the `visited` maps of the checkRep methods). -/
def listNodup {α : Type} [DecidableEq α] : List α → Bool
  | [] => true
  | x :: rest => !(rest.contains x) && listNodup rest

/-- Variable-table part of the flat nodes' checkRep: zero value at each
variable position, valid names, unique positions, positions in range. -/
def flatVarsCheckRep (vars : VarMap) (size : Nat) (zeroAt : Nat → Bool) : Bool :=
  vars.all (fun e => zeroAt e.2 && isValidVarName e.1 && decide (e.2 < size)) &&
  listNodup (vars.map (fun e => e.2))

/-- Input cell of NewIntNode: integers are stored, strings are variables.
The explicit `uint64 > MaxInt64` panic of the Go factory is subsumed by the
range check of checkRep (both yield `none`). -/
def intInputCell : NodeInput → InputCell Int
  | .int v => .val v
  | .byte b => .val b
  | .str s => .variable s
  | _ => .bad

/-- IntNode.checkRep. -/
def intCheckRep (byteSize : Nat) (values : List Int) (vars : VarMap) : Bool :=
  (decide (byteSize = 1) || decide (byteSize = 2) || decide (byteSize = 4) ||
    decide (byteSize = 8)) &&
  values.all (fun v =>
    decide (-(2 ^ (byteSize * 8 - 1) : Int) ≤ v) &&
    decide (v ≤ (2 ^ (byteSize * 8 - 1) : Int) - 1)) &&
  flatVarsCheckRep vars values.length (fun p => values.getD p 1 = 0)

/-- NewIntNode from int.go. -/
def NewIntNode (byteSize : Nat) (inputs : List NodeInput) : Option ItemNode :=
  if getDataByteLength ("i" ++ toString byteSize) inputs.length > (MAX_BYTE_SIZE : Int) then none
  else
    match buildInputs intInputCell 0 inputs 0 [] [] with
    | none => none
    | some (vals, vars) =>
        if intCheckRep byteSize vals vars then some (.int byteSize vals vars) else none

/-- Input cell of NewUintNode: Go converts any signed input with
`uint64(value)` (two's-complement wrap). -/
def uintInputCell : NodeInput → InputCell Nat
  | .int v => .val (goUint64OfInt v)
  | .byte b => .val b
  | .str s => .variable s
  | _ => .bad

/-- UintNode.checkRep. -/
def uintCheckRep (byteSize : Nat) (values : List Nat) (vars : VarMap) : Bool :=
  (decide (byteSize = 1) || decide (byteSize = 2) || decide (byteSize = 4) ||
    decide (byteSize = 8)) &&
  values.all (fun v => decide (v < 2 ^ (byteSize * 8))) &&
  flatVarsCheckRep vars values.length (fun p => values.getD p 1 = 0)

/-- NewUintNode from uint.go. -/
def NewUintNode (byteSize : Nat) (inputs : List NodeInput) : Option ItemNode :=
  if getDataByteLength ("u" ++ toString byteSize) inputs.length > (MAX_BYTE_SIZE : Int) then none
  else
    match buildInputs uintInputCell 0 inputs 0 [] [] with
    | none => none
    | some (vals, vars) =>
        if uintCheckRep byteSize vals vars then some (.uint byteSize vals vars) else none

/-- Input cell of NewFloatNode: only bit-pattern floats and variable strings
are modelled (integer inputs to the float factory are outside this
embedding, see the module comment). -/
def floatInputCell : NodeInput → InputCell Nat
  | .float bits => .val bits
  | .str s => .variable s
  | _ => .bad

/-- FloatNode.checkRep on bit patterns: width 4 or 8, finite (not NaN or
infinity, which also bounds the magnitude by the width's MaxFloat). -/
def floatCheckRep (byteSize : Nat) (values : List Nat) (vars : VarMap) : Bool :=
  (decide (byteSize = 4) || decide (byteSize = 8)) &&
  values.all (fun v => decide (v < 2 ^ (byteSize * 8)) && finiteFloatBits byteSize v) &&
  flatVarsCheckRep vars values.length (fun p => values.getD p 1 = 0)

/-- NewFloatNode from float.go. -/
def NewFloatNode (byteSize : Nat) (inputs : List NodeInput) : Option ItemNode :=
  if getDataByteLength ("f" ++ toString byteSize) inputs.length > (MAX_BYTE_SIZE : Int) then none
  else
    match buildInputs floatInputCell 0 inputs 0 [] [] with
    | none => none
    | some (vals, vars) =>
        if floatCheckRep byteSize vals vars then some (.float byteSize vals vars) else none

/-- Input cell of NewBooleanNode. -/
def boolInputCell : NodeInput → InputCell Bool
  | .bool b => .val b
  | .str s => .variable s
  | _ => .bad

/-- BooleanNode.checkRep. -/
def booleanCheckRep (values : List Bool) (vars : VarMap) : Bool :=
  flatVarsCheckRep vars values.length (fun p => values.getD p true = false)

/-- NewBooleanNode from boolean.go (its size check uses the "binary" byte
width, as in the source). -/
def NewBooleanNode (inputs : List NodeInput) : Option ItemNode :=
  if getDataByteLength "binary" inputs.length > (MAX_BYTE_SIZE : Int) then none
  else
    match buildInputs boolInputCell false inputs 0 [] [] with
    | none => none
    | some (vals, vars) =>
        if booleanCheckRep vals vars then some (.boolean vals vars) else none

/-- Binary-literal parse of a "0b"-prefixed string: strconv.ParseInt with the
error ignored, so a malformed literal stores 0 and an overflowing one stores
MaxInt64 (the value ParseInt returns beside the range error). -/
def parseBinLit (s : String) : Int :=
  let ds := (s.drop 2).data
  if ds ≠ [] ∧ ds.all (fun c => c = '0' || c = '1') then
    let v : Nat := ds.foldl (fun a c => a * 2 + (if c = '1' then 1 else 0)) 0
    if v ≤ 2 ^ 63 - 1 then (v : Int) else ((2 ^ 63 - 1 : Nat) : Int)
  else 0

/-- strings.HasPrefix(value, "0b") on the character view of the string. -/
def hasPrefix0b (s : String) : Bool :=
  match s.data with
  | c1 :: c2 :: _ => c1 = '0' && c2 = 'b'
  | _ => false

/-- Input cell of NewBinaryNode: integers are stored, "0b" strings are
binary literals, other strings are variables.  A negative integer would be
rejected by checkRep's range check; folding that rejection into the cell
keeps the stored values natural numbers. -/
def binaryInputCell : NodeInput → InputCell Nat
  | .int v => if v < 0 then .bad else .val v.toNat
  | .str s =>
      if hasPrefix0b s then
        let v := parseBinLit s
        if v < 0 then .bad else .val v.toNat
      else .variable s
  | _ => .bad

/-- BinaryNode.checkRep. -/
def binaryCheckRep (values : List Nat) (vars : VarMap) : Bool :=
  values.all (fun v => decide (v < 256)) &&
  flatVarsCheckRep vars values.length (fun p => values.getD p 1 = 0)

/-- NewBinaryNode from binary.go. -/
def NewBinaryNode (inputs : List NodeInput) : Option ItemNode :=
  if getDataByteLength "binary" inputs.length > (MAX_BYTE_SIZE : Int) then none
  else
    match buildInputs binaryInputCell 0 inputs 0 [] [] with
    | none => none
    | some (vals, vars) =>
        if binaryCheckRep vals vars then some (.binary vals vars) else none

/-- ASCIINode.checkRep, both modes. -/
def asciiCheckRep (value : String) (varName : String) (minLength maxLength : Int)
    (isValue : Bool) : Bool :=
  if isValue then
    decide (varName = "") && decide (minLength = 0) && decide (maxLength = 0) &&
    value.data.all (fun c => decide (c.toNat ≤ 127))
  else
    decide (value = "") && isValidVarName varName &&
    decide (0 ≤ minLength) && decide (-1 ≤ maxLength) &&
    (decide (maxLength = -1) || decide (minLength ≤ maxLength))

/-- NewASCIINode from ascii.go (literal mode). -/
def NewASCIINode (str : String) : Option ItemNode :=
  if getDataByteLength "ascii" str.length > (MAX_BYTE_SIZE : Int) then none
  else if asciiCheckRep str "" 0 0 true then some (.ascii str "" 0 0 true) else none

/-- NewASCIINodeVariable from ascii.go (variable mode). -/
def NewASCIINodeVariable (name : String) (minLength maxLength : Int) : Option ItemNode :=
  if asciiCheckRep "" name minLength maxLength false then
    some (.ascii "" name minLength maxLength false)
  else none

/-- Input cell of NewListNode: item nodes and variable strings. -/
def listInputCell : NodeInput → InputCell ItemNode
  | .item n => .val n
  | .str s => .variable s
  | _ => .bad

/-- ListNode.checkRep: the zero value at variable positions, valid names or
a single non-first ellipsis, unique positions in range, and tree-wide
variable-name uniqueness via Variables(). -/
def listCheckRep (values : List ItemNode) (vars : VarMap) : Bool :=
  vars.all (fun e =>
    isEmptyItem (values.getD e.2 ItemNode.empty) &&
    (isValidVarName e.1 || (isEllipsis e.1 && decide (e.2 ≠ 0))) &&
    decide (e.2 < values.length)) &&
  decide (vars.countP (fun e => isEllipsis e.1) ≤ 1) &&
  listNodup (vars.map (fun e => e.2)) &&
  listNodup (itemVariables (.list values vars))

/-- NewListNode from list.go. -/
def NewListNode (inputs : List NodeInput) : Option ItemNode :=
  if getDataByteLength "list" inputs.length > (MAX_BYTE_SIZE : Int) then none
  else
    match buildInputs listInputCell ItemNode.empty inputs 0 [] [] with
    | none => none
    | some (vals, vars) =>
        if listCheckRep vals vars then some (.list vals vars) else none

/-- NewEmptyItemNode from interface.go. -/
def NewEmptyItemNode : ItemNode := .empty

/-- DataMessage from ast.go. -/
structure DataMessage where
  name : String
  stream : Int
  function : Int
  waitBit : Nat
  direction : String
  dataItem : ItemNode
  sessionID : Int
  systemBytes : List Nat

/-- DataMessage.checkRep. -/
def dmCheckRep (m : DataMessage) : Bool :=
  m.name.data.all (fun c => !c.isWhitespace) &&
  decide (0 ≤ m.stream) && decide (m.stream < 128) &&
  decide (0 ≤ m.function) && decide (m.function < 256) &&
  !(decide (m.waitBit = 1) && decide (m.function % 2 = 0)) &&
  decide (m.waitBit ≤ 2) &&
  decide (-1 ≤ m.sessionID) && decide (m.sessionID < 65536) &&
  decide (m.systemBytes.length = 4) &&
  (decide (m.direction = "H->E") || decide (m.direction = "H<-E") ||
    decide (m.direction = "H<->E"))

/-- Well-formedness of a DataMessage: its checkRep, byte-valued system
bytes (Go type level), and a well-formed item tree. -/
def dmWf (m : DataMessage) : Bool :=
  dmCheckRep m && m.systemBytes.all (fun b => decide (b < 256)) && itemWf m.dataItem

/-- NewDataMessage from ast.go: session id starts unset (-1), system bytes
zeroed; `none` is the checkRep panic. -/
def NewDataMessage (name : String) (stream function : Int) (waitBit : Nat)
    (direction : String) (dataItem : ItemNode) : Option DataMessage :=
  let m : DataMessage :=
    { name := name, stream := stream, function := function, waitBit := waitBit,
      direction := direction, dataItem := dataItem, sessionID := -1,
      systemBytes := [0, 0, 0, 0] }
  if dmCheckRep m then some m else none

/-- Variables() of a DataMessage. -/
def dmVariables (m : DataMessage) : List String := itemVariables m.dataItem

/-- Copy of the first four system bytes into a fresh zeroed 4-byte slice
(the copy loops of NewHSMSDataMessage and SetSessionIDAndSystemBytes). -/
def copy4 (bs : List Nat) : List Nat :=
  [bs.getD 0 0, bs.getD 1 0, bs.getD 2 0, bs.getD 3 0]

/-- WaitBit() of ast.go; `none` is the "rep invariant broken" panic. -/
def goWaitBitStr (w : Nat) : Option String :=
  if w = 0 then some "false"
  else if w = 1 then some "true"
  else if w = 2 then some "optional"
  else none

/-- NewHSMSDataMessage from ast.go: three explicit panics guard wait bit,
session id and remaining variables, the system bytes are copied into a
zeroed 4-byte slice, then checkRep runs. -/
def NewHSMSDataMessage (name : String) (stream function : Int) (waitBit : Nat)
    (direction : String) (dataItem : ItemNode) (sessionID : Int)
    (systemBytes : List Nat) : Option DataMessage :=
  if waitBit ≠ 0 ∧ waitBit ≠ 1 then none
  else if sessionID = -1 then none
  else if (itemVariables dataItem).length ≠ 0 then none
  else
    let m : DataMessage :=
      { name := name, stream := stream, function := function, waitBit := waitBit,
        direction := direction, dataItem := dataItem, sessionID := sessionID,
        systemBytes := copy4 systemBytes }
    if dmCheckRep m then some m else none

/-- SetWaitBit from ast.go: a no-op unless the wait bit is optional;
otherwise a copy with the new wait bit, passed through checkRep. -/
def SetWaitBit (m : DataMessage) (waitBit : Bool) : Option DataMessage :=
  if m.waitBit ≠ 2 then some m
  else
    let m2 : DataMessage := { m with waitBit := if waitBit then 1 else 0 }
    if dmCheckRep m2 then some m2 else none

/-- SetSessionIDAndSystemBytes from ast.go. -/
def SetSessionIDAndSystemBytes (m : DataMessage) (sessionID : Int)
    (systemBytes : List Nat) : Option DataMessage :=
  let m2 : DataMessage := { m with sessionID := sessionID, systemBytes := copy4 systemBytes }
  if dmCheckRep m2 then some m2 else none

/-- DataMessage.ToBytes: `some []` is the not-HSMS-serializable return,
`none` models the (invariant-guarded) panics of WaitBit() and of the
`systemBytes[:4]` slice; otherwise the 4 length bytes, the 10 header bytes
and the item bytes. -/
def dmToBytes (m : DataMessage) : Option (List Nat) :=
  match goWaitBitStr m.waitBit with
  | none => none
  | some w =>
      if w = "optional" ∨ dmVariables m ≠ [] ∨ m.sessionID = -1 then some []
      else if m.systemBytes.length < 4 then none
      else
        let itemBytes := itemToBytes m.dataItem
        let msgLength : Nat := itemBytes.length + 10
        some (natToBEBytes 4 msgLength ++
          [goByte (m.sessionID / 2 ^ 8), goByte m.sessionID,
            goByte (m.stream + if w = "true" then 128 else 0), goByte m.function, 0, 0] ++
          m.systemBytes.take 4 ++ itemBytes)

/-- ControlMessage from hsms.go: a 10-byte header. -/
structure ControlMessage where
  header : List Nat

/-- ControlMessage.Type from hsms.go. -/
def controlType (msg : ControlMessage) : String :=
  let s := msg.header.getD 5 0
  if s = 1 then "select.req"
  else if s = 2 then "select.rsp"
  else if s = 3 then "deselect.req"
  else if s = 4 then "deselect.rsp"
  else if s = 5 then "linktest.req"
  else if s = 6 then "linktest.rsp"
  else if s = 7 then "reject.req"
  else if s = 9 then "separate.req"
  else "unknown"

/-- ControlMessage.ToBytes: the length prefix `10` and the header. -/
def controlToBytes (msg : ControlMessage) : List Nat :=
  [0, 0, 0, 10] ++ msg.header

/-- NewHSMSControlMessage: a verbatim copy of the first ten header bytes
into a zeroed slice (for inputs of length at least eleven the Go copy loop
would panic writing index 10; the decoder only ever passes ten bytes). -/
def NewHSMSControlMessage (header : List Nat) : ControlMessage :=
  ⟨(List.range 10).map (fun i => header.getD i 0)⟩

/-- Big-endian split of a session id (`byte(sessionID >> 8)`,
`byte(sessionID)` on a Go uint16). -/
def sidHi (sessionID : Nat) : Nat := sessionID / 256 % 256

/-- Low byte of a session id. -/
def sidLo (sessionID : Nat) : Nat := sessionID % 256

/-- NewHSMSMessageSelectReq from hsms.go; `none` is the index panic on a
short systemBytes slice. -/
def NewHSMSMessageSelectReq (sessionID : Nat) (systemBytes : List Nat) :
    Option ControlMessage :=
  if systemBytes.length < 4 then none
  else some ⟨[sidHi sessionID, sidLo sessionID, 0, 0, 0, 1,
    systemBytes.getD 0 0, systemBytes.getD 1 0, systemBytes.getD 2 0, systemBytes.getD 3 0]⟩

/-- NewHSMSMessageSelectRsp from hsms.go: requires a select.req input. -/
def NewHSMSMessageSelectRsp (selectReq : ControlMessage) (selectStatus : Nat) :
    Option ControlMessage :=
  if controlType selectReq ≠ "select.req" then none
  else some ⟨[selectReq.header.getD 0 0, selectReq.header.getD 1 0, 0, selectStatus, 0, 2,
    selectReq.header.getD 6 0, selectReq.header.getD 7 0,
    selectReq.header.getD 8 0, selectReq.header.getD 9 0]⟩

/-- NewHSMSMessageDeselectReq from hsms.go. -/
def NewHSMSMessageDeselectReq (sessionID : Nat) (systemBytes : List Nat) :
    Option ControlMessage :=
  if systemBytes.length < 4 then none
  else some ⟨[sidHi sessionID, sidLo sessionID, 0, 0, 0, 3,
    systemBytes.getD 0 0, systemBytes.getD 1 0, systemBytes.getD 2 0, systemBytes.getD 3 0]⟩

/-- NewHSMSMessageDeselectRsp from hsms.go: requires a deselect.req input. -/
def NewHSMSMessageDeselectRsp (deselectReq : ControlMessage) (deselectStatus : Nat) :
    Option ControlMessage :=
  if controlType deselectReq ≠ "deselect.req" then none
  else some ⟨[deselectReq.header.getD 0 0, deselectReq.header.getD 1 0, 0, deselectStatus, 0, 4,
    deselectReq.header.getD 6 0, deselectReq.header.getD 7 0,
    deselectReq.header.getD 8 0, deselectReq.header.getD 9 0]⟩

/-- NewHSMSMessageLinktestReq from hsms.go: session id fixed to 0xFFFF. -/
def NewHSMSMessageLinktestReq (systemBytes : List Nat) : Option ControlMessage :=
  if systemBytes.length < 4 then none
  else some ⟨[0xFF, 0xFF, 0, 0, 0, 5,
    systemBytes.getD 0 0, systemBytes.getD 1 0, systemBytes.getD 2 0, systemBytes.getD 3 0]⟩

/-- NewHSMSMessageLinktestRsp from hsms.go: requires a linktest.req input. -/
def NewHSMSMessageLinktestRsp (linktestReq : ControlMessage) : Option ControlMessage :=
  if controlType linktestReq ≠ "linktest.req" then none
  else some ⟨[0xFF, 0xFF, 0, 0, 0, 6,
    linktestReq.header.getD 6 0, linktestReq.header.getD 7 0,
    linktestReq.header.getD 8 0, linktestReq.header.getD 9 0]⟩

/-- NewHSMSMessageRejectReq from hsms.go: header byte 2 carries pType when
the reason code is 2 and sType otherwise; no check rejects reason code 0. -/
def NewHSMSMessageRejectReq (sessionID : Nat) (pType sType : Nat)
    (systemBytes : List Nat) (reasonCode : Nat) : Option ControlMessage :=
  if systemBytes.length < 4 then none
  else some ⟨[sidHi sessionID, sidLo sessionID,
    if reasonCode = 2 then pType else sType, reasonCode, 0, 7,
    systemBytes.getD 0 0, systemBytes.getD 1 0, systemBytes.getD 2 0, systemBytes.getD 3 0]⟩

/-- NewHSMSMessageSeparateReq from hsms.go. -/
def NewHSMSMessageSeparateReq (sessionID : Nat) (systemBytes : List Nat) :
    Option ControlMessage :=
  if systemBytes.length < 4 then none
  else some ⟨[sidHi sessionID, sidLo sessionID, 0, 0, 0, 9,
    systemBytes.getD 0 0, systemBytes.getD 1 0, systemBytes.getD 2 0, systemBytes.getD 3 0]⟩

/-- HSMSMessage: the interface implemented by DataMessage and
ControlMessage. -/
inductive HSMSMessage where
  | data (m : DataMessage)
  | control (m : ControlMessage)

/-- Length loop of parser.parseMessageText: `length += int(b << shift)`.
The shift is applied to the Go `byte` before widening, so each term is
truncated mod 256; for two or three length bytes every term except the last
vanishes. -/
def goDecodeLength (lengthBytes : List Nat) : Nat :=
  let n := lengthBytes.length
  lengthBytes.enum.foldl (fun acc e => acc + e.2 * 2 ^ ((n - e.1 - 1) * 8) % 256) 0

/-- Fuel-driven grouping loop behind chunkBytes; the fuel is the list
length, which bounds the group count for any positive width. -/
def chunkBytesAux (w : Nat) : Nat → List Nat → List (List Nat)
  | 0, _ => []
  | fuel + 1, bs => if bs = [] then [] else bs.take w :: chunkBytesAux w fuel (bs.drop w)

/-- Split a byte list into consecutive groups of `w` bytes (the indexed
group reads of parseInt / parseUint / parseFloat). -/
def chunkBytes (w : Nat) (bs : List Nat) : List (List Nat) :=
  if w = 0 then [] else chunkBytesAux w bs.length bs

/-- String built byte-by-byte by the ASCII decode branch
(`str += string(v)`: each byte becomes the character of its code point). -/
def stringOfBytes (bs : List Nat) : String :=
  ⟨bs.map Char.ofNat⟩

/-- parser.parseInt: group the payload by width, read big-endian
two's-complement values, hand them to NewIntNode. -/
def parseIntGo (byteSize length : Nat) (rest : List Nat) :
    Option (ItemNode × List Nat) :=
  if length % byteSize ≠ 0 then none
  else if rest.length < length then none
  else
    let values := (chunkBytes byteSize (rest.take length)).map
      (fun g => NodeInput.int (toSigned byteSize (beBytesToNat g)))
    match NewIntNode byteSize values with
    | none => none
    | some item => some (item, rest.drop length)

/-- parser.parseUint. -/
def parseUintGo (byteSize length : Nat) (rest : List Nat) :
    Option (ItemNode × List Nat) :=
  if length % byteSize ≠ 0 then none
  else if rest.length < length then none
  else
    let values := (chunkBytes byteSize (rest.take length)).map
      (fun g => NodeInput.int (beBytesToNat g))
    match NewUintNode byteSize values with
    | none => none
    | some item => some (item, rest.drop length)

/-- parser.parseFloat: in the bit-pattern embedding,
Float32frombits / Float64frombits keep the group's value. -/
def parseFloatGo (byteSize length : Nat) (rest : List Nat) :
    Option (ItemNode × List Nat) :=
  if length % byteSize ≠ 0 then none
  else if rest.length < length then none
  else
    let values := (chunkBytes byteSize (rest.take length)).map
      (fun g => NodeInput.float (beBytesToNat g))
    match NewFloatNode byteSize values with
    | none => none
    | some item => some (item, rest.drop length)

/-- Child loop of the list branch of parseMessageText: parse `count` items
in sequence with the supplied one-item parse function. -/
def parseChildrenAux (p : List Nat → Option (ItemNode × List Nat)) :
    Nat → List Nat → Option (List ItemNode × List Nat)
  | 0, input => some ([], input)
  | count + 1, input =>
      match p input with
      | none => none
      | some (item, rest) =>
          match parseChildrenAux p count rest with
          | none => none
          | some (items, rest2) => some (item :: items, rest2)

/-- parser.parseMessageText for one item, on the remaining input (the Go
parser advances a position over a fixed buffer and only ever reads forward,
which the remaining-suffix form captures).  `none` covers the explicit
failure returns and the recovered panics: zero length-byte count,
out-of-range slice reads, unknown format codes, and factory panics.  The
fuel bounds the list-nesting depth; `Parse` supplies the input length,
which the round-trip development shows is sufficient. -/
def parseItem : Nat → List Nat → Option (ItemNode × List Nat)
  | 0, _ => none
  | fuel + 1, input =>
      match input with
      | [] => none
      | fb :: rest0 =>
          let formatCode := fb / 4
          let lengthBytesCount := fb % 4
          if lengthBytesCount = 0 then none
          else if rest0.length < lengthBytesCount then none
          else
            let length := goDecodeLength (rest0.take lengthBytesCount)
            let rest1 := rest0.drop lengthBytesCount
            if formatCode = 0o00 then
              match parseChildrenAux (parseItem fuel) length rest1 with
              | none => none
              | some (children, rest2) =>
                  match NewListNode (children.map NodeInput.item) with
                  | none => none
                  | some item => some (item, rest2)
            else if formatCode = 0o20 then
              if rest1.length < length then none
              else
                match NewASCIINode (stringOfBytes (rest1.take length)) with
                | none => none
                | some item => some (item, rest1.drop length)
            else if formatCode = 0o10 then
              if rest1.length < length then none
              else
                match NewBinaryNode ((rest1.take length).map NodeInput.byte) with
                | none => none
                | some item => some (item, rest1.drop length)
            else if formatCode = 0o11 then
              if rest1.length < length then none
              else
                match NewBooleanNode ((rest1.take length).map
                    (fun v => NodeInput.bool (v ≠ 0))) with
                | none => none
                | some item => some (item, rest1.drop length)
            else if formatCode = 0o44 then parseFloatGo 4 length rest1
            else if formatCode = 0o40 then parseFloatGo 8 length rest1
            else if formatCode = 0o31 then parseIntGo 1 length rest1
            else if formatCode = 0o32 then parseIntGo 2 length rest1
            else if formatCode = 0o34 then parseIntGo 4 length rest1
            else if formatCode = 0o30 then parseIntGo 8 length rest1
            else if formatCode = 0o51 then parseUintGo 1 length rest1
            else if formatCode = 0o52 then parseUintGo 2 length rest1
            else if formatCode = 0o54 then parseUintGo 4 length rest1
            else if formatCode = 0o50 then parseUintGo 8 length rest1
            else none

/-- parser.parseMessageText at the top level: an empty item when the
message length is exactly the header, otherwise one item parse whose
leftover bytes the caller ignores (the Go parser never checks that the
payload was fully consumed). -/
def parseMessageText (fuel msgLength : Nat) (body : List Nat) : Option ItemNode :=
  if msgLength = 10 then some NewEmptyItemNode
  else
    match parseItem fuel body with
    | none => none
    | some (item, _) => some item

/-- hsms.Parse: length prefix check, header split, PType check, then the
SType dispatch between a DataMessage (built through NewHSMSDataMessage,
whose checkRep panic the deferred recover turns into a failure) and the
eight control-message subtypes. -/
def Parse (input : List Nat) : Option HSMSMessage :=
  if input.length < 14 then none
  else
    let msgLength := beBytesToNat (input.take 4)
    if (input.drop 4).length ≠ msgLength then none
    else
      let headerBytes := (input.drop 4).take 10
      if headerBytes.getD 4 0 ≠ 0 then none
      else
        let sType := headerBytes.getD 5 0
        if sType = 0 then
          let stream : Int := headerBytes.getD 2 0 % 128
          let function : Int := headerBytes.getD 3 0
          let waitBit : Nat := headerBytes.getD 2 0 / 128
          let sessionID : Int := beBytesToNat (headerBytes.take 2)
          let systemBytes := (headerBytes.drop 6).take 4
          match parseMessageText input.length msgLength (input.drop 14) with
          | none => none
          | some dataItem =>
              match NewHSMSDataMessage "" stream function waitBit "H<->E" dataItem
                  sessionID systemBytes with
              | none => none
              | some m => some (.data m)
        else if sType = 1 ∨ sType = 2 ∨ sType = 3 ∨ sType = 4 ∨ sType = 5 ∨ sType = 6 ∨
            sType = 7 ∨ sType = 9 then
          some (.control (NewHSMSControlMessage headerBytes))
        else none

/-- Fill-in value map `map[string]interface{}` of FillVariables, as an
association list of factory-input cells. -/
abbrev FillMap := List (String × NodeInput)

/-- Lookup in a fill-in map. -/
def lookupFill (m : FillMap) (k : String) : Option NodeInput :=
  match m with
  | [] => none
  | (k0, v0) :: rest => if k0 = k then some v0 else lookupFill rest k

/-- FillVariables of the five flat nodes (IntNode, UintNode, FloatNode,
BooleanNode, BinaryNode), which share one shape: return the node unchanged
when no variable is present or none was filled, otherwise rebuild through
the factory with filled positions replaced by the supplied cells and
unfilled positions by their variable names. -/
def fillLeafInputs (base : List NodeInput) (vars : VarMap) (m : FillMap) :
    List NodeInput × Bool :=
  vars.foldl
    (fun acc e =>
      match lookupFill m e.1 with
      | some fv => (acc.1.set e.2 fv, true)
      | none => (acc.1.set e.2 (NodeInput.str e.1), acc.2))
    (base, false)

/-- FillVariables dispatch for the flat nodes; other shapes are unreachable
through this helper. -/
def leafFillVariables (node : ItemNode) (m : FillMap) : Option ItemNode :=
  match node with
  | .int byteSize values vars =>
      if vars = [] then some node
      else
        let r := fillLeafInputs (values.map NodeInput.int) vars m
        if !r.2 then some node else NewIntNode byteSize r.1
  | .uint byteSize values vars =>
      if vars = [] then some node
      else
        let r := fillLeafInputs (values.map (fun v => NodeInput.int (Int.ofNat v))) vars m
        if !r.2 then some node else NewUintNode byteSize r.1
  | .float byteSize values vars =>
      if vars = [] then some node
      else
        let r := fillLeafInputs (values.map NodeInput.float) vars m
        if !r.2 then some node else NewFloatNode byteSize r.1
  | .boolean values vars =>
      if vars = [] then some node
      else
        let r := fillLeafInputs (values.map NodeInput.bool) vars m
        if !r.2 then some node else NewBooleanNode r.1
  | .binary values vars =>
      if vars = [] then some node
      else
        let r := fillLeafInputs (values.map (fun v => NodeInput.int (Int.ofNat v))) vars m
        if !r.2 then some node else NewBinaryNode r.1
  | _ => none

/-- ASCIINode.FillVariables: a literal node or an absent key is returned
unchanged; a non-string fill-in value and a length outside the bounds are
panics; otherwise the literal factory runs on the fill-in string.  (String
lengths are counted in characters; on the ASCII strings the factory accepts
this agrees with Go's byte count, and on others both sides fail.) -/
def asciiFillVariables (value varName : String) (minLength maxLength : Int)
    (isValue : Bool) (m : FillMap) : Option ItemNode :=
  if isValue then some (.ascii value varName minLength maxLength isValue)
  else
    match lookupFill m varName with
    | none => some (.ascii value varName minLength maxLength isValue)
    | some (.str s) =>
        if (s.length : Int) < minLength then none
        else if maxLength ≠ -1 ∧ maxLength < (s.length : Int) then none
        else NewASCIINode s
    | some _ => none

/-- ListNode.splitValues: the ellipsis-keyed and the remaining entries. -/
def splitValues (m : FillMap) : FillMap × FillMap :=
  (m.filter (fun e => isEllipsis e.1), m.filter (fun e => !isEllipsis e.1))

mutual

/-- ListNode.ellipsisAnalysis: how many ellipses a fill with the given map
reaches and how many remain, children weighted by this node's repeat count
plus one; `none` is the `v.(int)` panic on a non-integer ellipsis fill.
Dispatching on the item shape mirrors the `item.(*ListNode)` type switch of
the child loop (non-list children contribute nothing). -/
def ellipsisAnalysisItem : ItemNode → FillMap → Option (Int × Int)
  | .list values vars, m =>
      let found := vars.find? (fun e => isEllipsis e.1)
      let own : Option (Int × Int × Int) :=
        match found with
        | none => some (0, 0, 0)
        | some e =>
            match lookupFill m e.1 with
            | some (.int v) => some (1, 0, v)
            | some _ => none
            | none => some (0, 1, 0)
      match own with
      | none => none
      | some (toFill, remaining, value) =>
          match ellipsisAnalysisChildren values m with
          | none => none
          | some (cf, cr) => some (toFill + (value + 1) * cf, remaining + (value + 1) * cr)
  | _, _ => some (0, 0)

/-- Child sum of ellipsisAnalysis over the direct ListNode children. -/
def ellipsisAnalysisChildren : List ItemNode → FillMap → Option (Int × Int)
  | [], _ => some (0, 0)
  | c :: rest, m =>
      match ellipsisAnalysisItem c m with
      | none => none
      | some (ef, er) =>
          match ellipsisAnalysisChildren rest m with
          | none => none
          | some (sf, sr) => some (ef + sf, er + sr)

end

/-- fillState from list.go. -/
structure FillState where
  currentDimension : Nat
  currentIndices : List Nat
  ellipsisCount : Nat
  multipleEllipsis : Bool

/-- newFillState. -/
def newFillState (remainingEllipsisCount : Int) : FillState :=
  ⟨0, [], 0, remainingEllipsisCount > 1⟩

/-- fillState.growDimension. -/
def growDimension (st : FillState) : FillState :=
  if st.currentDimension = st.currentIndices.length then
    { st with currentIndices := st.currentIndices ++ [0],
              currentDimension := st.currentDimension + 1 }
  else
    { st with currentIndices := st.currentIndices.set st.currentDimension 0,
              currentDimension := st.currentDimension + 1 }

/-- fillState.exitDimension. -/
def exitDimension (st : FillState) : FillState :=
  { st with currentDimension := st.currentDimension - 1 }

/-- fillState.getCurrentDimensionIndex. -/
def getCurrentDimensionIndex (st : FillState) : Nat :=
  st.currentIndices.getD (st.currentDimension - 1) 0

/-- fillState.growIndex. -/
def growIndex (st : FillState) : FillState :=
  { st with currentIndices :=
      st.currentIndices.set (st.currentDimension - 1) (getCurrentDimensionIndex st + 1) }

/-- fillState.getNewVariableName: remaining ellipses are renumbered when
several remain, other names receive one `[index]` tag per open dimension. -/
def getNewVariableName (st : FillState) (name : String) : String × FillState :=
  if isEllipsis name then
    if st.multipleEllipsis then
      ("...[" ++ toString st.ellipsisCount ++ "]",
        { st with ellipsisCount := st.ellipsisCount + 1 })
    else ("...", st)
  else
    ((List.range st.currentDimension).foldl
      (fun acc i => acc ++ "[" ++ toString (st.currentIndices.getD i 0) ++ "]") name, st)

/-- Per-variable rename map built by the default branch of fillEllipsis
(`fill[v] = state.getNewVariableName(v)` over the leaf's variables in
order). -/
def renameFillMap (st : FillState) (names : List String) : FillMap × FillState :=
  match names with
  | [] => ([], st)
  | v :: rest =>
      let r := getNewVariableName st v
      let r2 := renameFillMap r.2 rest
      ((v, NodeInput.str r.1) :: r2.1, r2.2)

/-- One slot of the fillEllipsis loop: nested lists recurse (through the
supplied continuation `fe`, instantiated with fillEllipsis one fuel level
down), a variable-mode ASCIINode and a variable slot are renamed with the
open repeat indices, any other leaf with variables is renamed through its
own FillVariables. -/
def handleEllipsisSlot
    (fe : List ItemNode → VarMap → FillState → Option (ItemNode × FillState))
    (values : List ItemNode) (vars : VarMap) (st : FillState) (i : Nat) :
    Option (NodeInput × FillState) :=
  match values.getD i ItemNode.empty with
  | .list cv cvars =>
      match fe cv cvars st with
      | none => none
      | some (item, st2) => some (.item item, st2)
  | .ascii av an amin amax aval =>
      let node := ItemNode.ascii av an amin amax aval
      if itemVariables node = [] then some (.item node, st)
      else
        let r := getNewVariableName st an
        match NewASCIINodeVariable r.1 amin amax with
        | none => none
        | some n => some (.item n, r.2)
  | .empty =>
      let r := getNewVariableName st (lookupPos vars i)
      some (.str r.1, r.2)
  | leaf =>
      if itemVariables leaf = [] then some (.item leaf, st)
      else
        let r := renameFillMap st (itemVariables leaf)
        match leafFillVariables leaf r.1 with
        | none => none
        | some n => some (.item n, r.2)

/-- Slot loop of fillEllipsis, with the index rewind at the ellipsis slot:
a zero repeat count skips the slot, an unfinished repeat grows the index,
rewinds to slot 0 and handles it, a finished repeat closes the dimension.
The loop's fuel bounds its iteration count. -/
def fillEllipsisLoop
    (slot : FillState → Nat → Option (NodeInput × FillState)) (size : Nat)
    (ellipsisPos : Option Nat) (ellipsisValue : Int) :
    Nat → FillState → Nat → List NodeInput → Option (List NodeInput × FillState)
  | 0, _, _, _ => none
  | fuel + 1, st, i, acc =>
      if i ≥ size then some (acc, st)
      else if ellipsisPos = some i then
        if ellipsisValue = 0 then
          fillEllipsisLoop slot size ellipsisPos ellipsisValue fuel st (i + 1) acc
        else if (getCurrentDimensionIndex st : Int) < ellipsisValue then
          match slot (growIndex st) 0 with
          | none => none
          | some (cell, st2) =>
              fillEllipsisLoop slot size ellipsisPos ellipsisValue fuel st2 1 (acc ++ [cell])
        else
          fillEllipsisLoop slot size ellipsisPos ellipsisValue fuel (exitDimension st)
            (i + 1) acc
      else
        match slot st i with
        | none => none
        | some (cell, st2) =>
            fillEllipsisLoop slot size ellipsisPos ellipsisValue fuel st2 (i + 1)
              (acc ++ [cell])

/-- ListNode.fillEllipsis: locate the (at most one) ellipsis whose value is
supplied, open a repeat dimension when its value is positive, and run the
slot loop; the result goes through NewListNode.  `none` covers the
`values[name].(int)` panic, factory panics, and fuel exhaustion. -/
def fillEllipsis (m : FillMap) :
    Nat → List ItemNode → VarMap → FillState → Option (ItemNode × FillState)
  | 0, _, _, _ => none
  | fuel + 1, values, vars, st =>
      let found := vars.find? (fun e => (lookupFill m e.1).isSome && isEllipsis e.1)
      let own : Option (Option Nat × Int × FillState) :=
        match found with
        | none => some (none, 0, st)
        | some e =>
            match lookupFill m e.1 with
            | some (.int v) => some (some e.2, v, if v > 0 then growDimension st else st)
            | _ => none
      match own with
      | none => none
      | some (ellipsisPos, ellipsisValue, st1) =>
          match fillEllipsisLoop (handleEllipsisSlot (fillEllipsis m fuel) values vars)
              values.length ellipsisPos ellipsisValue fuel st1 0 [] with
          | none => none
          | some (cells, st2) =>
              match NewListNode cells with
              | none => none
              | some item => some (item, st2)

/-- Child loop of ListNode.FillVariables: every slot (the emptyItemNode
slots included, whose FillVariables is the identity) is filled with the
supplied one-child fill function. -/
def fillSlots (f : ItemNode → Option ItemNode) :
    List ItemNode → Option (List NodeInput)
  | [] => some []
  | c :: rest =>
      match f c with
      | none => none
      | some c2 =>
          match fillSlots f rest with
          | none => none
          | some cells => some (NodeInput.item c2 :: cells)

/-- FillVariables of an item node, dispatching on its shape: the empty node
returns itself, ASCII and the flat nodes use their helpers, and ListNode
first fills supplied ellipses (fillEllipsis) and then rebuilds every slot
with the non-ellipsis values filled into the children and the direct
variable positions.  `none` models the factory and type-assertion panics
reachable from FillVariables, plus fuel exhaustion. -/
def itemFillVariables : Nat → ItemNode → FillMap → Option ItemNode
  | 0, _, _ => none
  | fuel + 1, node, m =>
      match node with
      | .empty => some .empty
      | .ascii av an amin amax aval => asciiFillVariables av an amin amax aval m
      | .list values vars =>
          let split := splitValues m
          match ellipsisAnalysisItem (.list values vars) split.1 with
          | none => none
          | some (toFill, remaining) =>
              let afterEllipsis : Option ItemNode :=
                if toFill > 0 then
                  match fillEllipsis split.1 fuel values vars (newFillState remaining) with
                  | none => none
                  | some (item, _) => some item
                else some (.list values vars)
              match afterEllipsis with
              | none => none
              | some (.list values2 vars2) =>
                  match fillSlots (fun c => itemFillVariables fuel c split.2) values2 with
                  | none => none
                  | some base =>
                      let cells := vars2.foldl
                        (fun acc e =>
                          match lookupFill split.2 e.1 with
                          | some fv => acc.set e.2 fv
                          | none => acc.set e.2 (NodeInput.str e.1))
                        base
                      NewListNode cells
              | some _ => none
      | leaf => leafFillVariables leaf m

/-- DataMessage.FillVariables: fill the item, keep the envelope, re-run
checkRep. -/
def dmFillVariables (fuel : Nat) (m : DataMessage) (values : FillMap) :
    Option DataMessage :=
  match itemFillVariables fuel m.dataItem values with
  | none => none
  | some item =>
      let m2 : DataMessage := { m with dataItem := item }
      if dmCheckRep m2 then some m2 else none

/-- ASCIINode.String, variable-mode size decoration (the if/else chain of
the source printer; note it has no dedicated `[..max]` form). -/
def asciiVarLengthStr (min max : Int) : String :=
  if min = 0 ∧ max = -1 then ""
  else if min = max then "[" ++ toString max ++ "]"
  else if max = -1 then "[" ++ toString min ++ "..]"
  else "[" ++ toString min ++ ".." ++ toString max ++ "]"

/-- Uppercase hexadecimal digit. -/
def hexDigit (n : Nat) : Char :=
  if n < 10 then Char.ofNat (48 + n) else Char.ofNat (55 + n)

/-- Go `fmt " 0x%02X"` body for a code point below 256. -/
def hex02 (n : Nat) : String :=
  ⟨[hexDigit (n / 16 % 16), hexDigit (n % 16)]⟩

/-- Literal-mode body of ASCIINode.String: printable runs in double quotes
alternating with ` 0xNN` escapes. -/
def asciiLiteralBody (chars : List Char) : String :=
  let r := chars.foldl
    (fun acc ch =>
      if ch.toNat < 32 ∨ ch.toNat = 127 then
        (acc.1 ++ (if acc.2 then "\"" else "") ++ " 0x" ++ hex02 ch.toNat, false)
      else
        (acc.1 ++ (if !acc.2 then " \"" else "") ++ String.mk [ch], true))
    ("", false)
  r.1 ++ (if r.2 then "\"" else "")

/-- ASCIINode.String. -/
def asciiNodeString (value varName : String) (minLength maxLength : Int)
    (isValue : Bool) : String :=
  if !isValue then
    "<A" ++ asciiVarLengthStr minLength maxLength ++ " " ++ varName ++ ">"
  else if value = "" then "<A[0]>"
  else "<A" ++ asciiLiteralBody value.data ++ ">"

/-!
Claim-side definitions.  These follow the words of the specification (not
the sources) and are compared with the source-side definitions above.
-/

/-- Number of length bytes the specification prescribes for a payload of
`n` bytes: 1 if at most 255, 2 if at most 65535, 3 otherwise. -/
def specLenByteCount (n : Nat) : Nat :=
  if n ≤ 255 then 1 else if n ≤ 65535 then 2 else 3

/-- Fuel-driven digit loop behind specBE. -/
def specBEAux : Nat → Nat → List Nat
  | 0, _ => []
  | fuel + 1, n => if n = 0 then [] else specBEAux fuel (n / 256) ++ [n % 256]

/-- Base-256 big-endian digits of `n` with no leading zero (empty for 0). -/
def specBE (n : Nat) : List Nat := specBEAux n n

/-- Minimal big-endian length-byte encoding per the specification: no
leading zero byte, except that 0 is one zero byte. -/
def specMinimalBE (n : Nat) : List Nat :=
  if n = 0 then [0] else specBE n

/-- Size decoration of a variable-mode ASCII item per the claim, amended in
its third clause: the spec's `[..k]` shape for `min = 0, max = k ≥ 0` is
printed by the source as the general two-sided form `[0..k]`. -/
def specAsciiSizeDecoAmended (min max : Int) : String :=
  if min = 0 ∧ max = -1 then ""
  else if min = max then "[" ++ toString max ++ "]"
  else if max = -1 ∧ min > 0 then "[" ++ toString min ++ "..]"
  else "[" ++ toString min ++ ".." ++ toString max ++ "]"

/-- Size decoration exactly as the claim states it, with a dedicated
`[..k]` clause when min is 0 and max is non-negative. -/
def specAsciiSizeDecoClaim (min max : Int) : String :=
  if min = 0 ∧ max = -1 then ""
  else if min = max then "[" ++ toString max ++ "]"
  else if max = -1 ∧ min > 0 then "[" ++ toString min ++ "..]"
  else if min = 0 ∧ 0 ≤ max then "[.." ++ toString max ++ "]"
  else "[" ++ toString min ++ ".." ++ toString max ++ "]"

mutual

/-- Items on which the decoder inverts the encoder, per the amended
round-trip claim: every item's length field fits one length byte (the
decoder's length loop truncates multi-byte length fields) and every Binary
item is empty (the decoder hands Go `byte` values to NewBinaryNode, whose
type switch rejects them). -/
def roundTrippable : ItemNode → Bool
  | .empty => true
  | .list values _ =>
      decide (values.length ≤ 255) && roundTrippableChildren values
  | .binary values _ => decide (values = [])
  | .boolean values _ => decide (values.length ≤ 255)
  | .ascii value _ _ _ _ => decide (value.length ≤ 255)
  | .int byteSize values _ => decide (values.length * byteSize ≤ 255)
  | .uint byteSize values _ => decide (values.length * byteSize ≤ 255)
  | .float byteSize values _ => decide (values.length * byteSize ≤ 255)

/-- Conjunction of roundTrippable over a list of children. -/
def roundTrippableChildren : List ItemNode → Bool
  | [] => true
  | c :: rest => roundTrippable c && roundTrippableChildren rest

end

mutual

/-- Nesting depth of an item, the fuel the one-item decoder needs. -/
def itemDepth : ItemNode → Nat
  | .list values _ => 1 + itemDepthChildren values
  | _ => 1

/-- Maximum depth over children. -/
def itemDepthChildren : List ItemNode → Nat
  | [] => 0
  | c :: rest => Nat.max (itemDepth c) (itemDepthChildren rest)

end

mutual

/-- Side condition of the amended variable-closure claim: the fill-in value
`x` is concretely acceptable for the variable `v` inside the item — it has
the type and range the owning factory stores as a plain value (so it is not
itself a variable name or binary literal string, which the factories would
register instead of storing).  For a variable slot of a list the fill-in
must be a well-formed, variable-free, non-empty item; for a variable inside
a child the condition recurses into the child holding `v`. -/
def acceptableFill : ItemNode → String → NodeInput → Bool
  | .empty, _, _ => false
  | .list values vars, v, x =>
      if (lookupVar vars v).isSome then
        match x with
        | .item n => itemWf n && decide (itemVariables n = []) && !isEmptyItem n
        | _ => false
      else acceptableFillChildren values v x
  | .binary _ _, _, x =>
      match x with
      | .int n => decide (0 ≤ n) && decide (n < 256)
      | _ => false
  | .boolean _ _, _, x =>
      match x with
      | .bool _ => true
      | _ => false
  | .ascii _ _ minL maxL _, _, x =>
      match x with
      | .str s =>
          decide (minL ≤ (s.length : Int)) &&
          (decide (maxL = -1) || decide ((s.length : Int) ≤ maxL)) &&
          decide (s.length ≤ MAX_BYTE_SIZE) &&
          s.data.all (fun c => decide (c.toNat ≤ 127))
      | _ => false
  | .int byteSize _ _, _, x =>
      match x with
      | .int n =>
          decide (-(2 ^ (byteSize * 8 - 1) : Int) ≤ n) &&
          decide (n ≤ (2 ^ (byteSize * 8 - 1) : Int) - 1)
      | _ => false
  | .uint byteSize _ _, _, x =>
      match x with
      | .int n => decide (0 ≤ n) && decide (n < (2 ^ (byteSize * 8) : Int))
      | _ => false
  | .float byteSize _ _, _, x =>
      match x with
      | .float bits => decide (bits < 2 ^ (byteSize * 8)) && finiteFloatBits byteSize bits
      | _ => false

/-- Acceptability through the children of a list: the condition applies in
the child whose variable list contains `v`. -/
def acceptableFillChildren : List ItemNode → String → NodeInput → Bool
  | [], _, _ => false
  | c :: rest, v, x =>
      if (itemVariables c).contains v then acceptableFill c v x
      else acceptableFillChildren rest v x

end

/-- Proof-side merge skeleton: walk the value list with a running index,
replacing the entry at each variable position (the variable table is sorted
by position) with `varc` of that entry and mapping the rest through `val`.
The position-indexed foldl updates of FillVariables and the sequential
recursion of buildInputs both reduce to this shape. -/
def slotMerge {α β : Type} (val : α → β) (varc : String × Nat → β) :
    List α → VarMap → Nat → List β
  | [], _, _ => []
  | a :: rest, [], i => val a :: slotMerge val varc rest [] (i + 1)
  | a :: rest, e :: vrest, i =>
      if e.2 = i then varc e :: slotMerge val varc rest vrest (i + 1)
      else val a :: slotMerge val varc rest (e :: vrest) (i + 1)

/-- Proof-side: a variable table whose positions are strictly ascending and
all at least `i` (the shape of a factory-built table seen from slot `i`). -/
def ascendingFrom (i : Nat) (m : VarMap) : Prop :=
  List.Pairwise (fun a b => a.2 < b.2) m ∧ ∀ e ∈ m, i ≤ e.2

/-- Proof-side: the cell the FillVariables loops place at a variable slot —
the supplied fill-in value when the name is present in the map, the
variable name itself otherwise. -/
def chooseCell (m : FillMap) (e : String × Nat) : NodeInput :=
  match lookupFill m e.1 with
  | some fv => fv
  | none => NodeInput.str e.1

/-!
Theorems for the checked claims.
-/

/-- C2: the HSMS item decoder is claimed to read `lb ∈ {1,2,3}` length
bytes as one big-endian integer.  The code computes
`length += int(b << shift)` with `b` a Go `byte`, so every term with a
nonzero shift is truncated mod 256: the encoder emits the two length bytes
`01 00` for a 256-byte binary payload, and the decoder reads them back as
length 0, not 256.  The shift computation shows big-endian intent; the
widening happens on the wrong side of the shift. -/
theorem c2_length_bytes_truncated :
    getHeaderBytes "binary" 256 = some [34, 1, 0] ∧
    goDecodeLength [1, 0] = 0 ∧
    goDecodeLength [1, 0, 0] = 0 ∧
    goDecodeLength [1, 0] ≠ 1 * 256 + 0 := by
  refine ⟨rfl, rfl, rfl, ?_⟩
  decide

/-- C5 counterexample: constructing a reject.req control message with
reason code 0 is claimed to fail, but NewHSMSMessageRejectReq performs no
reason-code check: with session id 0x1234, pType 9, sType 3 and system
bytes FC FD FE FF it succeeds and stamps sType into header byte 2 and 0
into header byte 3. -/
theorem c5_reject_reason_zero_succeeds :
    NewHSMSMessageRejectReq 0x1234 9 3 [0xFC, 0xFD, 0xFE, 0xFF] 0 =
      some ⟨[0x12, 0x34, 3, 0, 0, 7, 0xFC, 0xFD, 0xFE, 0xFF]⟩ ∧
    (NewHSMSMessageRejectReq 0x1234 9 3 [0xFC, 0xFD, 0xFE, 0xFF] 0).map controlType =
      some "reject.req" := by
  exact ⟨rfl, rfl⟩

/-- C5 amended: NewHSMSMessageRejectReq succeeds for every reason code
(zero included; the documented `reason ≠ 0` precondition is not enforced),
with SType 7, header byte 2 the supplied pType when the reason is 2 and the
supplied sType otherwise, header byte 3 the reason code, and the caller's
session id and system bytes copied into the header. -/
theorem c5_reject_req_header (sessionID pType sType b0 b1 b2 b3 reasonCode : Nat) :
    NewHSMSMessageRejectReq sessionID pType sType [b0, b1, b2, b3] reasonCode =
      some ⟨[sidHi sessionID, sidLo sessionID,
        if reasonCode = 2 then pType else sType, reasonCode, 0, 7, b0, b1, b2, b3]⟩ ∧
    controlType ⟨[sidHi sessionID, sidLo sessionID,
        if reasonCode = 2 then pType else sType, reasonCode, 0, 7, b0, b1, b2, b3]⟩ =
      "reject.req" := by
  exact ⟨rfl, rfl⟩

/-- C6 counterexample: for a variable-mode ASCII item with bounds
(min, max) = (0, 5) the claim prescribes the decoration `[..5]`, but the
source printer has no `[..k]` branch and prints `<A[0..5] var>`. -/
theorem c6_ascii_refuted :
    asciiNodeString "" "var" 0 5 false = "<A[0..5] var>" ∧
    specAsciiSizeDecoClaim 0 5 = "[..5]" ∧
    asciiNodeString "" "var" 0 5 false ≠
      "<A" ++ specAsciiSizeDecoClaim 0 5 ++ " " ++ "var" ++ ">" := by
  refine ⟨rfl, rfl, ?_⟩
  decide

/-- C6 amended: for every ASCII item in variable mode with well-formed
bounds, the printed form is `<A` + decoration + ` ` + name + `>`, where the
decoration is empty for (0,-1), `[k]` for min = max = k, `[k..]` for
max = -1 with min > 0, and the two-sided `[min..max]` in every other case —
in particular `[0..k]`, not `[..k]`, when min = 0 and max = k ≥ 0. -/
theorem c6_ascii_variable_print (name : String) (min max : Int)
    (hmin : 0 ≤ min) (hmax : -1 ≤ max) (hord : max = -1 ∨ min ≤ max) :
    asciiNodeString "" name min max false =
      "<A" ++ specAsciiSizeDecoAmended min max ++ " " ++ name ++ ">" := by
  have hmid : asciiVarLengthStr min max = specAsciiSizeDecoAmended min max := by
    unfold asciiVarLengthStr specAsciiSizeDecoAmended
    by_cases h1 : min = 0 ∧ max = -1
    · rw [if_pos h1, if_pos h1]
    · rw [if_neg h1, if_neg h1]
      by_cases h2 : min = max
      · rw [if_pos h2, if_pos h2]
      · rw [if_neg h2, if_neg h2]
        by_cases h3 : max = -1
        · have hgt : min > 0 := by
            have hne : min ≠ 0 := fun h0 => h1 ⟨h0, h3⟩
            omega
          rw [if_pos h3, if_pos ⟨h3, hgt⟩]
        · rw [if_neg h3, if_neg (fun hc => h3 hc.1)]
  calc asciiNodeString "" name min max false
      = "<A" ++ asciiVarLengthStr min max ++ " " ++ name ++ ">" := rfl
    _ = "<A" ++ specAsciiSizeDecoAmended min max ++ " " ++ name ++ ">" := by rw [hmid]

/-- C6 witness: the amended print shape at the concrete bounds (1, -1). -/
theorem c6_ascii_variable_print_witness :
    asciiNodeString "" "v" 1 (-1) false =
      "<A" ++ specAsciiSizeDecoAmended 1 (-1) ++ " " ++ "v" ++ ">" :=
  c6_ascii_variable_print "v" 1 (-1) (by decide) (by decide) (Or.inl rfl)

/-!
Equation lemmas, proved by `rfl`.  The mutual recursions over the nested
item tree unfold poorly inside tactics; these lemmas restate their defining
equations for rewriting.
-/

@[simp] theorem itemVariables_empty : itemVariables .empty = [] := rfl

@[simp] theorem itemVariables_list (values : List ItemNode) (vars : VarMap) :
    itemVariables (.list values vars) = listSlotVariables values vars 0 := rfl

@[simp] theorem itemVariables_binary (values : List Nat) (vars : VarMap) :
    itemVariables (.binary values vars) = getVariableNames vars := rfl

@[simp] theorem itemVariables_boolean (values : List Bool) (vars : VarMap) :
    itemVariables (.boolean values vars) = getVariableNames vars := rfl

@[simp] theorem itemVariables_ascii (value varName : String) (minL maxL : Int)
    (isValue : Bool) :
    itemVariables (.ascii value varName minL maxL isValue) =
      if isValue then [] else [varName] := rfl

@[simp] theorem itemVariables_int (byteSize : Nat) (values : List Int) (vars : VarMap) :
    itemVariables (.int byteSize values vars) = getVariableNames vars := rfl

@[simp] theorem itemVariables_uint (byteSize : Nat) (values : List Nat) (vars : VarMap) :
    itemVariables (.uint byteSize values vars) = getVariableNames vars := rfl

@[simp] theorem itemVariables_float (byteSize : Nat) (values : List Nat) (vars : VarMap) :
    itemVariables (.float byteSize values vars) = getVariableNames vars := rfl

@[simp] theorem listSlotVariables_nil (vars : VarMap) (i : Nat) :
    listSlotVariables [] vars i = [] := rfl

@[simp] theorem listSlotVariables_cons_empty (rest : List ItemNode)
    (vars : VarMap) (i : Nat) :
    listSlotVariables (.empty :: rest) vars i =
      lookupPos vars i :: listSlotVariables rest vars (i + 1) := rfl

@[simp] theorem listSlotVariables_cons_list (values : List ItemNode) (lv : VarMap)
    (rest : List ItemNode) (vars : VarMap) (i : Nat) :
    listSlotVariables (.list values lv :: rest) vars i =
      itemVariables (.list values lv) ++ listSlotVariables rest vars (i + 1) := rfl

@[simp] theorem listSlotVariables_cons_binary (values : List Nat) (lv : VarMap)
    (rest : List ItemNode) (vars : VarMap) (i : Nat) :
    listSlotVariables (.binary values lv :: rest) vars i =
      itemVariables (.binary values lv) ++ listSlotVariables rest vars (i + 1) := rfl

@[simp] theorem listSlotVariables_cons_boolean (values : List Bool) (lv : VarMap)
    (rest : List ItemNode) (vars : VarMap) (i : Nat) :
    listSlotVariables (.boolean values lv :: rest) vars i =
      itemVariables (.boolean values lv) ++ listSlotVariables rest vars (i + 1) := rfl

@[simp] theorem listSlotVariables_cons_ascii (value varName : String) (minL maxL : Int)
    (isValue : Bool) (rest : List ItemNode) (vars : VarMap) (i : Nat) :
    listSlotVariables (.ascii value varName minL maxL isValue :: rest) vars i =
      itemVariables (.ascii value varName minL maxL isValue) ++
        listSlotVariables rest vars (i + 1) := rfl

@[simp] theorem listSlotVariables_cons_int (b : Nat) (values : List Int) (lv : VarMap)
    (rest : List ItemNode) (vars : VarMap) (i : Nat) :
    listSlotVariables (.int b values lv :: rest) vars i =
      itemVariables (.int b values lv) ++ listSlotVariables rest vars (i + 1) := rfl

@[simp] theorem listSlotVariables_cons_uint (b : Nat) (values : List Nat) (lv : VarMap)
    (rest : List ItemNode) (vars : VarMap) (i : Nat) :
    listSlotVariables (.uint b values lv :: rest) vars i =
      itemVariables (.uint b values lv) ++ listSlotVariables rest vars (i + 1) := rfl

@[simp] theorem listSlotVariables_cons_float (b : Nat) (values : List Nat) (lv : VarMap)
    (rest : List ItemNode) (vars : VarMap) (i : Nat) :
    listSlotVariables (.float b values lv :: rest) vars i =
      itemVariables (.float b values lv) ++ listSlotVariables rest vars (i + 1) := rfl

@[simp] theorem itemToBytes_empty : itemToBytes .empty = [] := rfl

theorem itemToBytes_list (values : List ItemNode) (vars : VarMap) :
    itemToBytes (.list values vars) =
      (if vars ≠ [] then []
       else
        match getHeaderBytes "list" (values.length : Int) with
        | none => []
        | some header =>
            match childrenToBytes values with
            | none => []
            | some body => header ++ body) := rfl

theorem itemToBytes_binary (values : List Nat) (vars : VarMap) :
    itemToBytes (.binary values vars) =
      (if vars ≠ [] then []
       else
        match getHeaderBytes "binary" (values.length : Int) with
        | none => []
        | some header => header ++ values.map (fun v => v % 256)) := rfl

theorem itemToBytes_boolean (values : List Bool) (vars : VarMap) :
    itemToBytes (.boolean values vars) =
      (if vars ≠ [] then []
       else
        match getHeaderBytes "boolean" (values.length : Int) with
        | none => []
        | some header => header ++ values.map boolByte) := rfl

theorem itemToBytes_ascii (value varName : String) (minL maxL : Int) (isValue : Bool) :
    itemToBytes (.ascii value varName minL maxL isValue) =
      (if !isValue then []
       else
        match getHeaderBytes "ascii" (value.length : Int) with
        | none => []
        | some header => header ++ value.data.map (fun c => c.toNat % 256)) := rfl

theorem itemToBytes_int (byteSize : Nat) (values : List Int) (vars : VarMap) :
    itemToBytes (.int byteSize values vars) =
      (if vars ≠ [] then []
       else
        match getHeaderBytes ("i" ++ toString byteSize) (values.length : Int) with
        | none => []
        | some header =>
            header ++ (values.map (fun v => natToBEBytes byteSize (goUint64OfInt v))).flatten) :=
  rfl

theorem itemToBytes_uint (byteSize : Nat) (values : List Nat) (vars : VarMap) :
    itemToBytes (.uint byteSize values vars) =
      (if vars ≠ [] then []
       else
        match getHeaderBytes ("u" ++ toString byteSize) (values.length : Int) with
        | none => []
        | some header => header ++ (values.map (natToBEBytes byteSize)).flatten) := rfl

theorem itemToBytes_float (byteSize : Nat) (values : List Nat) (vars : VarMap) :
    itemToBytes (.float byteSize values vars) =
      (if vars ≠ [] then []
       else
        match getHeaderBytes ("f" ++ toString byteSize) (values.length : Int) with
        | none => []
        | some header => header ++ (values.map (natToBEBytes byteSize)).flatten) := rfl

@[simp] theorem childrenToBytes_nil : childrenToBytes [] = some [] := rfl

theorem childrenToBytes_cons (c : ItemNode) (rest : List ItemNode) :
    childrenToBytes (c :: rest) =
      (if itemToBytes c = [] then none
       else
        match childrenToBytes rest with
        | none => none
        | some bs => some (itemToBytes c ++ bs)) := by
  show (let cb := itemToBytes c
        if cb = [] then none
        else
          match childrenToBytes rest with
          | none => none
          | some bs => some (cb ++ bs)) = _
  rfl

mutual

/-- Any item that still reports variables encodes to the empty byte
sequence: the flat nodes and lists by their direct-variable guards, lists
also when a slot or descendant forces the child loop to abort. -/
theorem itemToBytes_eq_nil_of_vars :
    ∀ (item : ItemNode), itemVariables item ≠ [] → itemToBytes item = []
  | .empty, h => absurd rfl h
  | .list values vars, h => by
      rw [itemToBytes_list]
      by_cases hv : vars = []
      · subst hv
        rw [childrenToBytes_eq_none values [] 0 (by simpa using h)]
        simp only [ne_eq, not_true_eq_false, if_false, ite_false]
        cases getHeaderBytes "list" (values.length : Int) <;> simp
      · simp [hv]
  | .binary values vars, h => by
      rw [itemToBytes_binary]
      have hv : vars ≠ [] := by
        intro he; subst he; simp [getVariableNames, sortByPos] at h
      simp [hv]
  | .boolean values vars, h => by
      rw [itemToBytes_boolean]
      have hv : vars ≠ [] := by
        intro he; subst he; simp [getVariableNames, sortByPos] at h
      simp [hv]
  | .ascii value varName minL maxL isValue, h => by
      rw [itemToBytes_ascii]
      have hval : isValue = false := by
        cases isValue
        · rfl
        · simp at h
      simp [hval]
  | .int byteSize values vars, h => by
      rw [itemToBytes_int]
      have hv : vars ≠ [] := by
        intro he; subst he; simp [getVariableNames, sortByPos] at h
      simp [hv]
  | .uint byteSize values vars, h => by
      rw [itemToBytes_uint]
      have hv : vars ≠ [] := by
        intro he; subst he; simp [getVariableNames, sortByPos] at h
      simp [hv]
  | .float byteSize values vars, h => by
      rw [itemToBytes_float]
      have hv : vars ≠ [] := by
        intro he; subst he; simp [getVariableNames, sortByPos] at h
      simp [hv]

/-- A slot list that still reports variables makes the child encoding loop
abort: an emptyItemNode slot encodes to nothing, and a child with
variables encodes to nothing by the theorem above. -/
theorem childrenToBytes_eq_none :
    ∀ (items : List ItemNode) (vars : VarMap) (i : Nat),
      listSlotVariables items vars i ≠ [] → childrenToBytes items = none
  | [], _, _, h => absurd rfl h
  | c :: rest, vars, i, h => by
      rw [childrenToBytes_cons]
      by_cases hcb : itemToBytes c = []
      · simp [hcb]
      · have hcv : itemVariables c = [] := by
          by_contra hne
          exact hcb (itemToBytes_eq_nil_of_vars c hne)
        have hr : listSlotVariables rest vars (i + 1) ≠ [] := by
          cases c with
          | empty => exact absurd rfl hcb
          | _ => simp [hcv] at h; exact h
        rw [childrenToBytes_eq_none rest vars (i + 1) hr]
        simp [hcb]

end

/-- Helper for C3: in the serializable case DataMessage.ToBytes yields the
non-empty frame. -/
theorem dmToBytes_serializable_ne_nil (m : DataMessage) (w : String)
    (hsys : m.systemBytes.length = 4) (hw : goWaitBitStr m.waitBit = some w)
    (hwopt : w ≠ "optional") (hv : dmVariables m = []) (hsid : m.sessionID ≠ -1) :
    ∃ bs, dmToBytes m = some bs ∧ bs ≠ [] := by
  unfold dmToBytes
  rw [hw]
  dsimp only
  rw [if_neg (by simp [hwopt, hv, hsid]), if_neg (by omega)]
  refine ⟨_, rfl, fun hnil => ?_⟩
  have hlen := congrArg List.length hnil
  simp [natToBEBytes] at hlen

/-- C3: byte-level encoders never throw.  Embedded as: the item encoders
are total functions that return the empty sequence whenever a variable
remains unfilled, and DataMessage.ToBytes, under the two representation
invariants its panics guard (wait bit at most 2, four system bytes),
always returns a byte sequence, which is empty exactly when the wait bit
is optional, a variable remains in the data item, or the session id is
unset (-1) — and is the non-empty HSMS frame otherwise. -/
theorem c3_encoders_never_throw :
    (∀ item : ItemNode, itemVariables item ≠ [] → itemToBytes item = []) ∧
    (∀ m : DataMessage, m.waitBit ≤ 2 → m.systemBytes.length = 4 →
      ∃ bs, dmToBytes m = some bs ∧
        (bs = [] ↔ (m.waitBit = 2 ∨ dmVariables m ≠ [] ∨ m.sessionID = -1))) := by
  refine ⟨itemToBytes_eq_nil_of_vars, ?_⟩
  intro m hw hsys
  have hcase : m.waitBit = 0 ∨ m.waitBit = 1 ∨ m.waitBit = 2 := by omega
  have hser : ∀ w, goWaitBitStr m.waitBit = some w → w ≠ "optional" →
      dmVariables m = [] → m.sessionID ≠ -1 →
      ∃ bs, dmToBytes m = some bs ∧
        (bs = [] ↔ (m.waitBit = 2 ∨ dmVariables m ≠ [] ∨ m.sessionID = -1)) := by
    intro w hwv hwopt hv hsid
    obtain ⟨bs, hbs, hne⟩ := dmToBytes_serializable_ne_nil m w hsys hwv hwopt hv hsid
    have hw2 : m.waitBit ≠ 2 := by
      intro h2
      rw [h2] at hwv
      exact hwopt (by injection hwv with hh; exact hh.symm)
    exact ⟨bs, hbs, by simp [hne, hw2, hv, hsid]⟩
  have hguarded : (dmVariables m ≠ [] ∨ m.sessionID = -1) → ∀ w,
      goWaitBitStr m.waitBit = some w →
      ∃ bs, dmToBytes m = some bs ∧
        (bs = [] ↔ (m.waitBit = 2 ∨ dmVariables m ≠ [] ∨ m.sessionID = -1)) := by
    intro hrest w hwv
    refine ⟨[], ?_, by simp [hrest]⟩
    unfold dmToBytes
    rw [hwv]
    dsimp only
    rw [if_pos (Or.inr hrest)]
  rcases hcase with hwb | hwb | hwb
  · by_cases hrest : dmVariables m ≠ [] ∨ m.sessionID = -1
    · exact hguarded hrest "false" (by rw [hwb]; rfl)
    · push_neg at hrest
      exact hser "false" (by rw [hwb]; rfl) (by decide) hrest.1 hrest.2
  · by_cases hrest : dmVariables m ≠ [] ∨ m.sessionID = -1
    · exact hguarded hrest "true" (by rw [hwb]; rfl)
    · push_neg at hrest
      exact hser "true" (by rw [hwb]; rfl) (by decide) hrest.1 hrest.2
  · refine ⟨[], ?_, by simp [hwb]⟩
    unfold dmToBytes
    rw [show goWaitBitStr m.waitBit = some "optional" by rw [hwb]; rfl]
    dsimp only
    rw [if_pos (Or.inl rfl)]

/-- C3 witness: a flat item with one variable encodes to nothing, and a
concrete well-formed message with wait bit false, an empty data item and
session id 0 encodes to a non-empty frame. -/
theorem c3_encoders_never_throw_witness :
    (itemToBytes (.int 1 [0] [("v", 0)]) = []) ∧
    (∃ bs, dmToBytes ⟨"", 1, 1, 0, "H<->E", .empty, 0, [0, 0, 0, 0]⟩ = some bs ∧
      (bs = [] ↔
        ((0 : Nat) = 2 ∨
          dmVariables ⟨"", 1, 1, 0, "H<->E", .empty, 0, [0, 0, 0, 0]⟩ ≠ [] ∨
          (0 : Int) = -1))) :=
  ⟨c3_encoders_never_throw.1 (.int 1 [0] [("v", 0)]) (by decide),
   c3_encoders_never_throw.2 ⟨"", 1, 1, 0, "H<->E", .empty, 0, [0, 0, 0, 0]⟩
     (by decide) (by decide)⟩

/-- Helper for C10: the decoder's DataMessage constructor call fails for a
set wait bit and an even function code, whatever the item: either one of
the three explicit guards fires or checkRep rejects the wait-bit/function
combination. -/
theorem NewHSMSDataMessage_wait_even_none (name : String) (stream function : Int)
    (direction : String) (item : ItemNode) (sid : Int) (sys : List Nat)
    (hf : function % 2 = 0) :
    NewHSMSDataMessage name stream function 1 direction item sid sys = none := by
  unfold NewHSMSDataMessage
  rw [if_neg (by simp)]
  by_cases hsid : sid = -1
  · rw [if_pos hsid]
  · rw [if_neg hsid]
    by_cases hvars : (itemVariables item).length ≠ 0
    · rw [if_pos hvars]
    · rw [if_neg hvars]
      rw [if_neg]
      simp [dmCheckRep, hf]

/-- Helper for C10: header-byte views of the parsed input. -/
theorem headerBytes_getD (input : List Nat) (i : Nat) (h : i < 10) :
    ((input.drop 4).take 10).getD i 0 = input.getD (4 + i) 0 := by
  simp [List.getD, List.getElem?_take, List.getElem?_drop, h]

/-- C10: a frame with a correct length prefix, PType 0 and SType 0 whose
header byte 6 has the wait bit set while the function byte 7 is even is
never decoded: either the item payload fails to parse, or the DataMessage
constructor rejects the wait-bit/even-function combination and the
recovered panic makes Parse fail. -/
theorem c10_wait_even_frame_rejected (input : List Nat)
    (hlen : 14 ≤ input.length)
    (hbytes : ∀ b ∈ input, b < 256)
    (hlenpre : beBytesToNat (input.take 4) = input.length - 4)
    (hptype : input.getD 8 0 = 0)
    (hstype : input.getD 9 0 = 0)
    (hwaitbit : 128 ≤ input.getD 6 0)
    (heven : input.getD 7 0 % 2 = 0) :
    Parse input = none := by
  have hb6 : input.getD 6 0 < 256 := by
    rw [List.getD_eq_getElem input 0 (by omega)]
    exact hbytes _ (List.getElem_mem (by omega))
  unfold Parse
  rw [if_neg (by omega)]
  rw [if_neg (by simp [hlenpre])]
  dsimp only
  rw [headerBytes_getD input 4 (by omega), headerBytes_getD input 5 (by omega),
    headerBytes_getD input 2 (by omega), headerBytes_getD input 3 (by omega)]
  rw [if_neg (fun hcc => hcc hptype), if_pos hstype]
  cases hparse : parseMessageText input.length (beBytesToNat (input.take 4)) (input.drop 14) with
  | none => rfl
  | some item =>
      dsimp only
      have hwb : input.getD 6 0 / 128 = 1 := by omega
      rw [hwb]
      rw [NewHSMSDataMessage_wait_even_none _ _ _ _ _ _ _
        (by rw [show (4 + 3 : Nat) = 7 from rfl]; omega)]

/-- C10 witness: the 14-byte frame with header byte 6 = 0x80 (wait bit set,
stream 0) and function byte 2 fails to parse. -/
theorem c10_wait_even_frame_rejected_witness :
    Parse [0, 0, 0, 10, 0, 0, 0x80, 2, 0, 0, 0, 0, 0, 0] = none :=
  c10_wait_even_frame_rejected [0, 0, 0, 10, 0, 0, 0x80, 2, 0, 0, 0, 0, 0, 0]
    (by decide) (by decide) (by decide) (by decide) (by decide) (by decide) (by decide)

/-- The wait-bit representation invariant of the claim: a set wait bit
requires an odd (primary) function code. -/
def dmWaitInv (m : DataMessage) : Prop := m.waitBit = 1 → m.function % 2 = 1

/-- Helper for C9: checkRep enforces the wait-bit invariant. -/
theorem dmCheckRep_waitInv (m : DataMessage) (h : dmCheckRep m = true) : dmWaitInv m := by
  intro h1
  have hkey : ¬(m.waitBit = 1 ∧ m.function % 2 = 0) := by
    rintro ⟨hw, hf⟩
    unfold dmCheckRep at h
    simp [hw, hf] at h
  have hne : m.function % 2 ≠ 0 := fun hf => hkey ⟨h1, hf⟩
  omega

/-- C9: every operation producing a DataMessage — NewDataMessage,
NewHSMSDataMessage, SetWaitBit, SetSessionIDAndSystemBytes and
FillVariables — either fails (returns `none`, the embedded panic) or
produces a message satisfying the wait-bit invariant: wait bit 1 (true)
implies an odd function code.  SetWaitBit additionally requires the input
message to satisfy the invariant, since it returns the input unchanged
when the wait bit is not optional.  No reachable DataMessage violates the
invariant. -/
theorem c9_wait_bit_invariant :
    (∀ (name : String) (stream function : Int) (waitBit : Nat) (direction : String)
      (item : ItemNode) (m : DataMessage),
      NewDataMessage name stream function waitBit direction item = some m → dmWaitInv m) ∧
    (∀ (name : String) (stream function : Int) (waitBit : Nat) (direction : String)
      (item : ItemNode) (sid : Int) (sys : List Nat) (m : DataMessage),
      NewHSMSDataMessage name stream function waitBit direction item sid sys = some m →
      dmWaitInv m) ∧
    (∀ (m : DataMessage) (b : Bool) (m2 : DataMessage),
      dmWaitInv m → SetWaitBit m b = some m2 → dmWaitInv m2) ∧
    (∀ (m : DataMessage) (sid : Int) (sys : List Nat) (m2 : DataMessage),
      SetSessionIDAndSystemBytes m sid sys = some m2 → dmWaitInv m2) ∧
    (∀ (fuel : Nat) (m : DataMessage) (values : FillMap) (m2 : DataMessage),
      dmFillVariables fuel m values = some m2 → dmWaitInv m2) := by
  refine ⟨?_, ?_, ?_, ?_, ?_⟩
  · intro name stream function waitBit direction item m hsome
    unfold NewDataMessage at hsome
    dsimp only at hsome
    split at hsome
    · injection hsome with hh
      subst hh
      exact dmCheckRep_waitInv _ (by assumption)
    · exact absurd hsome (by simp)
  · intro name stream function waitBit direction item sid sys m hsome
    unfold NewHSMSDataMessage at hsome
    dsimp only at hsome
    split at hsome
    · exact absurd hsome (by simp)
    · split at hsome
      · exact absurd hsome (by simp)
      · split at hsome
        · exact absurd hsome (by simp)
        · split at hsome
          · injection hsome with hh
            subst hh
            exact dmCheckRep_waitInv _ (by assumption)
          · exact absurd hsome (by simp)
  · intro m b m2 hinv hsome
    unfold SetWaitBit at hsome
    dsimp only at hsome
    split at hsome
    · injection hsome with hh
      subst hh
      exact hinv
    · split at hsome <;> split at hsome
      · injection hsome with hh
        subst hh
        exact dmCheckRep_waitInv _ (by assumption)
      · exact absurd hsome (by simp)
      · injection hsome with hh
        subst hh
        exact dmCheckRep_waitInv _ (by assumption)
      · exact absurd hsome (by simp)
  · intro m sid sys m2 hsome
    unfold SetSessionIDAndSystemBytes at hsome
    dsimp only at hsome
    split at hsome
    · injection hsome with hh
      subst hh
      exact dmCheckRep_waitInv _ (by assumption)
    · exact absurd hsome (by simp)
  · intro fuel m values m2 hsome
    unfold dmFillVariables at hsome
    dsimp only at hsome
    split at hsome
    · exact absurd hsome (by simp)
    · split at hsome
      · injection hsome with hh
        subst hh
        exact dmCheckRep_waitInv _ (by assumption)
      · exact absurd hsome (by simp)

/-- C9 witness: the five operations applied at concrete inputs, each
producing a message that satisfies the invariant. -/
theorem c9_wait_bit_invariant_witness :
    dmWaitInv ⟨"", 1, 1, 1, "H->E", .empty, -1, [0, 0, 0, 0]⟩ ∧
    dmWaitInv ⟨"", 1, 1, 1, "H<->E", .empty, 0, [0, 0, 0, 0]⟩ ∧
    dmWaitInv ⟨"", 1, 3, 0, "H->E", .empty, -1, [0, 0, 0, 0]⟩ ∧
    dmWaitInv ⟨"", 1, 5, 0, "H->E", .empty, 7, [1, 2, 3, 4]⟩ ∧
    dmWaitInv ⟨"", 1, 7, 0, "H->E", .empty, -1, [0, 0, 0, 0]⟩ :=
  ⟨c9_wait_bit_invariant.1 "" 1 1 1 "H->E" .empty
     ⟨"", 1, 1, 1, "H->E", .empty, -1, [0, 0, 0, 0]⟩ (by rfl),
   c9_wait_bit_invariant.2.1 "" 1 1 1 "H<->E" .empty 0 [0, 0, 0, 0]
     ⟨"", 1, 1, 1, "H<->E", .empty, 0, [0, 0, 0, 0]⟩ (by rfl),
   c9_wait_bit_invariant.2.2.1 ⟨"", 1, 3, 2, "H->E", .empty, -1, [0, 0, 0, 0]⟩ false
     ⟨"", 1, 3, 0, "H->E", .empty, -1, [0, 0, 0, 0]⟩
     (fun h1 => absurd h1 (by decide)) (by rfl),
   c9_wait_bit_invariant.2.2.2.1 ⟨"", 1, 5, 0, "H->E", .empty, -1, [0, 0, 0, 0]⟩ 7 [1, 2, 3, 4]
     ⟨"", 1, 5, 0, "H->E", .empty, 7, [1, 2, 3, 4]⟩ (by rfl),
   c9_wait_bit_invariant.2.2.2.2 3 ⟨"", 1, 7, 0, "H->E", .empty, -1, [0, 0, 0, 0]⟩ []
     ⟨"", 1, 7, 0, "H->E", .empty, -1, [0, 0, 0, 0]⟩ (by rfl)⟩

/-- C8: filling the item `<L <A var> varNode ...>` with `{...: 1}` yields a
list of size 4, the slots before the ellipsis repeated for a second time
and every clone's variables renamed with the repeat-index suffix, so the
variables in positional order are var[0], varNode[0], var[1], varNode[1]. -/
theorem c8_ellipsis_expansion :
    NewListNode [.item (.ascii "" "var" 0 (-1) false), .str "varNode", .str "..."] =
      some (.list [.ascii "" "var" 0 (-1) false, .empty, .empty]
        [("varNode", 1), ("...", 2)]) ∧
    itemFillVariables 20
        (.list [.ascii "" "var" 0 (-1) false, .empty, .empty] [("varNode", 1), ("...", 2)])
        [("...", .int 1)] =
      some (.list
        [.ascii "" "var[0]" 0 (-1) false, .empty, .ascii "" "var[1]" 0 (-1) false, .empty]
        [("varNode[0]", 1), ("varNode[1]", 3)]) ∧
    itemSize (.list
        [.ascii "" "var[0]" 0 (-1) false, .empty, .ascii "" "var[1]" 0 (-1) false, .empty]
        [("varNode[0]", 1), ("varNode[1]", 3)]) = 4 ∧
    itemVariables (.list
        [.ascii "" "var[0]" 0 (-1) false, .empty, .ascii "" "var[1]" 0 (-1) false, .empty]
        [("varNode[0]", 1), ("varNode[1]", 3)]) =
      ["var[0]", "varNode[0]", "var[1]", "varNode[1]"] :=
  ⟨rfl, rfl, rfl, rfl⟩

/-- C7 counterexample: filling the ellipsis of `<L <A var> ...>` with 1 (an
acceptable, documented fill-in for an ellipsis variable) duplicates and
renames the `var` slot, so the resulting variable list [var[0], var[1]] is
not the original variable list [var, ...] with "..." removed. -/
theorem c7_variable_closure_refuted :
    itemVariables (.list [.ascii "" "var" 0 (-1) false, .empty] [("...", 1)]) =
      ["var", "..."] ∧
    itemFillVariables 20 (.list [.ascii "" "var" 0 (-1) false, .empty] [("...", 1)])
        [("...", .int 1)] =
      some (.list [.ascii "" "var[0]" 0 (-1) false, .ascii "" "var[1]" 0 (-1) false] []) ∧
    itemVariables
        (.list [.ascii "" "var[0]" 0 (-1) false, .ascii "" "var[1]" 0 (-1) false] []) =
      ["var[0]", "var[1]"] ∧
    ["var[0]", "var[1]"] ≠ (["var", "..."].erase "...") := by
  refine ⟨rfl, rfl, rfl, ?_⟩
  decide

/-! Base-256 digit lemmas for the claim-side minimal length encoding. -/

theorem specBEAux_zero (fuel : Nat) : specBEAux fuel 0 = [] := by
  cases fuel <;> simp [specBEAux]

theorem specBEAux_small (fuel m : Nat) (h1 : 1 ≤ m) (h2 : m ≤ 255) (hf : 1 ≤ fuel) :
    specBEAux fuel m = [m] := by
  match fuel, hf with
  | fuel + 1, _ =>
    have hm : m ≠ 0 := by omega
    have hd : m / 256 = 0 := Nat.div_eq_of_lt (by omega)
    have hr : m % 256 = m := Nat.mod_eq_of_lt (by omega)
    simp [specBEAux, hm, hd, hr, specBEAux_zero]

theorem specBEAux_mid (fuel m : Nat) (h1 : 256 ≤ m) (h2 : m ≤ 65535) (hf : 2 ≤ fuel) :
    specBEAux fuel m = [m / 256, m % 256] := by
  match fuel, hf with
  | fuel + 1, _ =>
    have hm : m ≠ 0 := by omega
    have hd1 : 1 ≤ m / 256 := by omega
    have hd2 : m / 256 ≤ 255 := by omega
    simp only [specBEAux, if_neg hm]
    rw [specBEAux_small fuel (m / 256) hd1 hd2 (by omega)]
    rfl

theorem specBEAux_big (fuel m : Nat) (h1 : 65536 ≤ m) (h2 : m ≤ 2 ^ 24 - 1)
    (hf : 3 ≤ fuel) :
    specBEAux fuel m = [m / 65536, m / 256 % 256, m % 256] := by
  match fuel, hf with
  | fuel + 1, _ =>
    have hm : m ≠ 0 := by
      omega
    have hd1 : 256 ≤ m / 256 := by omega
    have hd2 : m / 256 ≤ 65535 := by omega
    simp only [specBEAux, if_neg hm]
    rw [specBEAux_mid fuel (m / 256) hd1 hd2 (by omega)]
    have : m / 256 / 256 = m / 65536 := by
      rw [Nat.div_div_eq_div_mul]
    rw [this]
    rfl

theorem specMinimalBE_cases (n : Nat) (h : n ≤ MAX_BYTE_SIZE) :
    specMinimalBE n =
      if n ≤ 255 then [n % 256]
      else if n ≤ 65535 then [n / 256, n % 256]
      else [n / 65536, n / 256 % 256, n % 256] := by
  by_cases h1 : n ≤ 255
  · rw [if_pos h1]
    by_cases h0 : n = 0
    · subst h0; simp [specMinimalBE]
    · unfold specMinimalBE specBE
      rw [if_neg h0, specBEAux_small n n (by omega) h1 (by omega)]
      have : n % 256 = n := Nat.mod_eq_of_lt (by omega)
      rw [this]
  · rw [if_neg h1]
    by_cases h2 : n ≤ 65535
    · rw [if_pos h2]
      unfold specMinimalBE specBE
      rw [if_neg (by omega), specBEAux_mid n n (by omega) h2 (by omega)]
    · rw [if_neg h2]
      unfold specMinimalBE specBE
      rw [if_neg (by omega),
        specBEAux_big n n (by omega) (by unfold MAX_BYTE_SIZE at h; omega) (by omega)]

/-- C4: for every item type and size whose payload byte count n is
representable (0 ≤ n ≤ 2^24 - 1), the source header builder getHeaderBytes
succeeds and emits exactly the format byte `formatCode*4 + lb` with
lb = 1 when n ≤ 255, 2 when n ≤ 65535 and 3 otherwise, followed by the
claim-side minimal big-endian length bytes (no leading zero byte, except a
single zero byte for n = 0); the minimal encoding has length lb, decodes
back to n, and starts with a non-zero byte whenever n is non-zero. -/
theorem c4_length_field_minimality (typ : String) (size : Int)
    (h0 : 0 ≤ getDataByteLength typ size)
    (h1 : getDataByteLength typ size ≤ (MAX_BYTE_SIZE : Int)) :
    getHeaderBytes typ size =
      some ((formatCodeOf typ * 4 +
          specLenByteCount (getDataByteLength typ size).toNat) ::
        specMinimalBE (getDataByteLength typ size).toNat) ∧
    (specMinimalBE (getDataByteLength typ size).toNat).length =
      specLenByteCount (getDataByteLength typ size).toNat ∧
    beBytesToNat (specMinimalBE (getDataByteLength typ size).toNat) =
      (getDataByteLength typ size).toNat ∧
    ((getDataByteLength typ size).toNat ≠ 0 →
      (specMinimalBE (getDataByteLength typ size).toNat).head? ≠ some 0) := by
  set d := getDataByteLength typ size with hd
  obtain ⟨n, hn⟩ : ∃ n : Nat, d = (n : Int) := ⟨d.toNat, (Int.toNat_of_nonneg h0).symm⟩
  have hnt : d.toNat = n := by rw [hn]; exact Int.toNat_natCast n
  have hmax : n ≤ MAX_BYTE_SIZE := by
    have := h1; rw [hn] at this; exact_mod_cast this
  have hb0 : goByte (d / 2 ^ 16) = n / 65536 % 256 := by
    rw [hn]
    show ((((n : Int)) / (65536 : Int)) % 256).toNat = n / 65536 % 256
    omega
  have hb1 : goByte (d / 2 ^ 8) = n / 256 % 256 := by
    rw [hn]
    show ((((n : Int)) / (256 : Int)) % 256).toNat = n / 256 % 256
    omega
  have hb2 : goByte d = n % 256 := by
    rw [hn]
    show (((n : Int)) % 256).toNat = n % 256
    omega
  have hb0' : n / 65536 % 256 = n / 65536 := by
    have : n / 65536 < 256 := by unfold MAX_BYTE_SIZE at hmax; omega
    exact Nat.mod_eq_of_lt this
  have hmin := specMinimalBE_cases n hmax
  have hhdr : getHeaderBytes typ size =
      some ((formatCodeOf typ * 4 + specLenByteCount n) :: specMinimalBE n) := by
    unfold getHeaderBytes
    rw [← hd]
    rw [if_neg (by omega)]
    rw [hb0, hb1, hb2, hb0']
    by_cases h255 : n ≤ 255
    · have hz1 : n / 65536 = 0 := Nat.div_eq_of_lt (by omega)
      have hz2 : n / 256 % 256 = 0 := by
        have : n / 256 = 0 := Nat.div_eq_of_lt (by omega)
        simp [this]
      rw [hz1, hz2]
      rw [hmin, if_pos h255]
      unfold specLenByteCount
      rw [if_pos h255]
      simp
    · by_cases h65 : n ≤ 65535
      · have hz1 : n / 65536 = 0 := Nat.div_eq_of_lt (by omega)
        have hz2 : n / 256 % 256 ≠ 0 := by
          have ha : n / 256 % 256 = n / 256 := Nat.mod_eq_of_lt (by omega)
          omega
        rw [hz1]
        rw [hmin, if_neg h255, if_pos h65]
        unfold specLenByteCount
        rw [if_neg h255, if_pos h65]
        have ha : n / 256 % 256 = n / 256 := Nat.mod_eq_of_lt (by omega)
        have hz3 : n / 256 ≠ 0 := by omega
        simp [hz2, ha, hz3]
      · have hz1 : n / 65536 ≠ 0 := by
          unfold MAX_BYTE_SIZE at hmax
          omega
        rw [hmin, if_neg h255, if_neg h65]
        unfold specLenByteCount
        rw [if_neg h255, if_neg h65]
        simp [hz1]
  rw [hnt]
  refine ⟨hhdr, ?_, ?_, ?_⟩
  · rw [hmin]
    unfold specLenByteCount
    by_cases h255 : n ≤ 255
    · simp [h255]
    · by_cases h65 : n ≤ 65535 <;> simp [h255, h65]
  · rw [hmin]
    by_cases h255 : n ≤ 255
    · simp only [if_pos h255]
      show (0 * 256 + n % 256) = n
      omega
    · by_cases h65 : n ≤ 65535
      · simp only [if_neg h255, if_pos h65]
        show ((0 * 256 + n / 256) * 256 + n % 256) = n
        omega
      · simp only [if_neg h255, if_neg h65]
        show (((0 * 256 + n / 65536) * 256 + n / 256 % 256) * 256 + n % 256) = n
        omega
  · intro hne
    rw [hmin]
    by_cases h255 : n ≤ 255
    · simp only [if_pos h255]
      have : n % 256 = n := Nat.mod_eq_of_lt (by omega)
      simp [this, hne]
    · by_cases h65 : n ≤ 65535
      · simp only [if_neg h255, if_pos h65]
        have : n / 256 ≠ 0 := by omega
        simp [this]
      · simp only [if_neg h255, if_neg h65]
        have : n / 65536 ≠ 0 := by omega
        simp [this]

/-!
Association-list and sortedness lemmas for the variable tables.
-/

theorem lookupVar_append (l1 l2 : VarMap) (k : String) :
    lookupVar (l1 ++ l2) k =
      match lookupVar l1 k with
      | some p => some p
      | none => lookupVar l2 k := by
  induction l1 with
  | nil => simp [lookupVar]
  | cons e rest ih =>
      by_cases h : e.1 = k
      · simp [lookupVar, h]
      · simpa [lookupVar, h] using ih

theorem lookupVar_eq_none_iff (m : VarMap) (k : String) :
    lookupVar m k = none ↔ k ∉ m.map (fun e => e.1) := by
  induction m with
  | nil => simp [lookupVar]
  | cons e rest ih =>
      by_cases h : e.1 = k
      · simp [lookupVar, h]
      · simp [lookupVar, h, ih, Ne.symm h]

theorem lookupVar_isSome_iff (m : VarMap) (k : String) :
    (lookupVar m k).isSome = true ↔ k ∈ m.map (fun e => e.1) := by
  rw [← not_iff_not, ← lookupVar_eq_none_iff]
  cases h : lookupVar m k <;> simp [h]

theorem lookupVar_mem (m : VarMap) (k : String) (p : Nat)
    (h : lookupVar m k = some p) : (k, p) ∈ m := by
  induction m with
  | nil => simp [lookupVar] at h
  | cons e rest ih =>
      obtain ⟨e1, e2⟩ := e
      by_cases he : e1 = k
      · subst he
        simp only [lookupVar, if_pos rfl] at h
        cases h
        exact List.mem_cons_self _ _
      · simp only [lookupVar, if_neg he] at h
        exact List.mem_cons_of_mem _ (ih h)

theorem mem_insertByPos (e a : String × Nat) (l : VarMap) :
    a ∈ insertByPos e l ↔ a = e ∨ a ∈ l := by
  induction l with
  | nil => simp [insertByPos, eq_comm]
  | cons e0 rest ih =>
      by_cases h : e.2 < e0.2
      · simp [insertByPos, h, eq_comm]
      · simp only [insertByPos, if_neg h, List.mem_cons, ih]
        tauto

theorem mem_sortByPos (a : String × Nat) (l : VarMap) :
    a ∈ sortByPos l ↔ a ∈ l := by
  induction l with
  | nil => simp [sortByPos]
  | cons e rest ih => simp [sortByPos, mem_insertByPos, ih]

theorem pairwiseAscPos_iff (m : VarMap) :
    pairwiseAscPos m = true ↔ List.Pairwise (fun a b : String × Nat => a.2 < b.2) m := by
  induction m with
  | nil => simp [pairwiseAscPos]
  | cons e rest ih =>
      cases rest with
      | nil => simp [pairwiseAscPos]
      | cons e2 rest2 =>
          rw [List.pairwise_cons]
          constructor
          · intro h
            simp only [pairwiseAscPos, Bool.and_eq_true, decide_eq_true_eq] at h
            have hp : List.Pairwise (fun a b : String × Nat => a.2 < b.2) (e2 :: rest2) :=
              ih.mp h.2
            refine ⟨?_, hp⟩
            intro b hb
            rcases List.mem_cons.mp hb with hb | hb
            · subst hb; exact h.1
            · exact lt_trans h.1 ((List.pairwise_cons.mp hp).1 b hb)
          · intro h
            simp only [pairwiseAscPos, Bool.and_eq_true, decide_eq_true_eq]
            exact ⟨h.1 e2 (List.mem_cons_self _ _), ih.mpr h.2⟩

theorem namesNodup_iff (l : List String) : namesNodup l = true ↔ l.Nodup := by
  induction l with
  | nil => simp [namesNodup]
  | cons x rest ih =>
      simp [namesNodup, ih, List.nodup_cons]

theorem listNodup_iff {α : Type} [DecidableEq α] (l : List α) :
    listNodup l = true ↔ l.Nodup := by
  induction l with
  | nil => simp [listNodup]
  | cons x rest ih => simp [listNodup, ih, List.nodup_cons]

theorem insertByPos_of_lt (e : String × Nat) (l : VarMap)
    (h : ∀ a ∈ l, e.2 < a.2) : insertByPos e l = e :: l := by
  cases l with
  | nil => rfl
  | cons e0 rest =>
      unfold insertByPos
      rw [if_pos (h e0 (List.mem_cons_self _ _))]

theorem sortByPos_of_pairwise (m : VarMap)
    (h : List.Pairwise (fun a b : String × Nat => a.2 < b.2) m) : sortByPos m = m := by
  induction m with
  | nil => rfl
  | cons e rest ih =>
      have hp := List.pairwise_cons.mp h
      unfold sortByPos
      rw [ih hp.2]
      exact insertByPos_of_lt e rest hp.1

theorem getVariableNames_of_asc (m : VarMap)
    (h : List.Pairwise (fun a b : String × Nat => a.2 < b.2) m) :
    getVariableNames m = m.map (fun e => e.1) := by
  unfold getVariableNames
  rw [sortByPos_of_pairwise m h]

theorem mem_getVariableNames (s : String) (m : VarMap) :
    s ∈ getVariableNames m ↔ s ∈ m.map (fun e => e.1) := by
  unfold getVariableNames
  constructor
  · intro h
    rcases List.mem_map.mp h with ⟨a, ha, rfl⟩
    exact List.mem_map_of_mem _ ((mem_sortByPos a m).mp ha)
  · intro h
    rcases List.mem_map.mp h with ⟨a, ha, rfl⟩
    exact List.mem_map_of_mem _ ((mem_sortByPos a m).mpr ha)

theorem lookupPos_cons (e : String × Nat) (rest : VarMap) (p : Nat) :
    lookupPos (e :: rest) p = if e.2 = p then e.1 else lookupPos rest p := rfl

theorem lookupPos_mem (m : VarMap) (p : Nat) (h : lookupPos m p ≠ "") :
    (lookupPos m p, p) ∈ m := by
  induction m with
  | nil => simp [lookupPos] at h
  | cons e rest ih =>
      obtain ⟨e1, e2⟩ := e
      by_cases he : e2 = p
      · subst he
        simp only [lookupPos_cons, if_pos rfl] at h ⊢
        exact List.mem_cons_self _ _
      · simp only [lookupPos_cons, if_neg he] at h ⊢
        exact List.mem_cons_of_mem _ (ih h)

theorem lookupPos_unique (m : VarMap) (s : String) (p : Nat)
    (hnd : (m.map (fun e => e.2)).Nodup) (hmem : (s, p) ∈ m) : lookupPos m p = s := by
  induction m with
  | nil => simp at hmem
  | cons e rest ih =>
      rw [List.map_cons, List.nodup_cons] at hnd
      rcases List.mem_cons.mp hmem with h | h
      · subst h
        simp [lookupPos]
      · have hne : e.2 ≠ p := by
          intro hcc
          exact hnd.1 (hcc ▸ List.mem_map_of_mem (fun e => e.2) h)
        unfold lookupPos
        rw [if_neg hne]
        exact ih hnd.2 h

theorem lookupPos_filter (m : VarMap) (v : String) (q : Nat)
    (h : ∀ e ∈ m, e.2 = q → e.1 ≠ v) :
    lookupPos (m.filter (fun e => decide (e.1 ≠ v))) q = lookupPos m q := by
  induction m with
  | nil => rfl
  | cons e rest ih =>
      have hrest := ih (fun a ha hq2 => h a (List.mem_cons_of_mem _ ha) hq2)
      by_cases hv : e.1 = v
      · have hq : e.2 ≠ q := fun hq => (h e (List.mem_cons_self _ _) hq) hv
        rw [List.filter_cons_of_neg (by simpa using hv), lookupPos_cons, if_neg hq]
        exact hrest
      · rw [List.filter_cons_of_pos (by simpa using hv), lookupPos_cons, lookupPos_cons]
        by_cases hq : e.2 = q
        · rw [if_pos hq, if_pos hq]
        · rw [if_neg hq, if_neg hq]
          exact hrest

/-!
Characterization of the position-indexed fill loops: the pair-state foldl of
fillLeafInputs, the plain foldl of the ListNode rebuild, and buildInputs all
reduce to the slotMerge skeleton on a sorted variable table.
-/

theorem foldlFill_pair (m : FillMap) (vars : VarMap) :
    ∀ (base : List NodeInput) (b : Bool),
    vars.foldl
      (fun acc e =>
        match lookupFill m e.1 with
        | some fv => (acc.1.set e.2 fv, true)
        | none => (acc.1.set e.2 (NodeInput.str e.1), acc.2)) (base, b) =
      (vars.foldl (fun acc e => acc.set e.2 (chooseCell m e)) base,
       b || vars.any (fun e => (lookupFill m e.1).isSome)) := by
  induction vars with
  | nil => intro base b; simp
  | cons e rest ih =>
      intro base b
      cases hc : lookupFill m e.1 with
      | some fv =>
          simp only [List.foldl_cons, hc, List.any_cons]
          rw [ih]
          simp [chooseCell, hc]
      | none =>
          simp only [List.foldl_cons, hc, List.any_cons]
          rw [ih]
          simp [chooseCell, hc]

theorem fillLeafInputs_eq (base : List NodeInput) (vars : VarMap) (m : FillMap) :
    fillLeafInputs base vars m =
      (vars.foldl (fun acc e => acc.set e.2 (chooseCell m e)) base,
       vars.any (fun e => (lookupFill m e.1).isSome)) := by
  unfold fillLeafInputs
  rw [foldlFill_pair]
  simp

theorem foldlSet_length (m : FillMap) (vars : VarMap) :
    ∀ base : List NodeInput,
    (vars.foldl (fun acc e => acc.set e.2 (chooseCell m e)) base).length = base.length := by
  induction vars with
  | nil => intro _; rfl
  | cons e rest ih =>
      intro base
      rw [List.foldl_cons, ih, List.length_set]

theorem foldlSet_getElem (m : FillMap) (vars : VarMap) :
    ∀ (base : List NodeInput) (j : Nat),
    (vars.map (fun e => e.2)).Nodup → (∀ e ∈ vars, e.2 < base.length) →
    (vars.foldl (fun acc e => acc.set e.2 (chooseCell m e)) base)[j]? =
      (match vars.find? (fun e => decide (e.2 = j)) with
       | some e => some (chooseCell m e)
       | none => base[j]?) := by
  induction vars with
  | nil => intro base j _ _; simp
  | cons e rest ih =>
      intro base j hnd hlt
      rw [List.map_cons, List.nodup_cons] at hnd
      rw [List.foldl_cons]
      rw [ih (base.set e.2 (chooseCell m e)) j hnd.2
        (fun a ha => by
          rw [List.length_set]
          exact hlt a (List.mem_cons_of_mem _ ha))]
      by_cases hj : e.2 = j
      · subst hj
        have hfr : rest.find? (fun a => decide (a.2 = e.2)) = none := by
          rw [List.find?_eq_none]
          intro a ha
          simp only [decide_eq_true_eq]
          intro haa
          exact hnd.1 (haa ▸ List.mem_map_of_mem _ ha)
        rw [hfr, List.find?_cons_of_pos _ (by simp)]
        exact List.getElem?_set_eq (hlt e (List.mem_cons_self _ _))
      · rw [List.find?_cons_of_neg _ (by simpa using hj)]
        cases hf : rest.find? (fun a => decide (a.2 = j)) with
        | some a => rfl
        | none => exact List.getElem?_set_ne hj

theorem slotMerge_length {α β : Type} (val : α → β) (varc : String × Nat → β) :
    ∀ (values : List α) (vars : VarMap) (i : Nat),
    (slotMerge val varc values vars i).length = values.length := by
  intro values
  induction values with
  | nil => intro vars i; cases vars <;> rfl
  | cons a rest ih =>
      intro vars i
      cases vars with
      | nil => simp [slotMerge, ih]
      | cons e vrest =>
          by_cases h : e.2 = i
          · simp [slotMerge, if_pos h, ih]
          · simp [slotMerge, if_neg h, ih]

theorem slotMerge_getElem {α β : Type} (val : α → β) (varc : String × Nat → β) :
    ∀ (values : List α) (vars : VarMap) (i j : Nat),
    ascendingFrom i vars → (∀ e ∈ vars, e.2 < i + values.length) →
    (slotMerge val varc values vars i)[j]? =
      (match vars.find? (fun e => decide (e.2 = i + j)) with
       | some e => some (varc e)
       | none => (values.map val)[j]?) := by
  intro values
  induction values with
  | nil =>
      intro vars i j hasc hlt
      have hf : vars.find? (fun e => decide (e.2 = i + j)) = none := by
        rw [List.find?_eq_none]
        intro a ha
        have h1 := hasc.2 a ha
        have h2 := hlt a ha
        simp only [List.length_nil] at h2
        omega
      rw [hf]
      cases vars <;> simp [slotMerge]
  | cons a rest ih =>
      intro vars i j hasc hlt
      cases vars with
      | nil =>
          simp only [slotMerge, List.find?_nil]
          cases j with
          | zero => simp
          | succ j' =>
              rw [List.getElem?_cons_succ]
              rw [ih [] (i + 1) j' ⟨List.Pairwise.nil, by simp⟩ (by simp)]
              simp
      | cons e vrest =>
          have hpw := List.pairwise_cons.mp hasc.1
          by_cases h : e.2 = i
          · simp only [slotMerge, if_pos h]
            cases j with
            | zero =>
                rw [List.find?_cons_of_pos _ (by simp [h])]
                simp
            | succ j' =>
                rw [List.getElem?_cons_succ]
                rw [List.find?_cons_of_neg _ (by simp; omega)]
                rw [ih vrest (i + 1) j'
                  ⟨hpw.2, fun a ha => by have := hpw.1 a ha; omega⟩
                  (fun a ha => by
                    have := hlt a (List.mem_cons_of_mem _ ha)
                    simp at this ⊢
                    omega)]
                have hix : i + 1 + j' = i + (j' + 1) := by omega
                rw [hix]
                cases vrest.find? (fun e => decide (e.2 = i + (j' + 1))) <;> simp
          · have hgt : i < e.2 := by
              have := hasc.2 e (List.mem_cons_self _ _)
              omega
            simp only [slotMerge, if_neg h]
            cases j with
            | zero =>
                have hf : (e :: vrest).find? (fun a => decide (a.2 = i + 0)) = none := by
                  rw [List.find?_eq_none]
                  intro a ha
                  simp only [decide_eq_true_eq]
                  rcases List.mem_cons.mp ha with ha | ha
                  · subst ha; omega
                  · have := hpw.1 a ha; omega
                rw [hf]
                simp
            | succ j' =>
                rw [List.getElem?_cons_succ]
                rw [ih (e :: vrest) (i + 1) j'
                  ⟨hasc.1, fun a ha => by
                    rcases List.mem_cons.mp ha with ha | ha
                    · subst ha; omega
                    · have := hpw.1 a ha; omega⟩
                  (fun a ha => by
                    have := hlt a ha
                    simp at this ⊢
                    omega)]
                have hix : i + 1 + j' = i + (j' + 1) := by omega
                rw [hix]
                cases (e :: vrest).find? (fun a => decide (a.2 = i + (j' + 1))) <;> simp

/-- The position-indexed foldl of the fill loops, started on the mapped
value list, equals the slotMerge walk when the table is ascending and
within range. -/
theorem foldlSet_eq_slotMerge {α : Type} (m : FillMap) (vc : α → NodeInput)
    (values : List α) (vars : VarMap)
    (hasc : ascendingFrom 0 vars) (hlt : ∀ e ∈ vars, e.2 < values.length) :
    vars.foldl (fun acc e => acc.set e.2 (chooseCell m e)) (values.map vc) =
      slotMerge vc (chooseCell m) values vars 0 := by
  have hnd : (vars.map (fun e => e.2)).Nodup := by
    refine List.Pairwise.map _ ?_ hasc.1
    intro a b hab
    omega
  apply List.ext_getElem?
  intro j
  rw [foldlSet_getElem m vars (values.map vc) j hnd
    (fun e he => by rw [List.length_map]; exact hlt e he)]
  rw [slotMerge_getElem vc (chooseCell m) values vars 0 j hasc
    (fun e he => by have := hlt e he; omega)]
  have hix : (0 : Nat) + j = j := by omega
  rw [hix]

/-- buildInputs over a merged cell list: value cells are stored back, each
variable slot stores its classified cell — the fill-in value when one was
supplied, the zero value with a re-registered variable otherwise.  The
output values follow the merge skeleton with `φv` at the variable slots and
the output table keeps exactly the entries `keep` selects, in order and at
their original positions. -/
theorem buildInputs_slotMerge {α : Type} (cell : NodeInput → InputCell α) (zero : α)
    (χ : String × Nat → NodeInput) (φv : String × Nat → α) (keep : String × Nat → Bool)
    (vc : α → NodeInput) :
    ∀ (values : List α) (vars : VarMap) (i : Nat) (vals0 : List α) (vars0 : VarMap),
    ascendingFrom i vars →
    (∀ e ∈ vars, e.2 < i + values.length) →
    (∀ a ∈ values, cell (vc a) = .val a) →
    (∀ e ∈ vars,
      (cell (χ e) = .val (φv e) ∧ keep e = false) ∨
      (cell (χ e) = .variable e.1 ∧ φv e = zero ∧ keep e = true)) →
    (vars.map (fun e => e.1)).Nodup →
    (∀ e ∈ vars, lookupVar vars0 e.1 = none) →
    buildInputs cell zero (slotMerge vc χ values vars i) i vals0 vars0 =
      some (vals0 ++ slotMerge id φv values vars i, vars0 ++ vars.filter keep) := by
  intro values
  induction values with
  | nil =>
      intro vars i vals0 vars0 hasc hlt _ _ _ _
      have hv : vars = [] := by
        cases vars with
        | nil => rfl
        | cons e vrest =>
            have h1 := hasc.2 e (List.mem_cons_self _ _)
            have h2 := hlt e (List.mem_cons_self _ _)
            simp only [List.length_nil] at h2
            omega
      subst hv
      simp [slotMerge, buildInputs]
  | cons a rest ih =>
      intro vars i vals0 vars0 hasc hlt hvc hclass hnd hcol
      have hvc' : ∀ a' ∈ rest, cell (vc a') = .val a' :=
        fun a' ha' => hvc a' (List.mem_cons_of_mem _ ha')
      cases vars with
      | nil =>
          simp only [slotMerge, buildInputs, hvc a (List.mem_cons_self _ _)]
          rw [ih [] (i + 1) (vals0 ++ [a]) vars0 ⟨List.Pairwise.nil, by simp⟩
            (by simp) hvc' (by simp) (by simp) (by simp)]
          simp [slotMerge]
      | cons e vrest =>
          have hpw := List.pairwise_cons.mp hasc.1
          have hmem := List.mem_cons_self e vrest
          rw [List.map_cons, List.nodup_cons] at hnd
          by_cases h : e.2 = i
          · simp only [slotMerge, if_pos h, buildInputs]
            rcases hclass e hmem with ⟨hval, hkeep⟩ | ⟨hvar, hz, hkeep⟩
            · rw [hval]
              dsimp only
              rw [ih vrest (i + 1) (vals0 ++ [φv e]) vars0
                ⟨hpw.2, fun b hb => by have := hpw.1 b hb; omega⟩
                (fun b hb => by
                  have := hlt b (List.mem_cons_of_mem _ hb)
                  simp only [List.length_cons] at this ⊢
                  omega)
                hvc'
                (fun b hb => hclass b (List.mem_cons_of_mem _ hb))
                hnd.2
                (fun b hb => hcol b (List.mem_cons_of_mem _ hb))]
              rw [List.filter_cons_of_neg (by simp [hkeep])]
              simp
            · rw [hvar]
              dsimp only
              simp only [hcol e hmem, Option.isSome_none, Bool.false_eq_true, if_false]
              rw [ih vrest (i + 1) (vals0 ++ [zero]) (vars0 ++ [(e.1, i)])
                ⟨hpw.2, fun b hb => by have := hpw.1 b hb; omega⟩
                (fun b hb => by
                  have := hlt b (List.mem_cons_of_mem _ hb)
                  simp only [List.length_cons] at this ⊢
                  omega)
                hvc'
                (fun b hb => hclass b (List.mem_cons_of_mem _ hb))
                hnd.2
                (fun b hb => by
                  rw [lookupVar_append]
                  rw [hcol b (List.mem_cons_of_mem _ hb)]
                  have hbne : e.1 ≠ b.1 := by
                    intro hcc
                    exact hnd.1 (hcc ▸ List.mem_map_of_mem _ hb)
                  simp [lookupVar, hbne])]
              rw [List.filter_cons_of_pos (by simp [hkeep])]
              have hee : (e.1, i) = e := by rw [← h]
              rw [hee, hz]
              simp
          · have hgt : i < e.2 := by
              have := hasc.2 e hmem
              omega
            simp only [slotMerge, if_neg h, buildInputs, hvc a (List.mem_cons_self _ _)]
            rw [ih (e :: vrest) (i + 1) (vals0 ++ [a]) vars0
              ⟨hasc.1, fun b hb => by
                rcases List.mem_cons.mp hb with hb | hb
                · subst hb; omega
                · have := hpw.1 b hb; omega⟩
              (fun b hb => by
                have := hlt b hb
                simp only [List.length_cons] at this ⊢
                omega)
              hvc'
              hclass (by rw [List.map_cons, List.nodup_cons]; exact hnd) hcol]
            simp

theorem set_cons_succ {α : Type} (a : α) (l : List α) (n : Nat) (b : α) :
    (a :: l).set (n + 1) b = a :: l.set n b := rfl

/-- A merge that writes back exactly what each slot already stores is the
identity. -/
theorem slotMerge_id_eq {α : Type} (φ : String × Nat → α) :
    ∀ (values : List α) (vars : VarMap) (i : Nat),
    ascendingFrom i vars →
    (∀ e ∈ vars, values[e.2 - i]? = some (φ e)) →
    slotMerge id φ values vars i = values := by
  intro values
  induction values with
  | nil => intro vars i _ _; cases vars <;> rfl
  | cons a rest ih =>
      intro vars i hasc hz
      cases vars with
      | nil =>
          show a :: slotMerge id φ rest [] (i + 1) = a :: rest
          rw [ih [] (i + 1) ⟨List.Pairwise.nil, by simp⟩ (by simp)]
      | cons e vrest =>
          have hpw := List.pairwise_cons.mp hasc.1
          by_cases h : e.2 = i
          · have ha : a = φ e := by
              have := hz e (List.mem_cons_self _ _)
              rw [h] at this
              simp at this
              exact this
            simp only [slotMerge, if_pos h]
            rw [ih vrest (i + 1)
              ⟨hpw.2, fun b hb => by have := hpw.1 b hb; omega⟩
              (fun b hb => by
                have hgt : i < b.2 := by have := hpw.1 b hb; omega
                have := hz b (List.mem_cons_of_mem _ hb)
                have hix : b.2 - i = (b.2 - (i + 1)) + 1 := by omega
                rw [hix, List.getElem?_cons_succ] at this
                exact this)]
            rw [← ha]
          · have hgt : i < e.2 := by
              have := hasc.2 e (List.mem_cons_self _ _)
              omega
            simp only [slotMerge, if_neg h]
            rw [ih (e :: vrest) (i + 1)
              ⟨hasc.1, fun b hb => by
                rcases List.mem_cons.mp hb with hb | hb
                · subst hb; omega
                · have := hpw.1 b hb; omega⟩
              (fun b hb => by
                have hgt2 : i < b.2 := by
                  rcases List.mem_cons.mp hb with hb2 | hb2
                  · subst hb2; omega
                  · have := hpw.1 b hb2; omega
                have := hz b hb
                have hix : b.2 - i = (b.2 - (i + 1)) + 1 := by omega
                rw [hix, List.getElem?_cons_succ] at this
                exact this)]
            rfl

/-- A merge that stores the fill-in at the one slot named `v` and writes
the stored zero back everywhere else is a single List.set. -/
theorem slotMerge_id_set {α : Type} (zero ax : α) (v : String) (pv : Nat) :
    ∀ (values : List α) (vars : VarMap) (i : Nat),
    ascendingFrom i vars →
    (∀ e ∈ vars, values[e.2 - i]? = some zero) →
    (vars.map (fun e => e.1)).Nodup →
    (v, pv) ∈ vars →
    slotMerge id (fun e => if e.1 = v then ax else zero) values vars i =
      values.set (pv - i) ax := by
  intro values
  induction values with
  | nil =>
      intro vars i hasc hz _ hv
      have := hz _ hv
      simp at this
  | cons a rest ih =>
      intro vars i hasc hz hnd hv
      cases vars with
      | nil => simp at hv
      | cons e vrest =>
          have hpw := List.pairwise_cons.mp hasc.1
          rw [List.map_cons, List.nodup_cons] at hnd
          have hztail : ∀ b ∈ vrest, rest[b.2 - (i + 1)]? = some zero := by
            intro b hb
            have hie := hasc.2 e (List.mem_cons_self _ _)
            have hgt2 : i < b.2 := by have := hpw.1 b hb; omega
            have := hz b (List.mem_cons_of_mem _ hb)
            have hix2 : b.2 - i = (b.2 - (i + 1)) + 1 := by omega
            rw [hix2, List.getElem?_cons_succ] at this
            exact this
          by_cases h : e.2 = i
          · by_cases hev : e.1 = v
            · have hee : (v, pv) = e := by
                rcases List.mem_cons.mp hv with hh | hh
                · exact hh
                · exfalso
                  apply hnd.1
                  rw [hev]
                  exact List.mem_map_of_mem (fun e => e.1) hh
              have hpv : pv = i := by
                have h2 : pv = e.2 := by rw [← hee]
                omega
              simp only [slotMerge, if_pos h, if_pos hev]
              have hix : pv - i = 0 := by omega
              rw [hix]
              show ax :: slotMerge id _ rest vrest (i + 1) = (a :: rest).set 0 ax
              rw [slotMerge_id_eq _ rest vrest (i + 1)
                ⟨hpw.2, fun b hb => by have := hpw.1 b hb; omega⟩
                (fun b hb => by
                  have hbv : b.1 ≠ v := by
                    intro hcc
                    apply hnd.1
                    rw [hev, ← hcc]
                    exact List.mem_map_of_mem (fun e => e.1) hb
                  simp only [if_neg hbv]
                  exact hztail b hb)]
              rfl
            · have ha : a = zero := by
                have := hz e (List.mem_cons_self _ _)
                rw [h] at this
                simp at this
                exact this
              have hv2 : (v, pv) ∈ vrest := by
                rcases List.mem_cons.mp hv with hh | hh
                · exact absurd (congrArg (fun q => q.1) hh).symm hev
                · exact hh
              have hgt : i < pv := by
                have := hpw.1 _ hv2
                simp at this
                omega
              simp only [slotMerge, if_pos h, if_neg hev]
              have hix : pv - i = (pv - (i + 1)) + 1 := by omega
              rw [hix, set_cons_succ, ha]
              rw [ih vrest (i + 1)
                ⟨hpw.2, fun b hb => by have := hpw.1 b hb; omega⟩
                hztail hnd.2 hv2]
          · have hgt : i < e.2 := by
              have := hasc.2 e (List.mem_cons_self _ _)
              omega
            have hgtp : i < pv := by
              rcases List.mem_cons.mp hv with hh | hh
              · have h2 : pv = e.2 := by rw [← hh]
                omega
              · have := hpw.1 _ hh
                simp at this
                omega
            simp only [slotMerge, if_neg h]
            have hix : pv - i = (pv - (i + 1)) + 1 := by omega
            rw [hix, set_cons_succ]
            rw [ih (e :: vrest) (i + 1)
              ⟨hasc.1, fun b hb => by
                rcases List.mem_cons.mp hb with hb2 | hb2
                · subst hb2; omega
                · have := hpw.1 b hb2; omega⟩
              (fun b hb => by
                have hgt2 : i < b.2 := by
                  rcases List.mem_cons.mp hb with hb2 | hb2
                  · subst hb2; omega
                  · have := hpw.1 b hb2; omega
                have := hz b hb
                have hix2 : b.2 - i = (b.2 - (i + 1)) + 1 := by omega
                rw [hix2, List.getElem?_cons_succ] at this
                exact this)
              (by rw [List.map_cons, List.nodup_cons]; exact hnd) hv]
            rfl

/-- The two spellings of the rebuild foldl agree. -/
theorem foldl_chooseCell_congr (m : FillMap) :
    (fun (acc : List NodeInput) (e : String × Nat) =>
      match lookupFill m e.1 with
      | some fv => acc.set e.2 fv
      | none => acc.set e.2 (NodeInput.str e.1)) =
    (fun (acc : List NodeInput) (e : String × Nat) => acc.set e.2 (chooseCell m e)) := by
  funext acc e
  cases h : lookupFill m e.1 <;> simp [chooseCell, h]

/-- Generic single-variable fill through a factory's buildInputs: filling
the one key `v` with a cell stored as the value `ax` rebuilds exactly the
original values with `ax` at v's position and the variable table with v's
entry removed. -/
theorem fillFoldl_buildInputs {α : Type} (cell : NodeInput → InputCell α)
    (zero ax : α) (vc : α → NodeInput) (x : NodeInput) (v : String) (pv : Nat)
    (values : List α) (vars : VarMap)
    (hasc : ascendingFrom 0 vars)
    (hlt : ∀ e ∈ vars, e.2 < values.length)
    (hzero : ∀ e ∈ vars, values[e.2]? = some zero)
    (hnd : (vars.map (fun e => e.1)).Nodup)
    (hvc : ∀ a ∈ values, cell (vc a) = .val a)
    (hx : cell x = .val ax)
    (hsv : ∀ e ∈ vars, e.1 ≠ v → cell (.str e.1) = .variable e.1)
    (hv : (v, pv) ∈ vars) :
    buildInputs cell zero
      (vars.foldl (fun acc e => acc.set e.2 (chooseCell [(v, x)] e)) (values.map vc))
      0 [] [] =
      some (values.set pv ax, vars.filter (fun e => decide (e.1 ≠ v))) := by
  rw [foldlSet_eq_slotMerge [(v, x)] vc values vars hasc hlt]
  have hchoose : ∀ e ∈ vars, chooseCell [(v, x)] e = if e.1 = v then x else .str e.1 := by
    intro e _
    unfold chooseCell lookupFill
    by_cases h : e.1 = v
    · rw [if_pos (by rw [h]), if_pos h]
    · rw [if_neg (fun hcc => h hcc.symm), if_neg h]
      rfl
  rw [buildInputs_slotMerge cell zero (chooseCell [(v, x)])
    (fun e => if e.1 = v then ax else zero) (fun e => decide (e.1 ≠ v)) vc
    values vars 0 [] []
    hasc (fun e he => by have := hlt e he; omega) hvc
    (fun e he => by
      by_cases h : e.1 = v
      · refine Or.inl ⟨?_, by simp [h]⟩
        rw [hchoose e he, if_pos h]
        simp only [if_pos h]
        exact hx
      · refine Or.inr ⟨?_, by simp [h], by simp [h]⟩
        rw [hchoose e he, if_neg h]
        exact hsv e he h)
    hnd (by simp [lookupVar])]
  rw [slotMerge_id_set zero ax v pv values vars 0 hasc
    (fun e he => by have := hzero e he; simpa using this) hnd hv]
  simp

/-- Rebuilding through buildInputs with no key filled re-registers every
variable and returns the node's data unchanged. -/
theorem noFill_buildInputs {α : Type} (cell : NodeInput → InputCell α)
    (zero : α) (vc : α → NodeInput) (m : FillMap)
    (values : List α) (vars : VarMap)
    (hasc : ascendingFrom 0 vars)
    (hlt : ∀ e ∈ vars, e.2 < values.length)
    (hzero : ∀ e ∈ vars, values[e.2]? = some zero)
    (hnd : (vars.map (fun e => e.1)).Nodup)
    (hvc : ∀ a ∈ values, cell (vc a) = .val a)
    (hnone : ∀ e ∈ vars, lookupFill m e.1 = none)
    (hsv : ∀ e ∈ vars, cell (.str e.1) = .variable e.1) :
    buildInputs cell zero
      (vars.foldl (fun acc e => acc.set e.2 (chooseCell m e)) (values.map vc))
      0 [] [] =
      some (values, vars) := by
  rw [foldlSet_eq_slotMerge m vc values vars hasc hlt]
  have hchoose : ∀ e ∈ vars, chooseCell m e = NodeInput.str e.1 := by
    intro e he
    unfold chooseCell
    rw [hnone e he]
  rw [buildInputs_slotMerge cell zero (chooseCell m)
    (fun _ => zero) (fun _ => true) vc values vars 0 [] []
    hasc (fun e he => by have := hlt e he; omega) hvc
    (fun e he => Or.inr ⟨by rw [hchoose e he]; exact hsv e he, rfl, rfl⟩)
    hnd (by simp [lookupVar])]
  rw [slotMerge_id_eq (fun _ => zero) values vars 0 hasc
    (fun e he => by have := hzero e he; simpa using this)]
  simp [List.filter_true]

/-! Unfolding equations for the mutual well-formedness and analysis
definitions (rewriting the mutual definitions directly on open terms is
expensive, these are their definitional equations). -/

theorem itemWf_list_eq (values : List ItemNode) (vars : VarMap) :
    itemWf (.list values vars) =
      (decide ((values.length : Int) ≤ (MAX_BYTE_SIZE : Int)) &&
       listVarTableWf vars values.length &&
       listSlotsWf values vars &&
       namesNodup (itemVariables (.list values vars)) &&
       childrenWf values) := rfl

theorem itemWf_binary_eq (values : List Nat) (vars : VarMap) :
    itemWf (.binary values vars) =
      (decide (values.length ≤ MAX_BYTE_SIZE) &&
       values.all (fun v => decide (v < 256)) &&
       varTableWf vars values.length (fun p => values.getD p 1 = 0)) := rfl

theorem itemWf_boolean_eq (values : List Bool) (vars : VarMap) :
    itemWf (.boolean values vars) =
      (decide (values.length ≤ MAX_BYTE_SIZE) &&
       varTableWf vars values.length (fun p => values.getD p true = false)) := rfl

theorem itemWf_ascii_eq (value varName : String) (minLength maxLength : Int)
    (isValue : Bool) :
    itemWf (.ascii value varName minLength maxLength isValue) =
      (if isValue then
        decide (value.length ≤ MAX_BYTE_SIZE) &&
        value.data.all (fun c => decide (c.toNat ≤ 127)) &&
        decide (varName = "") && decide (minLength = 0) && decide (maxLength = 0)
      else
        decide (value = "") && isValidVarName varName &&
        decide (0 ≤ minLength) && decide (-1 ≤ maxLength) &&
        (decide (maxLength = -1) || decide (minLength ≤ maxLength))) := rfl

theorem itemWf_int_eq (byteSize : Nat) (values : List Int) (vars : VarMap) :
    itemWf (.int byteSize values vars) =
      ((decide (byteSize = 1) || decide (byteSize = 2) || decide (byteSize = 4) ||
        decide (byteSize = 8)) &&
       decide (values.length * byteSize ≤ MAX_BYTE_SIZE) &&
       values.all (fun v =>
         decide (-(2 ^ (byteSize * 8 - 1) : Int) ≤ v) &&
         decide (v ≤ (2 ^ (byteSize * 8 - 1) : Int) - 1)) &&
       varTableWf vars values.length (fun p => values.getD p 1 = 0)) := rfl

theorem itemWf_uint_eq (byteSize : Nat) (values : List Nat) (vars : VarMap) :
    itemWf (.uint byteSize values vars) =
      ((decide (byteSize = 1) || decide (byteSize = 2) || decide (byteSize = 4) ||
        decide (byteSize = 8)) &&
       decide (values.length * byteSize ≤ MAX_BYTE_SIZE) &&
       values.all (fun v => decide (v < 2 ^ (byteSize * 8))) &&
       varTableWf vars values.length (fun p => values.getD p 1 = 0)) := rfl

theorem itemWf_float_eq (byteSize : Nat) (values : List Nat) (vars : VarMap) :
    itemWf (.float byteSize values vars) =
      ((decide (byteSize = 4) || decide (byteSize = 8)) &&
       decide (values.length * byteSize ≤ MAX_BYTE_SIZE) &&
       values.all (fun v => decide (v < 2 ^ (byteSize * 8)) && finiteFloatBits byteSize v) &&
       varTableWf vars values.length (fun p => values.getD p 1 = 0)) := rfl

theorem childrenWf_nil : childrenWf [] = true := rfl

theorem childrenWf_cons (c : ItemNode) (rest : List ItemNode) :
    childrenWf (c :: rest) = (itemWf c && childrenWf rest) := rfl

theorem ellipsisAnalysisItem_list_eq (values : List ItemNode) (vars : VarMap)
    (m : FillMap) :
    ellipsisAnalysisItem (.list values vars) m =
      (let found := vars.find? (fun e => isEllipsis e.1)
       let own : Option (Int × Int × Int) :=
         match found with
         | none => some (0, 0, 0)
         | some e =>
             match lookupFill m e.1 with
             | some (.int v) => some (1, 0, v)
             | some _ => none
             | none => some (0, 1, 0)
       match own with
       | none => none
       | some (toFill, remaining, value) =>
           match ellipsisAnalysisChildren values m with
           | none => none
           | some (cf, cr) =>
               some (toFill + (value + 1) * cf, remaining + (value + 1) * cr)) := rfl

theorem ellipsisAnalysisChildren_nil (m : FillMap) :
    ellipsisAnalysisChildren [] m = some (0, 0) := rfl

theorem ellipsisAnalysisChildren_cons (c : ItemNode) (rest : List ItemNode)
    (m : FillMap) :
    ellipsisAnalysisChildren (c :: rest) m =
      (match ellipsisAnalysisItem c m with
       | none => none
       | some (ef, er) =>
           match ellipsisAnalysisChildren rest m with
           | none => none
           | some (sf, sr) => some (ef + sf, er + sr)) := rfl

/-- One generic step of the Variables() slot loop. -/
theorem listSlotVariables_cons (c : ItemNode) (rest : List ItemNode)
    (vars : VarMap) (i : Nat) :
    listSlotVariables (c :: rest) vars i =
      (if isEmptyItem c then [lookupPos vars i] else itemVariables c) ++
        listSlotVariables rest vars (i + 1) := by
  cases c <;> simp [isEmptyItem]

theorem isEmptyItem_iff (c : ItemNode) : isEmptyItem c = true ↔ c = .empty := by
  cases c <;> simp [isEmptyItem]

theorem getD_getElem? {α : Type} (l : List α) (j : Nat) (d : α)
    (h : j < l.length) : l[j]? = some (l.getD j d) := by
  rw [List.getD_eq_getElem l d h, List.getElem?_eq_getElem h]

mutual

/-- Ellipsis analysis against the empty fill map never fills: no ellipsis
key can be present, so the to-fill count is zero. -/
theorem ellipsisAnalysisItem_nilMap :
    ∀ item : ItemNode, ∃ r : Int, ellipsisAnalysisItem item [] = some (0, r)
  | .empty => ⟨0, rfl⟩
  | .binary _ _ => ⟨0, rfl⟩
  | .boolean _ _ => ⟨0, rfl⟩
  | .ascii _ _ _ _ _ => ⟨0, rfl⟩
  | .int _ _ _ => ⟨0, rfl⟩
  | .uint _ _ _ => ⟨0, rfl⟩
  | .float _ _ _ => ⟨0, rfl⟩
  | .list values vars => by
      obtain ⟨cr, hc⟩ := ellipsisAnalysisChildren_nilMap values
      rw [ellipsisAnalysisItem_list_eq]
      dsimp only
      cases vars.find? (fun e => isEllipsis e.1) with
      | none =>
          dsimp only
          rw [hc]
          exact ⟨cr, by norm_num⟩
      | some e =>
          dsimp only [lookupFill]
          rw [hc]
          exact ⟨1 + (0 + 1) * cr, by norm_num⟩

/-- Companion of the empty-map analysis for child lists. -/
theorem ellipsisAnalysisChildren_nilMap :
    ∀ values : List ItemNode, ∃ r : Int, ellipsisAnalysisChildren values [] = some (0, r)
  | [] => ⟨0, rfl⟩
  | c :: rest => by
      obtain ⟨r1, h1⟩ := ellipsisAnalysisItem_nilMap c
      obtain ⟨r2, h2⟩ := ellipsisAnalysisChildren_nilMap rest
      rw [ellipsisAnalysisChildren_cons, h1, h2]
      exact ⟨r1 + r2, by norm_num⟩

end

theorem listSlotVariables_append (L R : List ItemNode) (vars : VarMap) :
    ∀ i : Nat, listSlotVariables (L ++ R) vars i =
      listSlotVariables L vars i ++ listSlotVariables R vars (i + L.length) := by
  induction L with
  | nil => intro i; simp
  | cons c rest ih =>
      intro i
      rw [List.cons_append, listSlotVariables_cons, listSlotVariables_cons, ih (i + 1)]
      have hix : i + 1 + rest.length = i + (rest.length + 1) := by omega
      rw [hix]
      simp [List.append_assoc]

theorem listSlotVariables_congr (m1 m2 : VarMap) :
    ∀ (values : List ItemNode) (i : Nat),
    (∀ j, j < values.length → lookupPos m1 (i + j) = lookupPos m2 (i + j)) →
    listSlotVariables values m1 i = listSlotVariables values m2 i := by
  intro values
  induction values with
  | nil => intro i _; rfl
  | cons c rest ih =>
      intro i h
      rw [listSlotVariables_cons, listSlotVariables_cons]
      have h0 : lookupPos m1 i = lookupPos m2 i := by
        have := h 0 (by simp)
        simpa using this
      rw [ih (i + 1) (fun j hj => by
        have := h (j + 1) (by simp; omega)
        have hix : i + (j + 1) = i + 1 + j := by omega
        rw [hix] at this
        exact this)]
      rw [h0]

/-- The name looked up at an empty slot's position appears in the slot
traversal. -/
theorem listSlotVariables_mem_slot (vars : VarMap) :
    ∀ (values : List ItemNode) (i p : Nat),
    i ≤ p → p - i < values.length → values[p - i]? = some .empty →
    lookupPos vars p ∈ listSlotVariables values vars i := by
  intro values
  induction values with
  | nil => intro i p _ h _; simp at h
  | cons c rest ih =>
      intro i p hle hlt hsl
      rw [listSlotVariables_cons]
      by_cases hp : p = i
      · subst hp
        have hc : c = .empty := by
          rw [Nat.sub_self] at hsl
          simpa using hsl
        subst hc
        simp [isEmptyItem]
      · have hgt : i < p := by omega
        refine List.mem_append_right _ ?_
        refine ih (i + 1) p (by omega) (by simp at hlt ⊢; omega) ?_
        have hix : p - i = (p - (i + 1)) + 1 := by omega
        rw [hix, List.getElem?_cons_succ] at hsl
        exact hsl

/-- A non-empty child's variables appear in the slot traversal. -/
theorem listSlotVariables_mem_child (vars : VarMap) (c : ItemNode)
    (hc : isEmptyItem c = false) :
    ∀ (values : List ItemNode) (i : Nat), c ∈ values →
    ∀ w ∈ itemVariables c, w ∈ listSlotVariables values vars i := by
  intro values
  induction values with
  | nil => intro i h; simp at h
  | cons c0 rest ih =>
      intro i hmem w hw
      rw [listSlotVariables_cons]
      rcases List.mem_cons.mp hmem with h | h
      · subst h
        rw [hc]
        exact List.mem_append_left _ (by simpa using hw)
      · exact List.mem_append_right _ (ih (i + 1) h w hw)

theorem itemDepth_pos (item : ItemNode) : 1 ≤ itemDepth item := by
  cases item <;> simp [itemDepth]

theorem itemDepthChildren_le (c : ItemNode) :
    ∀ values : List ItemNode, c ∈ values → itemDepth c ≤ itemDepthChildren values := by
  intro values
  induction values with
  | nil => intro h; simp at h
  | cons c0 rest ih =>
      intro hmem
      rcases List.mem_cons.mp hmem with h | h
      · subst h
        simp [itemDepthChildren, Nat.le_max_left]
      · calc itemDepth c ≤ itemDepthChildren rest := ih h
          _ ≤ itemDepthChildren (c0 :: rest) := by
              simp [itemDepthChildren, Nat.le_max_right]

theorem childrenWf_mem (c : ItemNode) :
    ∀ values : List ItemNode, childrenWf values = true → c ∈ values →
    itemWf c = true := by
  intro values
  induction values with
  | nil => intro _ h; simp at h
  | cons c0 rest ih =>
      intro hwf hmem
      rw [childrenWf_cons, Bool.and_eq_true] at hwf
      rcases List.mem_cons.mp hmem with h | h
      · subst h; exact hwf.1
      · exact ih hwf.2 h

/-- The slot/variable correspondence of a well-formed list, read off
listSlotsWf. -/
theorem listSlotsWf_corr (values : List ItemNode) (m : VarMap)
    (h : listSlotsWf values m = true) (j : Nat) (hj : j < values.length) :
    isEmptyItem (values.getD j ItemNode.empty) = true ↔ lookupPos m j ≠ "" := by
  unfold listSlotsWf at h
  rw [List.all_eq_true] at h
  have := h j (List.mem_range.mpr hj)
  rcases hb : isEmptyItem (values.getD j ItemNode.empty) with _ | _ <;>
    rcases hd : decide (lookupPos m j ≠ "") with _ | _ <;>
      rw [hb, hd] at this <;> simp_all

theorem isValidVarName_ne_empty (s : String) (h : isValidVarName s = true) :
    s ≠ "" := by
  intro hcc
  subst hcc
  exact absurd h (by decide)

theorem isEllipsis_ne_empty (s : String) (h : isEllipsis s = true) : s ≠ "" := by
  intro hcc
  subst hcc
  exact absurd h (by decide)

/-! Definitional equations of the fill dispatchers. -/

theorem itemFillVariables_zero (item : ItemNode) (m : FillMap) :
    itemFillVariables 0 item m = none := rfl

theorem itemFillVariables_succ_empty (f : Nat) (m : FillMap) :
    itemFillVariables (f + 1) .empty m = some .empty := rfl

theorem itemFillVariables_succ_ascii (f : Nat) (av an : String) (amin amax : Int)
    (aval : Bool) (m : FillMap) :
    itemFillVariables (f + 1) (.ascii av an amin amax aval) m =
      asciiFillVariables av an amin amax aval m := rfl

theorem itemFillVariables_succ_int (f b : Nat) (values : List Int) (vars : VarMap)
    (m : FillMap) :
    itemFillVariables (f + 1) (.int b values vars) m =
      leafFillVariables (.int b values vars) m := rfl

theorem itemFillVariables_succ_uint (f b : Nat) (values : List Nat) (vars : VarMap)
    (m : FillMap) :
    itemFillVariables (f + 1) (.uint b values vars) m =
      leafFillVariables (.uint b values vars) m := rfl

theorem itemFillVariables_succ_float (f b : Nat) (values : List Nat) (vars : VarMap)
    (m : FillMap) :
    itemFillVariables (f + 1) (.float b values vars) m =
      leafFillVariables (.float b values vars) m := rfl

theorem itemFillVariables_succ_boolean (f : Nat) (values : List Bool) (vars : VarMap)
    (m : FillMap) :
    itemFillVariables (f + 1) (.boolean values vars) m =
      leafFillVariables (.boolean values vars) m := rfl

theorem itemFillVariables_succ_binary (f : Nat) (values : List Nat) (vars : VarMap)
    (m : FillMap) :
    itemFillVariables (f + 1) (.binary values vars) m =
      leafFillVariables (.binary values vars) m := rfl

theorem itemFillVariables_succ_list (f : Nat) (values : List ItemNode)
    (vars : VarMap) (m : FillMap) :
    itemFillVariables (f + 1) (.list values vars) m =
      (let split := splitValues m
       match ellipsisAnalysisItem (.list values vars) split.1 with
       | none => none
       | some (toFill, remaining) =>
           let afterEllipsis : Option ItemNode :=
             if toFill > 0 then
               match fillEllipsis split.1 f values vars (newFillState remaining) with
               | none => none
               | some (item, _) => some item
             else some (.list values vars)
           match afterEllipsis with
           | none => none
           | some (.list values2 vars2) =>
               match fillSlots (fun c => itemFillVariables f c split.2) values2 with
               | none => none
               | some base =>
                   let cells := vars2.foldl
                     (fun acc e =>
                       match lookupFill split.2 e.1 with
                       | some fv => acc.set e.2 fv
                       | none => acc.set e.2 (NodeInput.str e.1))
                     base
                   NewListNode cells
           | some _ => none) := rfl

theorem leafFillVariables_int (b : Nat) (values : List Int) (vars : VarMap)
    (m : FillMap) :
    leafFillVariables (.int b values vars) m =
      (if vars = [] then some (.int b values vars)
       else
         let r := fillLeafInputs (values.map NodeInput.int) vars m
         if !r.2 then some (.int b values vars) else NewIntNode b r.1) := rfl

theorem leafFillVariables_uint (b : Nat) (values : List Nat) (vars : VarMap)
    (m : FillMap) :
    leafFillVariables (.uint b values vars) m =
      (if vars = [] then some (.uint b values vars)
       else
         let r := fillLeafInputs (values.map (fun v => NodeInput.int (Int.ofNat v))) vars m
         if !r.2 then some (.uint b values vars) else NewUintNode b r.1) := rfl

theorem leafFillVariables_float (b : Nat) (values : List Nat) (vars : VarMap)
    (m : FillMap) :
    leafFillVariables (.float b values vars) m =
      (if vars = [] then some (.float b values vars)
       else
         let r := fillLeafInputs (values.map NodeInput.float) vars m
         if !r.2 then some (.float b values vars) else NewFloatNode b r.1) := rfl

theorem leafFillVariables_boolean (values : List Bool) (vars : VarMap)
    (m : FillMap) :
    leafFillVariables (.boolean values vars) m =
      (if vars = [] then some (.boolean values vars)
       else
         let r := fillLeafInputs (values.map NodeInput.bool) vars m
         if !r.2 then some (.boolean values vars) else NewBooleanNode r.1) := rfl

theorem leafFillVariables_binary (values : List Nat) (vars : VarMap)
    (m : FillMap) :
    leafFillVariables (.binary values vars) m =
      (if vars = [] then some (.binary values vars)
       else
         let r := fillLeafInputs (values.map (fun v => NodeInput.int (Int.ofNat v))) vars m
         if !r.2 then some (.binary values vars) else NewBinaryNode r.1) := rfl

theorem fillSlots_nil (f : ItemNode → Option ItemNode) : fillSlots f [] = some [] := rfl

theorem fillSlots_cons (f : ItemNode → Option ItemNode) (c : ItemNode)
    (rest : List ItemNode) :
    fillSlots f (c :: rest) =
      (match f c with
       | none => none
       | some c2 =>
           match fillSlots f rest with
           | none => none
           | some cells => some (NodeInput.item c2 :: cells)) := rfl

theorem lookupFill_single (v : String) (x : NodeInput) (s : String) :
    lookupFill [(v, x)] s = if v = s then some x else none := rfl

theorem splitValues_single (v : String) (x : NodeInput) (h : isEllipsis v = false) :
    splitValues [(v, x)] = ([], [(v, x)]) := by
  unfold splitValues
  rw [List.filter_cons_of_neg (by simpa using h),
    List.filter_cons_of_pos (by simpa using h)]
  rfl

/-! Unpacking the list well-formedness invariant. -/

theorem asc_pos_nodup (i : Nat) (m : VarMap) (h : ascendingFrom i m) :
    (m.map (fun e => e.2)).Nodup := by
  refine List.Pairwise.map _ ?_ h.1
  intro a b hab
  omega

theorem listWf_parts (values : List ItemNode) (vars : VarMap)
    (h : itemWf (.list values vars) = true) :
    (values.length : Int) ≤ (MAX_BYTE_SIZE : Int) ∧
    ascendingFrom 0 vars ∧
    (vars.map (fun e => e.1)).Nodup ∧
    (∀ e ∈ vars, (isValidVarName e.1 || isEllipsis e.1) = true ∧ e.2 < values.length) ∧
    vars.countP (fun e => isEllipsis e.1) ≤ 1 ∧
    (∀ e ∈ vars, isEllipsis e.1 = true → e.2 ≠ 0) ∧
    (∀ j, j < values.length →
      (isEmptyItem (values.getD j ItemNode.empty) = true ↔ lookupPos vars j ≠ "")) ∧
    (itemVariables (.list values vars)).Nodup ∧
    childrenWf values = true := by
  rw [itemWf_list_eq] at h
  simp only [Bool.and_eq_true] at h
  obtain ⟨⟨⟨⟨hsize, hvt⟩, hslots⟩, hnames⟩, hch⟩ := h
  unfold listVarTableWf at hvt
  simp only [Bool.and_eq_true] at hvt
  obtain ⟨⟨⟨⟨hvt1, hvt2⟩, hvt3⟩, hvt4⟩, hvt5⟩ := hvt
  rw [List.all_eq_true] at hvt1 hvt3
  refine ⟨by simpa using hsize,
    ⟨(pairwiseAscPos_iff vars).mp hvt4, fun e _ => Nat.zero_le _⟩,
    (namesNodup_iff _).mp hvt5,
    ?_, by simpa using hvt2, ?_,
    fun j hj => listSlotsWf_corr values vars hslots j hj,
    (namesNodup_iff _).mp hnames, hch⟩
  · intro e he
    have := hvt1 e he
    simp only [Bool.and_eq_true, decide_eq_true_eq] at this
    exact this
  · intro e he hell
    have := hvt3 e he
    simp only [Bool.or_eq_true, Bool.not_eq_true'] at this
    rcases this with hne | hne
    · rw [hell] at hne; cases hne
    · simpa using hne

/-- Every direct variable of a well-formed list names an empty slot, is
found there by position lookup, and appears in the traversal. -/
theorem listWf_direct (values : List ItemNode) (vars : VarMap)
    (h : itemWf (.list values vars) = true) (e : String × Nat) (he : e ∈ vars) :
    lookupPos vars e.2 = e.1 ∧ values[e.2]? = some ItemNode.empty ∧
    e.1 ∈ listSlotVariables values vars 0 := by
  obtain ⟨_, hasc, _, hrange, _, _, hcorr, _, _⟩ := listWf_parts values vars h
  have hlp : lookupPos vars e.2 = e.1 :=
    lookupPos_unique vars e.1 e.2 (asc_pos_nodup 0 vars hasc)
      (by cases e; exact he)
  have hvalid := (hrange e he).1
  have hne : e.1 ≠ "" := by
    rcases Bool.or_eq_true _ _ |>.mp hvalid with hval | hell
    · exact isValidVarName_ne_empty _ hval
    · exact isEllipsis_ne_empty _ hell
  have hlt := (hrange e he).2
  have hempty : values[e.2]? = some ItemNode.empty := by
    have := (hcorr e.2 hlt).mpr (by rw [hlp]; exact hne)
    rw [getD_getElem? values e.2 ItemNode.empty hlt]
    rw [(isEmptyItem_iff _).mp this]
  refine ⟨hlp, hempty, ?_⟩
  have := listSlotVariables_mem_slot vars values 0 e.2 (Nat.zero_le _)
    (by simpa using hlt) (by simpa using hempty)
  rw [hlp] at this
  exact this

/-- The factory representation check of ListNode follows from the
well-formedness invariant. -/
theorem listCheckRep_of_wf (values : List ItemNode) (vars : VarMap)
    (h : itemWf (.list values vars) = true) : listCheckRep values vars = true := by
  obtain ⟨_, hasc, _, hrange, hcount, hell0, hcorr, hnames, _⟩ := listWf_parts values vars h
  unfold listCheckRep
  simp only [Bool.and_eq_true]
  refine ⟨⟨⟨?_, by simpa using hcount⟩,
    (listNodup_iff _).mpr (asc_pos_nodup 0 vars hasc)⟩,
    (listNodup_iff _).mpr hnames⟩
  rw [List.all_eq_true]
  intro e he
  obtain ⟨hlp, hempty, _⟩ := listWf_direct values vars h e he
  have hlt := (hrange e he).2
  simp only [Bool.and_eq_true, decide_eq_true_eq]
  refine ⟨⟨?_, ?_⟩, hlt⟩
  · rw [getD_getElem? values e.2 ItemNode.empty hlt] at hempty
    injection hempty with hh
    rw [hh]
    rfl
  · rcases Bool.or_eq_true _ _ |>.mp (hrange e he).1 with hval | hells
    · simp [hval]
    · simp [hells, hell0 e he hells]

theorem getDataByteLength_list (n : Int) : getDataByteLength "list" n = n := by
  unfold getDataByteLength bytePerValue
  simp

theorem fillLeafInputs_not_created (vars : VarMap) (v : String) (x : NodeInput)
    (h : ∀ e ∈ vars, e.1 ≠ v) (base : List NodeInput) :
    (fillLeafInputs base vars [(v, x)]).2 = false := by
  rw [fillLeafInputs_eq]
  dsimp only
  rw [List.any_eq_false]
  intro e he
  rw [lookupFill_single, if_neg (fun hcc => (h e he) hcc.symm)]
  simp

theorem names_ne_of_not_mem (vars : VarMap) (v : String)
    (h : v ∉ getVariableNames vars) : ∀ e ∈ vars, e.1 ≠ v := by
  intro e he hcc
  exact h ((mem_getVariableNames _ _).mpr (hcc ▸ List.mem_map_of_mem _ he))

mutual

/-- Filling a single non-ellipsis key that does not occur in an item leaves
the item unchanged: every lookup misses, so no node is rebuilt. -/
theorem itemFillVariables_noop :
    ∀ (item : ItemNode) (fuel : Nat) (v : String) (x : NodeInput),
      itemWf item = true → v ∉ itemVariables item → isEllipsis v = false →
      itemDepth item ≤ fuel →
      itemFillVariables fuel item [(v, x)] = some item
  | .empty, fuel, v, x => by
      intro _ _ _ hfuel
      obtain ⟨f, rfl⟩ : ∃ f, fuel = f + 1 :=
        ⟨fuel - 1, by have := itemDepth_pos ItemNode.empty; omega⟩
      rfl
  | .int b values vars, fuel, v, x => by
      intro hwf hnv hell hfuel
      obtain ⟨f, rfl⟩ : ∃ f, fuel = f + 1 :=
        ⟨fuel - 1, by have := itemDepth_pos (ItemNode.int b values vars); omega⟩
      rw [itemFillVariables_succ_int, leafFillVariables_int]
      by_cases hv : vars = []
      · rw [if_pos hv]
      · rw [if_neg hv]
        dsimp only
        rw [fillLeafInputs_not_created vars v x
          (names_ne_of_not_mem vars v (by simpa using hnv))]
        rfl
  | .uint b values vars, fuel, v, x => by
      intro hwf hnv hell hfuel
      obtain ⟨f, rfl⟩ : ∃ f, fuel = f + 1 :=
        ⟨fuel - 1, by have := itemDepth_pos (ItemNode.uint b values vars); omega⟩
      rw [itemFillVariables_succ_uint, leafFillVariables_uint]
      by_cases hv : vars = []
      · rw [if_pos hv]
      · rw [if_neg hv]
        dsimp only
        rw [fillLeafInputs_not_created vars v x
          (names_ne_of_not_mem vars v (by simpa using hnv))]
        rfl
  | .float b values vars, fuel, v, x => by
      intro hwf hnv hell hfuel
      obtain ⟨f, rfl⟩ : ∃ f, fuel = f + 1 :=
        ⟨fuel - 1, by have := itemDepth_pos (ItemNode.float b values vars); omega⟩
      rw [itemFillVariables_succ_float, leafFillVariables_float]
      by_cases hv : vars = []
      · rw [if_pos hv]
      · rw [if_neg hv]
        dsimp only
        rw [fillLeafInputs_not_created vars v x
          (names_ne_of_not_mem vars v (by simpa using hnv))]
        rfl
  | .boolean values vars, fuel, v, x => by
      intro hwf hnv hell hfuel
      obtain ⟨f, rfl⟩ : ∃ f, fuel = f + 1 :=
        ⟨fuel - 1, by have := itemDepth_pos (ItemNode.boolean values vars); omega⟩
      rw [itemFillVariables_succ_boolean, leafFillVariables_boolean]
      by_cases hv : vars = []
      · rw [if_pos hv]
      · rw [if_neg hv]
        dsimp only
        rw [fillLeafInputs_not_created vars v x
          (names_ne_of_not_mem vars v (by simpa using hnv))]
        rfl
  | .binary values vars, fuel, v, x => by
      intro hwf hnv hell hfuel
      obtain ⟨f, rfl⟩ : ∃ f, fuel = f + 1 :=
        ⟨fuel - 1, by have := itemDepth_pos (ItemNode.binary values vars); omega⟩
      rw [itemFillVariables_succ_binary, leafFillVariables_binary]
      by_cases hv : vars = []
      · rw [if_pos hv]
      · rw [if_neg hv]
        dsimp only
        rw [fillLeafInputs_not_created vars v x
          (names_ne_of_not_mem vars v (by simpa using hnv))]
        rfl
  | .ascii av an amin amax aval, fuel, v, x => by
      intro hwf hnv hell hfuel
      obtain ⟨f, rfl⟩ : ∃ f, fuel = f + 1 :=
        ⟨fuel - 1, by have := itemDepth_pos (ItemNode.ascii av an amin amax aval); omega⟩
      rw [itemFillVariables_succ_ascii]
      unfold asciiFillVariables
      cases aval with
      | true => rfl
      | false =>
          rw [if_neg (by simp)]
          have hne : v ≠ an := by
            intro hcc
            apply hnv
            rw [itemVariables_ascii]
            simp [hcc]
          rw [lookupFill_single, if_neg hne]
  | .list values vars, fuel, v, x => by
      intro hwf hnv hell hfuel
      obtain ⟨f, rfl⟩ : ∃ f, fuel = f + 1 :=
        ⟨fuel - 1, by have := itemDepth_pos (ItemNode.list values vars); omega⟩
      obtain ⟨hsize, hasc, hndn, hrange, _, _, hcorr, _, hch⟩ := listWf_parts values vars hwf
      rw [itemFillVariables_succ_list]
      rw [splitValues_single v x hell]
      dsimp only
      obtain ⟨r, hEZ⟩ := ellipsisAnalysisItem_nilMap (.list values vars)
      rw [hEZ]
      dsimp only
      rw [if_neg (by norm_num)]
      dsimp only
      have hnvc : ∀ c ∈ values, v ∉ itemVariables c := by
        intro c hc hvc
        by_cases hce : isEmptyItem c = true
        · rw [(isEmptyItem_iff c).mp hce] at hvc
          simp at hvc
        · exact hnv (by
            rw [itemVariables_list]
            exact listSlotVariables_mem_child vars c (by simpa using hce) values 0 hc v hvc)
      have hdep : ∀ c ∈ values, itemDepth c ≤ f := by
        intro c hc
        have h1 := itemDepthChildren_le c values hc
        have h2 : itemDepth (ItemNode.list values vars) = 1 + itemDepthChildren values := rfl
        omega
      rw [fillSlots_noop values f v x hch hnvc hell hdep]
      dsimp only
      rw [foldl_chooseCell_congr]
      have hlt : ∀ e ∈ vars, e.2 < values.length := fun e he => (hrange e he).2
      have hnone : ∀ e ∈ vars, lookupFill [(v, x)] e.1 = none := by
        intro e he
        have hmem := (listWf_direct values vars hwf e he).2.2
        have hne : e.1 ≠ v := by
          intro hcc
          apply hnv
          rw [itemVariables_list, ← hcc]
          exact hmem
        rw [lookupFill_single, if_neg (fun hcc => hne hcc.symm)]
      unfold NewListNode
      rw [if_neg (by
        rw [foldlSet_length, List.length_map, getDataByteLength_list]
        omega)]
      rw [noFill_buildInputs listInputCell ItemNode.empty NodeInput.item [(v, x)]
        values vars hasc hlt
        (fun e he => (listWf_direct values vars hwf e he).2.1)
        hndn (fun _ _ => rfl) hnone (fun _ _ => rfl)]
      dsimp only
      rw [listCheckRep_of_wf values vars hwf]
      rfl

/-- Companion of the no-op fill for the slot loop of a list. -/
theorem fillSlots_noop :
    ∀ (values : List ItemNode) (fuel : Nat) (v : String) (x : NodeInput),
      childrenWf values = true →
      (∀ c ∈ values, v ∉ itemVariables c) →
      isEllipsis v = false →
      (∀ c ∈ values, itemDepth c ≤ fuel) →
      fillSlots (fun c => itemFillVariables fuel c [(v, x)]) values =
        some (values.map NodeInput.item)
  | [], fuel, v, x => by intro _ _ _ _; rfl
  | c :: rest, fuel, v, x => by
      intro hwf hnv hell hfuel
      rw [childrenWf_cons, Bool.and_eq_true] at hwf
      rw [fillSlots_cons]
      rw [itemFillVariables_noop c fuel v x hwf.1 (hnv c (List.mem_cons_self _ _)) hell
        (hfuel c (List.mem_cons_self _ _))]
      rw [fillSlots_noop rest fuel v x hwf.2
        (fun c' hc' => hnv c' (List.mem_cons_of_mem _ hc'))
        hell (fun c' hc' => hfuel c' (List.mem_cons_of_mem _ hc'))]
      rfl

end

theorem validVarName_no0b (s : String) (h : isValidVarName s = true) :
    hasPrefix0b s = false := by
  unfold isValidVarName at h
  unfold hasPrefix0b
  revert h
  cases s.data with
  | nil => intro h; cases h
  | cons c cs =>
      intro h
      rw [Bool.and_eq_true] at h
      have hc : c ≠ '0' := by
        intro hcc
        rw [hcc] at h
        exact absurd h.1 (by decide)
      cases cs with
      | nil => rfl
      | cons c2 rest => simp [hc]

theorem nodup_erase_eq_filter (l : List String) (h : l.Nodup) (a : String) :
    l.erase a = l.filter (fun b => decide (b ≠ a)) := by
  rw [h.erase_eq_filter a]
  apply List.filter_congr
  intro b _
  by_cases hab : b = a
  · subst hab; simp
  · simp [hab]

theorem map_fst_filter_ne (l : VarMap) (v : String) :
    (l.filter (fun e => decide (e.1 ≠ v))).map (fun e => e.1) =
      (l.map (fun e => e.1)).filter (fun s => decide (s ≠ v)) := by
  induction l with
  | nil => rfl
  | cons e rest ih =>
      by_cases h : e.1 = v
      · rw [List.filter_cons_of_neg (by simpa using h), List.map_cons,
          List.filter_cons_of_neg (by simpa using h), ih]
      · rw [List.filter_cons_of_pos (by simpa using h), List.map_cons, List.map_cons,
          List.filter_cons_of_pos (by simpa using h), ih]

/-- Variable list of a rebuilt flat table: filtering out the filled name is
exactly erasing it from the sorted name list. -/
theorem getVariableNames_filter_erase (vars : VarMap) (v : String)
    (hasc : ascendingFrom 0 vars) (hnd : (vars.map (fun e => e.1)).Nodup) :
    getVariableNames (vars.filter (fun e => decide (e.1 ≠ v))) =
      (getVariableNames vars).erase v := by
  rw [getVariableNames_of_asc _ hasc.1,
    getVariableNames_of_asc _ (List.Pairwise.filter _ hasc.1),
    nodup_erase_eq_filter _ hnd v, map_fst_filter_ne]

/-- Unpacking the flat nodes' shared table invariant. -/
theorem varTableWf_parts (m : VarMap) (size : Nat) (zeroAt : Nat → Bool)
    (h : varTableWf m size zeroAt = true) :
    (∀ e ∈ m, isValidVarName e.1 = true ∧ e.2 < size ∧ zeroAt e.2 = true) ∧
    ascendingFrom 0 m ∧ (m.map (fun e => e.1)).Nodup := by
  unfold varTableWf at h
  simp only [Bool.and_eq_true] at h
  obtain ⟨⟨h1, h2⟩, h3⟩ := h
  rw [List.all_eq_true] at h1
  refine ⟨fun e he => ?_, ⟨(pairwiseAscPos_iff m).mp h2, fun e _ => Nat.zero_le _⟩,
    (namesNodup_iff _).mp h3⟩
  have := h1 e he
  simp only [Bool.and_eq_true, decide_eq_true_eq] at this
  exact ⟨this.1.1, this.1.2, this.2⟩

theorem fillLeafInputs_created (vars : VarMap) (v : String) (x : NodeInput) (pv : Nat)
    (h : (v, pv) ∈ vars) (base : List NodeInput) :
    (fillLeafInputs base vars [(v, x)]).2 = true := by
  rw [fillLeafInputs_eq]
  dsimp only
  rw [List.any_eq_true]
  exact ⟨(v, pv), h, by rw [lookupFill_single]; simp⟩

theorem getD_set_ne {α : Type} (l : List α) (i j : Nat) (a d : α) (h : i ≠ j) :
    (l.set i a).getD j d = l.getD j d := by
  rw [List.getD_eq_getElem?_getD, List.getD_eq_getElem?_getD, List.getElem?_set_ne h]

/-- Positions determine entries in a table with unique positions. -/
theorem entry_eq_of_pos (m : VarMap) (a b : String × Nat)
    (hnd : (m.map (fun e => e.2)).Nodup) (ha : a ∈ m) (hb : b ∈ m)
    (hp : a.2 = b.2) : a = b := by
  have h1 : lookupPos m a.2 = a.1 := lookupPos_unique m a.1 a.2 hnd (by cases a; exact ha)
  have h2 : lookupPos m b.2 = b.1 := lookupPos_unique m b.1 b.2 hnd (by cases b; exact hb)
  rw [hp, h2] at h1
  cases a; cases b
  simp at hp h1 ⊢
  exact ⟨h1.symm, hp⟩

theorem bytePerValue_i (b : Nat) (hb : b = 1 ∨ b = 2 ∨ b = 4 ∨ b = 8) :
    bytePerValue ("i" ++ toString b) = b := by
  rcases hb with rfl | rfl | rfl | rfl <;> rfl

theorem bytePerValue_u (b : Nat) (hb : b = 1 ∨ b = 2 ∨ b = 4 ∨ b = 8) :
    bytePerValue ("u" ++ toString b) = b := by
  rcases hb with rfl | rfl | rfl | rfl <;> rfl

theorem bytePerValue_f (b : Nat) (hb : b = 4 ∨ b = 8) :
    bytePerValue ("f" ++ toString b) = b := by
  rcases hb with rfl | rfl <;> rfl

theorem getDataByteLength_binary (n : Int) : getDataByteLength "binary" n = n := by
  unfold getDataByteLength bytePerValue
  simp

/-- A flat variable list membership yields the table entry. -/
theorem flatVar_lookup (vars : VarMap) (v : String)
    (hv : v ∈ getVariableNames vars) : ∃ pv, (v, pv) ∈ vars := by
  have h1 : v ∈ vars.map (fun e => e.1) := (mem_getVariableNames v vars).mp hv
  have h2 : (lookupVar vars v).isSome = true := (lookupVar_isSome_iff vars v).mpr h1
  cases hl : lookupVar vars v with
  | none => rw [hl] at h2; cases h2
  | some pv => exact ⟨pv, lookupVar_mem vars v pv hl⟩

/-! Definitional equations of the acceptability predicate. -/

theorem acceptableFill_list_eq (values : List ItemNode) (vars : VarMap)
    (v : String) (x : NodeInput) :
    acceptableFill (.list values vars) v x =
      (if (lookupVar vars v).isSome then
        match x with
        | .item n => itemWf n && decide (itemVariables n = []) && !isEmptyItem n
        | _ => false
      else acceptableFillChildren values v x) := rfl

theorem acceptableFill_binary_eq (values : List Nat) (vars : VarMap)
    (v : String) (x : NodeInput) :
    acceptableFill (.binary values vars) v x =
      (match x with
       | NodeInput.int n => decide (0 ≤ n) && decide (n < 256)
       | _ => false) := rfl

theorem acceptableFill_boolean_eq (values : List Bool) (vars : VarMap)
    (v : String) (x : NodeInput) :
    acceptableFill (.boolean values vars) v x =
      (match x with
       | NodeInput.bool _ => true
       | _ => false) := rfl

theorem acceptableFill_ascii_eq (av an : String) (minL maxL : Int) (aval : Bool)
    (v : String) (x : NodeInput) :
    acceptableFill (.ascii av an minL maxL aval) v x =
      (match x with
       | NodeInput.str s =>
           decide (minL ≤ (s.length : Int)) &&
           (decide (maxL = -1) || decide ((s.length : Int) ≤ maxL)) &&
           decide (s.length ≤ MAX_BYTE_SIZE) &&
           s.data.all (fun c => decide (c.toNat ≤ 127))
       | _ => false) := rfl

theorem acceptableFill_int_eq (b : Nat) (values : List Int) (vars : VarMap)
    (v : String) (x : NodeInput) :
    acceptableFill (.int b values vars) v x =
      (match x with
       | NodeInput.int n =>
           decide (-(2 ^ (b * 8 - 1) : Int) ≤ n) &&
           decide (n ≤ (2 ^ (b * 8 - 1) : Int) - 1)
       | _ => false) := rfl

theorem acceptableFill_uint_eq (b : Nat) (values : List Nat) (vars : VarMap)
    (v : String) (x : NodeInput) :
    acceptableFill (.uint b values vars) v x =
      (match x with
       | NodeInput.int n => decide (0 ≤ n) && decide (n < (2 ^ (b * 8) : Int))
       | _ => false) := rfl

theorem acceptableFill_float_eq (b : Nat) (values : List Nat) (vars : VarMap)
    (v : String) (x : NodeInput) :
    acceptableFill (.float b values vars) v x =
      (match x with
       | NodeInput.float bits =>
           decide (bits < 2 ^ (b * 8)) && finiteFloatBits b bits
       | _ => false) := rfl

theorem acceptableFillChildren_nil (v : String) (x : NodeInput) :
    acceptableFillChildren [] v x = false := rfl

theorem acceptableFillChildren_cons (c : ItemNode) (rest : List ItemNode)
    (v : String) (x : NodeInput) :
    acceptableFillChildren (c :: rest) v x =
      (if (itemVariables c).contains v then acceptableFill c v x
       else acceptableFillChildren rest v x) := rfl

/-- Single-variable fill of an IntNode: the factory rebuild stores the
integer at the variable's position and drops its table entry. -/
theorem fillErase_int (b : Nat) (values : List Int) (vars : VarMap) (fuel : Nat)
    (v : String) (x : NodeInput)
    (hwf : itemWf (.int b values vars) = true)
    (hv : v ∈ itemVariables (.int b values vars))
    (hacc : acceptableFill (.int b values vars) v x = true)
    (hfuel : 1 ≤ fuel) :
    ∃ item2, itemFillVariables fuel (.int b values vars) [(v, x)] = some item2 ∧
      itemVariables item2 = (itemVariables (.int b values vars)).erase v ∧
      isEmptyItem item2 = false := by
  rw [itemWf_int_eq] at hwf
  simp only [Bool.and_eq_true] at hwf
  obtain ⟨⟨⟨hb, hsz⟩, hrange⟩, htab⟩ := hwf
  obtain ⟨hentry, hasc, hnd⟩ := varTableWf_parts vars values.length _ htab
  have hbd : b = 1 ∨ b = 2 ∨ b = 4 ∨ b = 8 := by
    simp only [Bool.or_eq_true, decide_eq_true_eq] at hb
    tauto
  have hszn : values.length * b ≤ MAX_BYTE_SIZE := by simpa using hsz
  obtain ⟨n, rfl, hlo, hhi⟩ : ∃ n : Int, x = .int n ∧
      -(2 ^ (b * 8 - 1) : Int) ≤ n ∧ n ≤ (2 ^ (b * 8 - 1) : Int) - 1 := by
    rw [acceptableFill_int_eq] at hacc
    cases x with
    | int n =>
        simp only [Bool.and_eq_true, decide_eq_true_eq] at hacc
        exact ⟨n, rfl, hacc.1, hacc.2⟩
    | byte bb => cases hacc
    | bool bb => cases hacc
    | str s => cases hacc
    | item it => cases hacc
    | float bits => cases hacc
  obtain ⟨pv, hpv⟩ := flatVar_lookup vars v (by simpa using hv)
  obtain ⟨f, rfl⟩ : ∃ f, fuel = f + 1 := ⟨fuel - 1, by omega⟩
  have hcr : intCheckRep b (values.set pv n)
      (vars.filter (fun e => decide (e.1 ≠ v))) = true := by
    unfold intCheckRep
    simp only [Bool.and_eq_true]
    refine ⟨⟨hb, ?_⟩, ?_⟩
    · rw [List.all_eq_true]
      intro a ha
      rcases List.mem_or_eq_of_mem_set ha with ha | rfl
      · rw [List.all_eq_true] at hrange
        exact hrange a ha
      · simp only [Bool.and_eq_true, decide_eq_true_eq]
        exact ⟨hlo, hhi⟩
    · unfold flatVarsCheckRep
      simp only [Bool.and_eq_true]
      constructor
      · rw [List.all_eq_true]
        intro e he
        have hef : e ∈ vars := List.mem_of_mem_filter he
        have hne : e.1 ≠ v := by
          have := List.of_mem_filter he
          simpa using this
        simp only [Bool.and_eq_true, decide_eq_true_eq]
        have hppv : e.2 ≠ pv := by
          intro hcc
          have := entry_eq_of_pos vars e (v, pv) (asc_pos_nodup 0 vars hasc) hef hpv
            (by simpa using hcc)
          exact hne (by rw [this])
        refine ⟨⟨?_, (hentry e hef).1⟩, by
          rw [List.length_set]; exact (hentry e hef).2.1⟩
        rw [getD_set_ne values pv e.2 n 1 (fun hcc => hppv hcc.symm)]
        exact of_decide_eq_true (hentry e hef).2.2
      · refine (listNodup_iff _).mpr ?_
        exact List.Nodup.sublist (List.Sublist.map _ (List.filter_sublist _))
          (asc_pos_nodup 0 vars hasc)
  refine ⟨.int b (values.set pv n) (vars.filter (fun e => decide (e.1 ≠ v))),
    ?_, ?_, rfl⟩
  · rw [itemFillVariables_succ_int, leafFillVariables_int]
    rw [if_neg (by intro hcc; rw [hcc] at hpv; simp at hpv)]
    dsimp only
    rw [fillLeafInputs_created vars v (.int n) pv hpv]
    rw [if_neg (by simp)]
    rw [fillLeafInputs_eq]
    dsimp only
    unfold NewIntNode
    rw [if_neg (by
      rw [foldlSet_length, List.length_map]
      unfold getDataByteLength
      rw [bytePerValue_i b hbd]
      simp only [not_lt]
      exact_mod_cast hszn)]
    rw [fillFoldl_buildInputs intInputCell 0 n NodeInput.int (.int n) v pv values vars
      hasc (fun e he => (hentry e he).2.1)
      (fun e he => by
        rw [getD_getElem? values e.2 1 (hentry e he).2.1,
          of_decide_eq_true (hentry e he).2.2])
      hnd (fun a _ => rfl) rfl (fun e _ _ => rfl) hpv]
    dsimp only
    rw [hcr]
    rfl
  · rw [itemVariables_int, itemVariables_int]
    exact getVariableNames_filter_erase vars v hasc hnd

/-- Single-variable fill of a UintNode. -/
theorem fillErase_uint (b : Nat) (values : List Nat) (vars : VarMap) (fuel : Nat)
    (v : String) (x : NodeInput)
    (hwf : itemWf (.uint b values vars) = true)
    (hv : v ∈ itemVariables (.uint b values vars))
    (hacc : acceptableFill (.uint b values vars) v x = true)
    (hfuel : 1 ≤ fuel) :
    ∃ item2, itemFillVariables fuel (.uint b values vars) [(v, x)] = some item2 ∧
      itemVariables item2 = (itemVariables (.uint b values vars)).erase v ∧
      isEmptyItem item2 = false := by
  rw [itemWf_uint_eq] at hwf
  simp only [Bool.and_eq_true] at hwf
  obtain ⟨⟨⟨hb, hsz⟩, hrange⟩, htab⟩ := hwf
  obtain ⟨hentry, hasc, hnd⟩ := varTableWf_parts vars values.length _ htab
  have hbd : b = 1 ∨ b = 2 ∨ b = 4 ∨ b = 8 := by
    simp only [Bool.or_eq_true, decide_eq_true_eq] at hb
    tauto
  have hszn : values.length * b ≤ MAX_BYTE_SIZE := by simpa using hsz
  have hple : (2 : Nat) ^ (b * 8) ≤ 2 ^ 64 :=
    Nat.pow_le_pow_right (by norm_num) (by rcases hbd with rfl | rfl | rfl | rfl <;> omega)
  have hsmall : ∀ a : Nat, a < 2 ^ (b * 8) → goUint64OfInt (Int.ofNat a) = a := by
    intro a ha
    have hcast : Int.ofNat a = (a : Int) := rfl
    rw [hcast]
    unfold goUint64OfInt
    have h64 : a < 2 ^ 64 := by omega
    omega
  obtain ⟨n, rfl, hlo, hhi⟩ : ∃ n : Int, x = .int n ∧ 0 ≤ n ∧
      n < ((2 ^ (b * 8) : Nat) : Int) := by
    rw [acceptableFill_uint_eq] at hacc
    cases x with
    | int n =>
        simp only [Bool.and_eq_true, decide_eq_true_eq] at hacc
        refine ⟨n, rfl, hacc.1, ?_⟩
        have := hacc.2
        push_cast
        exact_mod_cast this
    | byte bb => cases hacc
    | bool bb => cases hacc
    | str s => cases hacc
    | item it => cases hacc
    | float bits => cases hacc
  have hxval : goUint64OfInt n = n.toNat := by
    unfold goUint64OfInt
    have h64 : ((2 ^ (b * 8) : Nat) : Int) ≤ ((2 ^ 64 : Nat) : Int) := by exact_mod_cast hple
    omega
  have hnlt : n.toNat < 2 ^ (b * 8) := by omega
  obtain ⟨pv, hpv⟩ := flatVar_lookup vars v (by simpa using hv)
  obtain ⟨f, rfl⟩ : ∃ f, fuel = f + 1 := ⟨fuel - 1, by omega⟩
  have hcr : uintCheckRep b (values.set pv n.toNat)
      (vars.filter (fun e => decide (e.1 ≠ v))) = true := by
    unfold uintCheckRep
    simp only [Bool.and_eq_true]
    refine ⟨⟨hb, ?_⟩, ?_⟩
    · rw [List.all_eq_true]
      intro a ha
      rcases List.mem_or_eq_of_mem_set ha with ha | rfl
      · rw [List.all_eq_true] at hrange
        exact hrange a ha
      · simpa using hnlt
    · unfold flatVarsCheckRep
      simp only [Bool.and_eq_true]
      constructor
      · rw [List.all_eq_true]
        intro e he
        have hef : e ∈ vars := List.mem_of_mem_filter he
        have hne : e.1 ≠ v := by
          have := List.of_mem_filter he
          simpa using this
        simp only [Bool.and_eq_true, decide_eq_true_eq]
        have hppv : e.2 ≠ pv := by
          intro hcc
          have := entry_eq_of_pos vars e (v, pv) (asc_pos_nodup 0 vars hasc) hef hpv
            (by simpa using hcc)
          exact hne (by rw [this])
        refine ⟨⟨?_, (hentry e hef).1⟩, by
          rw [List.length_set]; exact (hentry e hef).2.1⟩
        rw [getD_set_ne values pv e.2 n.toNat 1 (fun hcc => hppv hcc.symm)]
        exact of_decide_eq_true (hentry e hef).2.2
      · refine (listNodup_iff _).mpr ?_
        exact List.Nodup.sublist (List.Sublist.map _ (List.filter_sublist _))
          (asc_pos_nodup 0 vars hasc)
  refine ⟨.uint b (values.set pv n.toNat) (vars.filter (fun e => decide (e.1 ≠ v))),
    ?_, ?_, rfl⟩
  · rw [itemFillVariables_succ_uint, leafFillVariables_uint]
    rw [if_neg (by intro hcc; rw [hcc] at hpv; simp at hpv)]
    dsimp only
    rw [fillLeafInputs_created vars v (.int n) pv hpv]
    rw [if_neg (by simp)]
    rw [fillLeafInputs_eq]
    dsimp only
    unfold NewUintNode
    rw [if_neg (by
      rw [foldlSet_length, List.length_map]
      unfold getDataByteLength
      rw [bytePerValue_u b hbd]
      rw [not_lt]
      calc (values.length : Int) * (b : Int)
          = ((values.length * b : Nat) : Int) := by push_cast; ring
        _ ≤ ((MAX_BYTE_SIZE : Nat) : Int) := Int.ofNat_le.mpr hszn)]
    rw [fillFoldl_buildInputs uintInputCell 0 n.toNat
      (fun a => NodeInput.int (Int.ofNat a)) (.int n) v pv values vars
      hasc (fun e he => (hentry e he).2.1)
      (fun e he => by
        rw [getD_getElem? values e.2 1 (hentry e he).2.1,
          of_decide_eq_true (hentry e he).2.2])
      hnd
      (fun a ha => by
        show InputCell.val (goUint64OfInt (Int.ofNat a)) = InputCell.val a
        rw [List.all_eq_true] at hrange
        have := of_decide_eq_true (hrange a ha)
        rw [hsmall a this])
      (by
        show InputCell.val (goUint64OfInt n) = InputCell.val n.toNat
        rw [hxval])
      (fun e _ _ => rfl) hpv]
    dsimp only
    rw [hcr]
    rfl
  · rw [itemVariables_uint, itemVariables_uint]
    exact getVariableNames_filter_erase vars v hasc hnd

/-- Single-variable fill of a FloatNode. -/
theorem fillErase_float (b : Nat) (values : List Nat) (vars : VarMap) (fuel : Nat)
    (v : String) (x : NodeInput)
    (hwf : itemWf (.float b values vars) = true)
    (hv : v ∈ itemVariables (.float b values vars))
    (hacc : acceptableFill (.float b values vars) v x = true)
    (hfuel : 1 ≤ fuel) :
    ∃ item2, itemFillVariables fuel (.float b values vars) [(v, x)] = some item2 ∧
      itemVariables item2 = (itemVariables (.float b values vars)).erase v ∧
      isEmptyItem item2 = false := by
  rw [itemWf_float_eq] at hwf
  simp only [Bool.and_eq_true] at hwf
  obtain ⟨⟨⟨hb, hsz⟩, hrange⟩, htab⟩ := hwf
  obtain ⟨hentry, hasc, hnd⟩ := varTableWf_parts vars values.length _ htab
  have hbd : b = 4 ∨ b = 8 := by
    simp only [Bool.or_eq_true, decide_eq_true_eq] at hb
    tauto
  have hszn : values.length * b ≤ MAX_BYTE_SIZE := by simpa using hsz
  obtain ⟨bits, rfl, hblt, hbfin⟩ : ∃ bits : Nat, x = .float bits ∧
      bits < 2 ^ (b * 8) ∧ finiteFloatBits b bits = true := by
    rw [acceptableFill_float_eq] at hacc
    cases x with
    | float bits =>
        simp only [Bool.and_eq_true, decide_eq_true_eq] at hacc
        exact ⟨bits, rfl, hacc.1, hacc.2⟩
    | int n => cases hacc
    | byte bb => cases hacc
    | bool bb => cases hacc
    | str s => cases hacc
    | item it => cases hacc
  obtain ⟨pv, hpv⟩ := flatVar_lookup vars v (by simpa using hv)
  obtain ⟨f, rfl⟩ : ∃ f, fuel = f + 1 := ⟨fuel - 1, by omega⟩
  have hcr : floatCheckRep b (values.set pv bits)
      (vars.filter (fun e => decide (e.1 ≠ v))) = true := by
    unfold floatCheckRep
    simp only [Bool.and_eq_true]
    refine ⟨⟨hb, ?_⟩, ?_⟩
    · rw [List.all_eq_true]
      intro a ha
      rcases List.mem_or_eq_of_mem_set ha with ha | rfl
      · rw [List.all_eq_true] at hrange
        exact hrange a ha
      · simp only [Bool.and_eq_true, decide_eq_true_eq]
        exact ⟨hblt, hbfin⟩
    · unfold flatVarsCheckRep
      simp only [Bool.and_eq_true]
      constructor
      · rw [List.all_eq_true]
        intro e he
        have hef : e ∈ vars := List.mem_of_mem_filter he
        have hne : e.1 ≠ v := by
          have := List.of_mem_filter he
          simpa using this
        simp only [Bool.and_eq_true, decide_eq_true_eq]
        have hppv : e.2 ≠ pv := by
          intro hcc
          have := entry_eq_of_pos vars e (v, pv) (asc_pos_nodup 0 vars hasc) hef hpv
            (by simpa using hcc)
          exact hne (by rw [this])
        refine ⟨⟨?_, (hentry e hef).1⟩, by
          rw [List.length_set]; exact (hentry e hef).2.1⟩
        rw [getD_set_ne values pv e.2 bits 1 (fun hcc => hppv hcc.symm)]
        exact of_decide_eq_true (hentry e hef).2.2
      · refine (listNodup_iff _).mpr ?_
        exact List.Nodup.sublist (List.Sublist.map _ (List.filter_sublist _))
          (asc_pos_nodup 0 vars hasc)
  refine ⟨.float b (values.set pv bits) (vars.filter (fun e => decide (e.1 ≠ v))),
    ?_, ?_, rfl⟩
  · rw [itemFillVariables_succ_float, leafFillVariables_float]
    rw [if_neg (by intro hcc; rw [hcc] at hpv; simp at hpv)]
    dsimp only
    rw [fillLeafInputs_created vars v (.float bits) pv hpv]
    rw [if_neg (by simp)]
    rw [fillLeafInputs_eq]
    dsimp only
    unfold NewFloatNode
    rw [if_neg (by
      rw [foldlSet_length, List.length_map]
      unfold getDataByteLength
      rw [bytePerValue_f b hbd]
      simp only [not_lt]
      exact_mod_cast hszn)]
    rw [fillFoldl_buildInputs floatInputCell 0 bits NodeInput.float (.float bits)
      v pv values vars
      hasc (fun e he => (hentry e he).2.1)
      (fun e he => by
        rw [getD_getElem? values e.2 1 (hentry e he).2.1,
          of_decide_eq_true (hentry e he).2.2])
      hnd (fun a _ => rfl) rfl (fun e _ _ => rfl) hpv]
    dsimp only
    rw [hcr]
    rfl
  · rw [itemVariables_float, itemVariables_float]
    exact getVariableNames_filter_erase vars v hasc hnd

/-- Single-variable fill of a BooleanNode. -/
theorem fillErase_boolean (values : List Bool) (vars : VarMap) (fuel : Nat)
    (v : String) (x : NodeInput)
    (hwf : itemWf (.boolean values vars) = true)
    (hv : v ∈ itemVariables (.boolean values vars))
    (hacc : acceptableFill (.boolean values vars) v x = true)
    (hfuel : 1 ≤ fuel) :
    ∃ item2, itemFillVariables fuel (.boolean values vars) [(v, x)] = some item2 ∧
      itemVariables item2 = (itemVariables (.boolean values vars)).erase v ∧
      isEmptyItem item2 = false := by
  rw [itemWf_boolean_eq] at hwf
  simp only [Bool.and_eq_true] at hwf
  obtain ⟨hsz, htab⟩ := hwf
  obtain ⟨hentry, hasc, hnd⟩ := varTableWf_parts vars values.length _ htab
  have hszn : values.length ≤ MAX_BYTE_SIZE := by simpa using hsz
  obtain ⟨bb, rfl⟩ : ∃ bb : Bool, x = .bool bb := by
    rw [acceptableFill_boolean_eq] at hacc
    cases x with
    | bool bb => exact ⟨bb, rfl⟩
    | int n => cases hacc
    | byte b2 => cases hacc
    | str s => cases hacc
    | item it => cases hacc
    | float bits => cases hacc
  obtain ⟨pv, hpv⟩ := flatVar_lookup vars v (by simpa using hv)
  obtain ⟨f, rfl⟩ : ∃ f, fuel = f + 1 := ⟨fuel - 1, by omega⟩
  have hcr : booleanCheckRep (values.set pv bb)
      (vars.filter (fun e => decide (e.1 ≠ v))) = true := by
    unfold booleanCheckRep flatVarsCheckRep
    simp only [Bool.and_eq_true]
    constructor
    · rw [List.all_eq_true]
      intro e he
      have hef : e ∈ vars := List.mem_of_mem_filter he
      have hne : e.1 ≠ v := by
        have := List.of_mem_filter he
        simpa using this
      simp only [Bool.and_eq_true, decide_eq_true_eq]
      have hppv : e.2 ≠ pv := by
        intro hcc
        have := entry_eq_of_pos vars e (v, pv) (asc_pos_nodup 0 vars hasc) hef hpv
          (by simpa using hcc)
        exact hne (by rw [this])
      refine ⟨⟨?_, (hentry e hef).1⟩, by
        rw [List.length_set]; exact (hentry e hef).2.1⟩
      rw [getD_set_ne values pv e.2 bb true (fun hcc => hppv hcc.symm)]
      exact of_decide_eq_true (hentry e hef).2.2
    · refine (listNodup_iff _).mpr ?_
      exact List.Nodup.sublist (List.Sublist.map _ (List.filter_sublist _))
        (asc_pos_nodup 0 vars hasc)
  refine ⟨.boolean (values.set pv bb) (vars.filter (fun e => decide (e.1 ≠ v))),
    ?_, ?_, rfl⟩
  · rw [itemFillVariables_succ_boolean, leafFillVariables_boolean]
    rw [if_neg (by intro hcc; rw [hcc] at hpv; simp at hpv)]
    dsimp only
    rw [fillLeafInputs_created vars v (.bool bb) pv hpv]
    rw [if_neg (by simp)]
    rw [fillLeafInputs_eq]
    dsimp only
    unfold NewBooleanNode
    rw [if_neg (by
      rw [foldlSet_length, List.length_map, getDataByteLength_binary]
      simp only [not_lt]
      exact_mod_cast hszn)]
    rw [fillFoldl_buildInputs boolInputCell false bb NodeInput.bool (.bool bb)
      v pv values vars
      hasc (fun e he => (hentry e he).2.1)
      (fun e he => by
        rw [getD_getElem? values e.2 true (hentry e he).2.1,
          of_decide_eq_true (hentry e he).2.2])
      hnd (fun a _ => rfl) rfl (fun e _ _ => rfl) hpv]
    dsimp only
    rw [hcr]
    rfl
  · rw [itemVariables_boolean, itemVariables_boolean]
    exact getVariableNames_filter_erase vars v hasc hnd

theorem binaryInputCell_int (n : Int) :
    binaryInputCell (.int n) = if n < 0 then .bad else .val n.toNat := rfl

theorem binaryInputCell_str (s : String) :
    binaryInputCell (.str s) =
      (if hasPrefix0b s then
        (let v := parseBinLit s; if v < 0 then .bad else .val v.toNat)
      else .variable s) := rfl

/-- Single-variable fill of a BinaryNode. -/
theorem fillErase_binary (values : List Nat) (vars : VarMap) (fuel : Nat)
    (v : String) (x : NodeInput)
    (hwf : itemWf (.binary values vars) = true)
    (hv : v ∈ itemVariables (.binary values vars))
    (hacc : acceptableFill (.binary values vars) v x = true)
    (hfuel : 1 ≤ fuel) :
    ∃ item2, itemFillVariables fuel (.binary values vars) [(v, x)] = some item2 ∧
      itemVariables item2 = (itemVariables (.binary values vars)).erase v ∧
      isEmptyItem item2 = false := by
  rw [itemWf_binary_eq] at hwf
  simp only [Bool.and_eq_true] at hwf
  obtain ⟨⟨hsz, hrange⟩, htab⟩ := hwf
  obtain ⟨hentry, hasc, hnd⟩ := varTableWf_parts vars values.length _ htab
  have hszn : values.length ≤ MAX_BYTE_SIZE := by simpa using hsz
  obtain ⟨n, rfl, hlo, hhi⟩ : ∃ n : Int, x = .int n ∧ 0 ≤ n ∧ n < 256 := by
    rw [acceptableFill_binary_eq] at hacc
    cases x with
    | int n =>
        simp only [Bool.and_eq_true, decide_eq_true_eq] at hacc
        exact ⟨n, rfl, hacc.1, hacc.2⟩
    | byte bb => cases hacc
    | bool bb => cases hacc
    | str s => cases hacc
    | item it => cases hacc
    | float bits => cases hacc
  obtain ⟨pv, hpv⟩ := flatVar_lookup vars v (by simpa using hv)
  obtain ⟨f, rfl⟩ : ∃ f, fuel = f + 1 := ⟨fuel - 1, by omega⟩
  have hcr : binaryCheckRep (values.set pv n.toNat)
      (vars.filter (fun e => decide (e.1 ≠ v))) = true := by
    unfold binaryCheckRep
    simp only [Bool.and_eq_true]
    refine ⟨?_, ?_⟩
    · rw [List.all_eq_true]
      intro a ha
      rcases List.mem_or_eq_of_mem_set ha with ha | rfl
      · rw [List.all_eq_true] at hrange
        exact hrange a ha
      · simp only [decide_eq_true_eq]
        omega
    · unfold flatVarsCheckRep
      simp only [Bool.and_eq_true]
      constructor
      · rw [List.all_eq_true]
        intro e he
        have hef : e ∈ vars := List.mem_of_mem_filter he
        have hne : e.1 ≠ v := by
          have := List.of_mem_filter he
          simpa using this
        simp only [Bool.and_eq_true, decide_eq_true_eq]
        have hppv : e.2 ≠ pv := by
          intro hcc
          have := entry_eq_of_pos vars e (v, pv) (asc_pos_nodup 0 vars hasc) hef hpv
            (by simpa using hcc)
          exact hne (by rw [this])
        refine ⟨⟨?_, (hentry e hef).1⟩, by
          rw [List.length_set]; exact (hentry e hef).2.1⟩
        rw [getD_set_ne values pv e.2 n.toNat 1 (fun hcc => hppv hcc.symm)]
        exact of_decide_eq_true (hentry e hef).2.2
      · refine (listNodup_iff _).mpr ?_
        exact List.Nodup.sublist (List.Sublist.map _ (List.filter_sublist _))
          (asc_pos_nodup 0 vars hasc)
  refine ⟨.binary (values.set pv n.toNat) (vars.filter (fun e => decide (e.1 ≠ v))),
    ?_, ?_, rfl⟩
  · rw [itemFillVariables_succ_binary, leafFillVariables_binary]
    rw [if_neg (by intro hcc; rw [hcc] at hpv; simp at hpv)]
    dsimp only
    rw [fillLeafInputs_created vars v (.int n) pv hpv]
    rw [if_neg (by simp)]
    rw [fillLeafInputs_eq]
    dsimp only
    unfold NewBinaryNode
    rw [if_neg (by
      rw [foldlSet_length, List.length_map, getDataByteLength_binary]
      rw [not_lt]
      exact Int.ofNat_le.mpr hszn)]
    rw [fillFoldl_buildInputs binaryInputCell 0 n.toNat
      (fun a => NodeInput.int (Int.ofNat a)) (.int n) v pv values vars
      hasc (fun e he => (hentry e he).2.1)
      (fun e he => by
        rw [getD_getElem? values e.2 1 (hentry e he).2.1,
          of_decide_eq_true (hentry e he).2.2])
      hnd
      (fun a _ => by
        rw [binaryInputCell_int]
        have hcast : Int.ofNat a = (a : Int) := rfl
        rw [hcast, if_neg (show ¬((a : Int) < 0) by omega)]
        rw [Int.toNat_natCast])
      (by
        rw [binaryInputCell_int]
        rw [if_neg (show ¬(n < 0) by omega)])
      (fun e he hne => by
        rw [binaryInputCell_str]
        rw [if_neg (show ¬(hasPrefix0b e.1 = true) by
          rw [validVarName_no0b e.1 (hentry e he).1]
          simp)])
      hpv]
    dsimp only
    rw [hcr]
    rfl
  · rw [itemVariables_binary, itemVariables_binary]
    exact getVariableNames_filter_erase vars v hasc hnd

theorem getDataByteLength_ascii (n : Int) : getDataByteLength "ascii" n = n := by
  unfold getDataByteLength bytePerValue
  simp

/-- Single-variable fill of a variable-mode ASCIINode: an in-bounds ASCII
string rebuilds the literal node, closing the variable. -/
theorem fillErase_ascii (av an : String) (amin amax : Int) (aval : Bool) (fuel : Nat)
    (v : String) (x : NodeInput)
    (hwf : itemWf (.ascii av an amin amax aval) = true)
    (hv : v ∈ itemVariables (.ascii av an amin amax aval))
    (hacc : acceptableFill (.ascii av an amin amax aval) v x = true)
    (hfuel : 1 ≤ fuel) :
    ∃ item2, itemFillVariables fuel (.ascii av an amin amax aval) [(v, x)] = some item2 ∧
      itemVariables item2 = (itemVariables (.ascii av an amin amax aval)).erase v ∧
      isEmptyItem item2 = false := by
  cases aval with
  | true => simp [itemVariables_ascii] at hv
  | false =>
      have hvan : v = an := by
        rw [itemVariables_ascii] at hv
        simpa using hv
      subst hvan
      obtain ⟨s, rfl, hmin, hmax, hlen, hchars⟩ : ∃ s : String, x = .str s ∧
          amin ≤ (s.length : Int) ∧
          (amax = -1 ∨ (s.length : Int) ≤ amax) ∧
          s.length ≤ MAX_BYTE_SIZE ∧
          s.data.all (fun c => decide (c.toNat ≤ 127)) = true := by
        rw [acceptableFill_ascii_eq] at hacc
        cases x with
        | str s =>
            simp only [Bool.and_eq_true, Bool.or_eq_true, decide_eq_true_eq] at hacc
            exact ⟨s, rfl, hacc.1.1.1, hacc.1.1.2, hacc.1.2, hacc.2⟩
        | int n => cases hacc
        | byte bb => cases hacc
        | bool bb => cases hacc
        | item it => cases hacc
        | float bits => cases hacc
      obtain ⟨f, rfl⟩ : ∃ f, fuel = f + 1 := ⟨fuel - 1, by omega⟩
      refine ⟨.ascii s "" 0 0 true, ?_, ?_, rfl⟩
      · rw [itemFillVariables_succ_ascii]
        unfold asciiFillVariables
        rw [if_neg (by simp)]
        rw [lookupFill_single, if_pos rfl]
        dsimp only
        rw [if_neg (by omega)]
        rw [if_neg (by
          rintro ⟨h1, h2⟩
          rcases hmax with hm | hm
          · exact h1 hm
          · omega)]
        unfold NewASCIINode
        rw [getDataByteLength_ascii]
        rw [if_neg (by
          rw [not_lt]
          exact Int.ofNat_le.mpr hlen)]
        rw [if_pos (by
          unfold asciiCheckRep
          simp only [if_pos rfl]
          simpa using hchars)]
      · rw [itemVariables_ascii, itemVariables_ascii]
        simp

theorem set_cons_zero {α : Type} (a : α) (l : List α) (b : α) :
    (a :: l).set 0 b = b :: l := rfl

/-- If a direct variable occupies slot `pv`, tree-wide name uniqueness keeps
its name out of every child. -/
theorem not_mem_child_of_slot (values : List ItemNode) (vars : VarMap) (v : String)
    (pv : Nat) (hnd : (listSlotVariables values vars 0).Nodup)
    (hlt : pv < values.length) (hslot : values[pv]? = some ItemNode.empty)
    (hlp : lookupPos vars pv = v) :
    ∀ c ∈ values, v ∉ itemVariables c := by
  intro c hc hvc
  have hcne : isEmptyItem c = false := by
    by_cases hh : isEmptyItem c = true
    · rw [(isEmptyItem_iff c).mp hh] at hvc
      simp at hvc
    · simpa using hh
  obtain ⟨L, R, rfl⟩ := List.append_of_mem hc
  rw [listSlotVariables_append, listSlotVariables_cons, if_neg (by simp [hcne])] at hnd
  simp only [Nat.zero_add] at hnd
  rcases Nat.lt_trichotomy pv L.length with hcase | hcase | hcase
  · have hslotL : L[pv]? = some ItemNode.empty := by
      rw [List.getElem?_append_left hcase] at hslot
      exact hslot
    have hvL : v ∈ listSlotVariables L vars 0 := by
      have := listSlotVariables_mem_slot vars L 0 pv (Nat.zero_le _)
        (by simpa using hcase) (by simpa using hslotL)
      rw [hlp] at this
      exact this
    exact (List.nodup_append.mp hnd).2.2 hvL (List.mem_append_left _ hvc)
  · rw [List.getElem?_append_right (by omega)] at hslot
    rw [show pv - L.length = 0 from by omega] at hslot
    simp only [List.getElem?_cons_zero] at hslot
    injection hslot with hslot
    rw [hslot] at hcne
    simp [isEmptyItem] at hcne
  · have hlen : pv < L.length + (R.length + 1) := by
      rw [List.length_append, List.length_cons] at hlt
      omega
    have hR : R[pv - (L.length + 1)]? = some ItemNode.empty := by
      rw [List.getElem?_append_right (by omega)] at hslot
      rw [show pv - L.length = (pv - (L.length + 1)) + 1 from by omega,
        List.getElem?_cons_succ] at hslot
      exact hslot
    have hvR : v ∈ listSlotVariables R vars (L.length + 1) := by
      have := listSlotVariables_mem_slot vars R (L.length + 1) pv (by omega)
        (by omega) hR
      rw [hlp] at this
      exact this
    exact (List.nodup_append.mp (List.nodup_append.mp hnd).2.1).2.2 hvc hvR

/-- Variable list of a list node after storing a variable-free item into the
filled slot and dropping that slot's table entry. -/
theorem listSlotVariables_direct (n : ItemNode) (v : String)
    (hne2 : isEmptyItem n = false) (hnv : itemVariables n = []) (vars : VarMap)
    (hpos : (vars.map (fun e => e.2)).Nodup)
    (hnames : (vars.map (fun e => e.1)).Nodup) :
    ∀ (values : List ItemNode) (i pv : Nat),
    (v, pv) ∈ vars →
    i ≤ pv → pv - i < values.length →
    values[pv - i]? = some ItemNode.empty →
    (listSlotVariables values vars i).Nodup →
    listSlotVariables (values.set (pv - i) n)
        (vars.filter (fun e => decide (e.1 ≠ v))) i =
      (listSlotVariables values vars i).erase v := by
  intro values
  induction values with
  | nil => intro i pv _ _ h _ _; simp at h
  | cons c rest ih =>
      intro i pv hpv hle hlt hslot hnd
      have hlp : lookupPos vars pv = v := lookupPos_unique vars v pv hpos hpv
      rw [listSlotVariables_cons] at hnd
      by_cases hpi : pv = i
      · subst hpi
        have hc : c = ItemNode.empty := by
          rw [Nat.sub_self] at hslot
          simpa using hslot
        subst hc
        rw [Nat.sub_self, set_cons_zero]
        rw [listSlotVariables_cons, listSlotVariables_cons]
        rw [if_neg (by simp [hne2]), if_pos (show isEmptyItem ItemNode.empty = true from rfl)]
        rw [hnv, hlp]
        rw [List.nil_append]
        have herase : ((v :: listSlotVariables rest vars (pv + 1)).erase v) =
            listSlotVariables rest vars (pv + 1) := by
          simp
        rw [show [v] ++ listSlotVariables rest vars (pv + 1) =
          v :: listSlotVariables rest vars (pv + 1) from rfl, herase]
        apply listSlotVariables_congr
        intro j hj
        apply lookupPos_filter
        intro e he hq hev
        have hee := List.inj_on_of_nodup_map hnames he hpv (by rw [hev])
        rw [hee] at hq
        simp at hq
        omega
      · have hgt : i < pv := by omega
        have hixx : pv - i = (pv - (i + 1)) + 1 := by omega
        rw [hixx, set_cons_succ]
        rw [listSlotVariables_cons, listSlotVariables_cons]
        have hhead : (if isEmptyItem c then
              [lookupPos (vars.filter (fun e => decide (e.1 ≠ v))) i]
            else itemVariables c) =
            (if isEmptyItem c then [lookupPos vars i] else itemVariables c) := by
          by_cases hce : isEmptyItem c = true
          · rw [if_pos hce, if_pos hce]
            rw [lookupPos_filter]
            intro e he hq hev
            have hee := List.inj_on_of_nodup_map hnames he hpv (by rw [hev])
            rw [hee] at hq
            simp at hq
            omega
          · rw [if_neg hce, if_neg hce]
        rw [hhead]
        have hslot2 : rest[pv - (i + 1)]? = some ItemNode.empty := by
          rw [hixx, List.getElem?_cons_succ] at hslot
          exact hslot
        have hvT : v ∈ listSlotVariables rest vars (i + 1) := by
          have := listSlotVariables_mem_slot vars rest (i + 1) pv (by omega)
            (by simp only [List.length_cons] at hlt; omega) hslot2
          rw [hlp] at this
          exact this
        have hnotA : v ∉ (if isEmptyItem c then [lookupPos vars i]
            else itemVariables c) := by
          intro hvA
          exact (List.nodup_append.mp hnd).2.2 hvA hvT
        rw [List.erase_append_right _ hnotA]
        rw [ih (i + 1) pv hpv (by omega)
          (by simp only [List.length_cons] at hlt; omega) hslot2
          (List.nodup_append.mp hnd).2.1]

/-- Factory representation check for a list with the filled slot stored and
the filled entry removed. -/
theorem listCheckRep_set (values : List ItemNode) (vars : VarMap) (v : String)
    (pv : Nat) (n : ItemNode) (hwf : itemWf (.list values vars) = true)
    (hpv : (v, pv) ∈ vars)
    (hnd2 : (itemVariables (.list (values.set pv n)
      (vars.filter (fun e => decide (e.1 ≠ v))))).Nodup) :
    listCheckRep (values.set pv n) (vars.filter (fun e => decide (e.1 ≠ v))) = true := by
  obtain ⟨_, hasc, hnames, hrange, hcount, hell0, _, _, _⟩ := listWf_parts values vars hwf
  unfold listCheckRep
  simp only [Bool.and_eq_true]
  refine ⟨⟨⟨?_, ?_⟩, ?_⟩, (listNodup_iff _).mpr hnd2⟩
  · rw [List.all_eq_true]
    intro e he
    have hef : e ∈ vars := List.mem_of_mem_filter he
    have hne : e.1 ≠ v := by
      have := List.of_mem_filter he
      simpa using this
    have hppv : e.2 ≠ pv := by
      intro hcc
      have := entry_eq_of_pos vars e (v, pv) (asc_pos_nodup 0 vars hasc) hef hpv
        (by simpa using hcc)
      exact hne (by rw [this])
    obtain ⟨hlp, hempty, _⟩ := listWf_direct values vars hwf e hef
    have hlt := (hrange e hef).2
    simp only [Bool.and_eq_true, decide_eq_true_eq]
    refine ⟨⟨?_, ?_⟩, by rw [List.length_set]; exact hlt⟩
    · rw [getD_set_ne values pv e.2 n ItemNode.empty (fun hcc => hppv hcc.symm)]
      rw [getD_getElem? values e.2 ItemNode.empty hlt] at hempty
      injection hempty with hh
      rw [hh]
      rfl
    · rcases Bool.or_eq_true _ _ |>.mp (hrange e hef).1 with hval | hells
      · simp [hval]
      · simp [hells, hell0 e hef hells]
  · rw [decide_eq_true_eq]
    calc (vars.filter (fun e => decide (e.1 ≠ v))).countP (fun e => isEllipsis e.1)
        ≤ vars.countP (fun e => isEllipsis e.1) :=
          List.Sublist.countP_le _ (List.filter_sublist vars)
      _ ≤ 1 := hcount
  · refine (listNodup_iff _).mpr ?_
    exact List.Nodup.sublist (List.Sublist.map _ (List.filter_sublist _))
      (asc_pos_nodup 0 vars hasc)

/-- Factory representation check for a list whose children were rebuilt with
slot emptiness preserved. -/
theorem listCheckRep_slots (values2 values : List ItemNode) (vars : VarMap)
    (hwf : itemWf (.list values vars) = true)
    (hlen : values2.length = values.length)
    (hpres : ∀ j : Nat, values2[j]? = some ItemNode.empty ↔ values[j]? = some ItemNode.empty)
    (hnd2 : (itemVariables (.list values2 vars)).Nodup) :
    listCheckRep values2 vars = true := by
  obtain ⟨_, hasc, _, hrange, hcount, hell0, _, _, _⟩ := listWf_parts values vars hwf
  unfold listCheckRep
  simp only [Bool.and_eq_true]
  refine ⟨⟨⟨?_, by simpa using hcount⟩, ?_⟩, (listNodup_iff _).mpr hnd2⟩
  · rw [List.all_eq_true]
    intro e he
    obtain ⟨hlp, hempty, _⟩ := listWf_direct values vars hwf e he
    have hlt := (hrange e he).2
    simp only [Bool.and_eq_true, decide_eq_true_eq]
    refine ⟨⟨?_, ?_⟩, by rw [hlen]; exact hlt⟩
    · have h2 : values2[e.2]? = some ItemNode.empty := (hpres e.2).mpr hempty
      rw [getD_getElem? values2 e.2 ItemNode.empty (by rw [hlen]; exact hlt)] at h2
      injection h2 with hh
      rw [hh]
      rfl
    · rcases Bool.or_eq_true _ _ |>.mp (hrange e he).1 with hval | hells
      · simp [hval]
      · simp [hells, hell0 e he hells]
  · refine (listNodup_iff _).mpr ?_
    exact asc_pos_nodup 0 vars hasc

mutual

/-- Filling one acceptable non-ellipsis variable succeeds and removes
exactly that variable from the item's variable list, keeping the remaining
names in their original order. -/
theorem fillItemErases :
    ∀ (item : ItemNode) (fuel : Nat) (v : String) (x : NodeInput),
      itemWf item = true → v ∈ itemVariables item → isEllipsis v = false →
      acceptableFill item v x = true → itemDepth item ≤ fuel →
      ∃ item2, itemFillVariables fuel item [(v, x)] = some item2 ∧
        itemVariables item2 = (itemVariables item).erase v ∧
        isEmptyItem item2 = false
  | .empty, fuel, v, x => by
      intro _ hv _ _ _
      simp at hv
  | .int b values vars, fuel, v, x => fun hwf hv _ hacc hfuel =>
      fillErase_int b values vars fuel v x hwf hv hacc
        (le_trans (itemDepth_pos _) hfuel)
  | .uint b values vars, fuel, v, x => fun hwf hv _ hacc hfuel =>
      fillErase_uint b values vars fuel v x hwf hv hacc
        (le_trans (itemDepth_pos _) hfuel)
  | .float b values vars, fuel, v, x => fun hwf hv _ hacc hfuel =>
      fillErase_float b values vars fuel v x hwf hv hacc
        (le_trans (itemDepth_pos _) hfuel)
  | .boolean values vars, fuel, v, x => fun hwf hv _ hacc hfuel =>
      fillErase_boolean values vars fuel v x hwf hv hacc
        (le_trans (itemDepth_pos _) hfuel)
  | .binary values vars, fuel, v, x => fun hwf hv _ hacc hfuel =>
      fillErase_binary values vars fuel v x hwf hv hacc
        (le_trans (itemDepth_pos _) hfuel)
  | .ascii av an amin amax aval, fuel, v, x => fun hwf hv _ hacc hfuel =>
      fillErase_ascii av an amin amax aval fuel v x hwf hv hacc
        (le_trans (itemDepth_pos _) hfuel)
  | .list values vars, fuel, v, x => by
      intro hwf hv hell hacc hfuel
      obtain ⟨f, rfl⟩ : ∃ f, fuel = f + 1 :=
        ⟨fuel - 1, by have := itemDepth_pos (ItemNode.list values vars); omega⟩
      have hdepc : ∀ c ∈ values, itemDepth c ≤ f := by
        intro c hc
        have h1 := itemDepthChildren_le c values hc
        have h2 : itemDepth (ItemNode.list values vars) = 1 + itemDepthChildren values := rfl
        omega
      obtain ⟨hsize, hasc, hndn, hrange, hcount, hell0, hcorr, hndt, hch⟩ :=
        listWf_parts values vars hwf
      rw [acceptableFill_list_eq] at hacc
      by_cases hdir : (lookupVar vars v).isSome = true
      · rw [if_pos hdir] at hacc
        obtain ⟨pv, hlk⟩ : ∃ pv, lookupVar vars v = some pv := by
          cases hl : lookupVar vars v with
          | none => rw [hl] at hdir; cases hdir
          | some pv => exact ⟨pv, rfl⟩
        have hpv : (v, pv) ∈ vars := lookupVar_mem vars v pv hlk
        obtain ⟨nI, rfl, hnwf, hnv0, hnne⟩ : ∃ nI : ItemNode, x = .item nI ∧
            itemWf nI = true ∧ itemVariables nI = [] ∧ isEmptyItem nI = false := by
          cases x with
          | item nI =>
              simp only [Bool.and_eq_true, Bool.not_eq_true', decide_eq_true_eq] at hacc
              exact ⟨nI, rfl, hacc.1.1, hacc.1.2, hacc.2⟩
          | int n => cases hacc
          | byte bb => cases hacc
          | bool bb => cases hacc
          | str s => cases hacc
          | float bits => cases hacc
        obtain ⟨hlp, hempty, hmem⟩ := listWf_direct values vars hwf (v, pv) hpv
        have hlt : pv < values.length := (hrange (v, pv) hpv).2
        have htrav : listSlotVariables (values.set pv nI)
            (vars.filter (fun e => decide (e.1 ≠ v))) 0 =
            (listSlotVariables values vars 0).erase v := by
          have := listSlotVariables_direct nI v hnne hnv0 vars
            (asc_pos_nodup 0 vars hasc) hndn values 0 pv hpv (Nat.zero_le _)
            (by simpa using hlt) (by simpa using hempty) (by simpa using hndt)
          simpa using this
        refine ⟨.list (values.set pv nI) (vars.filter (fun e => decide (e.1 ≠ v))),
          ?_, ?_, rfl⟩
        · rw [itemFillVariables_succ_list, splitValues_single v (.item nI) hell]
          dsimp only
          obtain ⟨r, hEZ⟩ := ellipsisAnalysisItem_nilMap (.list values vars)
          rw [hEZ]
          dsimp only
          rw [if_neg (by norm_num)]
          dsimp only
          have hnvc : ∀ c ∈ values, v ∉ itemVariables c :=
            not_mem_child_of_slot values vars v pv (by simpa using hndt) hlt
              (by simpa using hempty) hlp
          rw [fillSlots_noop values f v (.item nI) hch hnvc hell hdepc]
          dsimp only
          rw [foldl_chooseCell_congr]
          unfold NewListNode
          rw [if_neg (by
            rw [foldlSet_length, List.length_map, getDataByteLength_list]
            omega)]
          rw [fillFoldl_buildInputs listInputCell ItemNode.empty nI NodeInput.item
            (.item nI) v pv values vars hasc (fun e he => (hrange e he).2)
            (fun e he => (listWf_direct values vars hwf e he).2.1)
            hndn (fun a _ => rfl) rfl (fun e _ _ => rfl) hpv]
          dsimp only
          rw [listCheckRep_set values vars v pv nI hwf hpv (by
            rw [itemVariables_list, htrav]
            exact List.Nodup.erase v (by simpa using hndt))]
          rfl
        · rw [itemVariables_list, itemVariables_list]
          exact htrav
      · rw [if_neg hdir] at hacc
        have hdirn : ∀ e ∈ vars, v ≠ e.1 := by
          intro e he hcc
          exact hdir ((lookupVar_isSome_iff vars v).mpr (hcc ▸ List.mem_map_of_mem _ he))
        obtain ⟨values2, h1, h2, h3, h4⟩ := fillSlotsErase values vars f 0 v x
          hch hdirn (by simpa using hv) (by simpa using hndt) hell hacc hdepc
          (fun j hj hje => by
            have := (hcorr j hj).mp hje
            simpa using this)
        refine ⟨.list values2 vars, ?_, ?_, rfl⟩
        · rw [itemFillVariables_succ_list, splitValues_single v x hell]
          dsimp only
          obtain ⟨r, hEZ⟩ := ellipsisAnalysisItem_nilMap (.list values vars)
          rw [hEZ]
          dsimp only
          rw [if_neg (by norm_num)]
          dsimp only
          rw [h1]
          dsimp only
          rw [foldl_chooseCell_congr]
          unfold NewListNode
          rw [if_neg (by
            rw [foldlSet_length, List.length_map, getDataByteLength_list, h2]
            omega)]
          rw [noFill_buildInputs listInputCell ItemNode.empty NodeInput.item [(v, x)]
            values2 vars hasc
            (fun e he => by rw [h2]; exact (hrange e he).2)
            (fun e he => (h4 e.2).mpr (listWf_direct values vars hwf e he).2.1)
            hndn (fun _ _ => rfl)
            (fun e he => by
              rw [lookupFill_single, if_neg (hdirn e he)])
            (fun _ _ => rfl)]
          dsimp only
          rw [listCheckRep_slots values2 values vars hwf h2 h4 (by
            rw [itemVariables_list, h3]
            exact List.Nodup.erase v (by simpa using hndt))]
          rfl
        · rw [itemVariables_list, itemVariables_list]
          exact h3

/-- Companion slot-loop statement: filling the one child that holds the
variable, leaving every other slot unchanged. -/
theorem fillSlotsErase :
    ∀ (values : List ItemNode) (vars : VarMap) (fuel i : Nat) (v : String)
      (x : NodeInput),
      childrenWf values = true →
      (∀ e ∈ vars, v ≠ e.1) →
      v ∈ listSlotVariables values vars i →
      (listSlotVariables values vars i).Nodup →
      isEllipsis v = false →
      acceptableFillChildren values v x = true →
      (∀ c ∈ values, itemDepth c ≤ fuel) →
      (∀ j : Nat, j < values.length →
        isEmptyItem (values.getD j ItemNode.empty) = true →
        lookupPos vars (i + j) ≠ "") →
      ∃ values2,
        fillSlots (fun c => itemFillVariables fuel c [(v, x)]) values =
          some (values2.map NodeInput.item) ∧
        values2.length = values.length ∧
        listSlotVariables values2 vars i = (listSlotVariables values vars i).erase v ∧
        (∀ j : Nat, values2[j]? = some ItemNode.empty ↔ values[j]? = some ItemNode.empty)
  | [], vars, fuel, i, v, x => by
      intro _ _ hv _ _ _ _ _
      simp at hv
  | c :: rest, vars, fuel, i, v, x => by
      intro hwf hdir hv hnd hell hacc hdep hcorr
      rw [childrenWf_cons, Bool.and_eq_true] at hwf
      rw [listSlotVariables_cons] at hv hnd
      rw [acceptableFillChildren_cons] at hacc
      by_cases hcv : v ∈ (if isEmptyItem c then [lookupPos vars i] else itemVariables c)
      · by_cases hce : isEmptyItem c = true
        · exfalso
          rw [if_pos hce] at hcv
          have hveq : v = lookupPos vars i := by simpa using hcv
          have hlpne : lookupPos vars i ≠ "" := by
            have h0 := hcorr 0 (by simp) (by simpa using hce)
            simpa using h0
          exact hdir _ (lookupPos_mem vars i hlpne) hveq
        · rw [if_neg hce] at hcv
          have hcontains : (itemVariables c).contains v = true := List.elem_iff.mpr hcv
          rw [if_pos hcontains] at hacc
          obtain ⟨c2, hc2, hvars2, hce2⟩ := fillItemErases c fuel v x hwf.1 hcv hell
            hacc (hdep c (List.mem_cons_self _ _))
          have hvT : v ∉ listSlotVariables rest vars (i + 1) := by
            intro hvv
            exact (List.nodup_append.mp hnd).2.2 (by rw [if_neg hce]; exact hcv) hvv
          have hnoopr := fillSlots_noop rest fuel v x hwf.2
            (fun c' hc' hvc' => by
              by_cases hh : isEmptyItem c' = true
              · rw [(isEmptyItem_iff c').mp hh] at hvc'
                simp at hvc'
              · exact hvT (listSlotVariables_mem_child vars c' (by simpa using hh)
                  rest (i + 1) hc' v hvc'))
            hell (fun c' hc' => hdep c' (List.mem_cons_of_mem _ hc'))
          refine ⟨c2 :: rest, ?_, by simp, ?_, ?_⟩
          · rw [fillSlots_cons, hc2, hnoopr]
            rfl
          · rw [listSlotVariables_cons, listSlotVariables_cons]
            rw [if_neg (by simp [hce2]), if_neg hce]
            rw [hvars2]
            rw [List.erase_append_left _ hcv]
          · intro j
            cases j with
            | zero =>
                simp only [List.getElem?_cons_zero]
                constructor
                · intro hh
                  exfalso
                  injection hh with hh
                  rw [hh] at hce2
                  simp [isEmptyItem] at hce2
                · intro hh
                  exfalso
                  injection hh with hh
                  rw [hh] at hce
                  simp [isEmptyItem] at hce
            | succ j' => simp only [List.getElem?_cons_succ]
      · have hvT : v ∈ listSlotVariables rest vars (i + 1) := by
          rcases List.mem_append.mp hv with h | h
          · exact absurd h hcv
          · exact h
        have hnvc : v ∉ itemVariables c := by
          by_cases hce : isEmptyItem c = true
          · rw [(isEmptyItem_iff c).mp hce]
            simp
          · intro hvc
            exact hcv (by rw [if_neg hce]; exact hvc)
        have hcnoop : itemFillVariables fuel c [(v, x)] = some c :=
          itemFillVariables_noop c fuel v x hwf.1 hnvc hell
            (hdep c (List.mem_cons_self _ _))
        have haccr : acceptableFillChildren rest v x = true := by
          rw [if_neg (fun hcont => hnvc (List.elem_iff.mp hcont))] at hacc
          exact hacc
        obtain ⟨values2, h1, h2, h3, h4⟩ := fillSlotsErase rest vars fuel (i + 1) v x
          hwf.2 hdir hvT (List.nodup_append.mp hnd).2.1 hell haccr
          (fun c' hc' => hdep c' (List.mem_cons_of_mem _ hc'))
          (fun j hj hje => by
            have := hcorr (j + 1) (by simp only [List.length_cons]; omega)
              (by simpa using hje)
            rw [show i + (j + 1) = i + 1 + j from by omega] at this
            exact this)
        refine ⟨c :: values2, ?_, by simp [h2], ?_, ?_⟩
        · rw [fillSlots_cons, hcnoop, h1]
          rfl
        · rw [listSlotVariables_cons, listSlotVariables_cons, h3]
          rw [List.erase_append_right _ hcv]
        · intro j
          cases j with
          | zero => simp only [List.getElem?_cons_zero]
          | succ j' =>
              simp only [List.getElem?_cons_succ]
              exact h4 j'

end

/-- C7 (amended): for every well-formed item m, every non-ellipsis variable
v occurring in m, and every fill-in value x concretely acceptable for v
(right type and range for the owning node, not itself a variable name,
binary literal, or empty/variable-carrying item), FillVariables with
{v: x} succeeds and the variable list of the result is the variable list of
m with v removed, the remaining names unchanged and in order.  (The
original claim over every "acceptable" fill-in is refuted by
c7_variable_closure_refuted: an ellipsis fill renames the surviving
variables.) -/
theorem c7_variable_closure (item : ItemNode) (fuel : Nat) (v : String)
    (x : NodeInput) (hwf : itemWf item = true) (hv : v ∈ itemVariables item)
    (hell : isEllipsis v = false) (hacc : acceptableFill item v x = true)
    (hfuel : itemDepth item ≤ fuel) :
    ∃ item2, itemFillVariables fuel item [(v, x)] = some item2 ∧
      itemVariables item2 = (itemVariables item).erase v :=
  match fillItemErases item fuel v x hwf hv hell hacc hfuel with
  | ⟨item2, h1, h2, _⟩ => ⟨item2, h1, h2⟩

/-- C7 witness: filling `var` with the string "hi" in
`<L <A var> <A[0] w>>`-shaped item removes exactly `var`. -/
theorem c7_variable_closure_witness :
    itemWf (.list [.ascii "" "var" 0 (-1) false, .empty] [("w", 1)]) = true ∧
    "var" ∈ itemVariables (.list [.ascii "" "var" 0 (-1) false, .empty] [("w", 1)]) ∧
    isEllipsis "var" = false ∧
    acceptableFill (.list [.ascii "" "var" 0 (-1) false, .empty] [("w", 1)])
      "var" (.str "hi") = true ∧
    itemDepth (.list [.ascii "" "var" 0 (-1) false, .empty] [("w", 1)]) ≤ 2 ∧
    ∃ item2,
      itemFillVariables 2 (.list [.ascii "" "var" 0 (-1) false, .empty] [("w", 1)])
        [("var", .str "hi")] = some item2 ∧
      itemVariables item2 =
        (itemVariables (.list [.ascii "" "var" 0 (-1) false, .empty]
          [("w", 1)])).erase "var" :=
  ⟨by decide, by decide, by decide, by decide, by decide,
    c7_variable_closure (.list [.ascii "" "var" 0 (-1) false, .empty] [("w", 1)])
      2 "var" (.str "hi") (by decide) (by decide) (by decide) (by decide) (by decide)⟩

/-- C4 witness: the concrete type "ascii" at size 300 (two length bytes
[1, 44], format byte 16*4+2 = 66). -/
theorem c4_length_field_minimality_witness :
    0 ≤ getDataByteLength "ascii" 300 ∧
    getDataByteLength "ascii" 300 ≤ (MAX_BYTE_SIZE : Int) ∧
    getHeaderBytes "ascii" 300 =
      some ((formatCodeOf "ascii" * 4 +
          specLenByteCount (getDataByteLength "ascii" 300).toNat) ::
        specMinimalBE (getDataByteLength "ascii" 300).toNat) :=
  ⟨by decide, by decide,
    (c4_length_field_minimality "ascii" 300 (by decide) (by decide)).1⟩

/-!
Round-trip development for C1: the decoder inverts the encoder on the
restricted class `roundTrippable` (the two decoder bugs — length-byte
truncation and the rejected `byte` inputs of NewBinaryNode — bound the
class), and on the eight control-message constructors.
-/

theorem natToBEBytes_length (w x : Nat) : (natToBEBytes w x).length = w := by
  simp [natToBEBytes]

theorem natToBEBytes_succ (w x : Nat) :
    natToBEBytes (w + 1) x = x / 256 ^ w % 256 :: natToBEBytes w x := by
  unfold natToBEBytes
  rw [List.range_succ_eq_map, List.map_cons, List.map_map]
  have htail : List.map ((fun i => x / 256 ^ (w + 1 - 1 - i) % 256) ∘ Nat.succ) (List.range w)
      = List.map (fun i => x / 256 ^ (w - 1 - i) % 256) (List.range w) := by
    apply List.map_congr_left
    intro i hi
    simp only [Function.comp_apply, Nat.succ_eq_add_one]
    have he : w + 1 - 1 - (i + 1) = w - 1 - i := by omega
    rw [he]
  rw [htail]
  rfl

theorem beFoldl_acc (bs : List Nat) : ∀ acc : Nat,
    bs.foldl (fun a b => a * 256 + b) acc = acc * 256 ^ bs.length + beBytesToNat bs := by
  induction bs with
  | nil => intro acc; simp [beBytesToNat]
  | cons d rest ih =>
      intro acc
      show List.foldl _ (acc * 256 + d) rest = _
      rw [ih (acc * 256 + d)]
      show _ = acc * 256 ^ (d :: rest).length + List.foldl _ (0 * 256 + d) rest
      rw [ih (0 * 256 + d), List.length_cons]
      ring

theorem beBytesToNat_cons (d : Nat) (bs : List Nat) :
    beBytesToNat (d :: bs) = d * 256 ^ bs.length + beBytesToNat bs := by
  show List.foldl _ (0 * 256 + d) bs = _
  rw [beFoldl_acc]
  ring

theorem natToBEBytes_mod (w x : Nat) : natToBEBytes w x = natToBEBytes w (x % 256 ^ w) := by
  unfold natToBEBytes
  apply List.map_congr_left
  intro i hi
  rw [List.mem_range] at hi
  have hsplit : (256 : Nat) ^ w = 256 ^ (w - 1 - i) * 256 ^ (w - (w - 1 - i)) := by
    rw [← pow_add]
    congr 1
    omega
  symm
  rw [hsplit, Nat.mod_mul_right_div_self,
    Nat.mod_mod_of_dvd _ (dvd_pow_self 256 (by omega))]

theorem beBytesToNat_natToBEBytes (w : Nat) : ∀ x : Nat,
    beBytesToNat (natToBEBytes w x) = x % 256 ^ w := by
  induction w with
  | zero => intro x; simp [natToBEBytes, beBytesToNat, Nat.mod_one]
  | succ w ih =>
      intro x
      rw [natToBEBytes_succ, beBytesToNat_cons, natToBEBytes_length,
        natToBEBytes_mod w x, ih (x % 256 ^ w), Nat.mod_mod_of_dvd _ dvd_rfl,
        pow_succ, Nat.mod_mul]
      ring

theorem beBytesToNat_natToBEBytes_lt (w x : Nat) (h : x < 256 ^ w) :
    beBytesToNat (natToBEBytes w x) = x := by
  rw [beBytesToNat_natToBEBytes, Nat.mod_eq_of_lt h]

theorem pow256_eq (w : Nat) : (256 : Nat) ^ w = 2 ^ (8 * w) := by
  rw [show (256 : Nat) = 2 ^ 8 from rfl, ← pow_mul]

/-- Decoding the encoder's big-endian bytes of a signed value recovers it:
the two's-complement cast chain `byte(uint64(v) >> k)` then `intN(...)` is
the identity on the signed `w`-byte range. -/
theorem toSigned_beBytes_inv (w : Nat) (hw : w = 1 ∨ w = 2 ∨ w = 4 ∨ w = 8) (v : Int)
    (h1 : -(2 ^ (w * 8 - 1) : Int) ≤ v) (h2 : v ≤ (2 ^ (w * 8 - 1) : Int) - 1) :
    toSigned w (beBytesToNat (natToBEBytes w (goUint64OfInt v))) = v := by
  rw [beBytesToNat_natToBEBytes]
  unfold toSigned goUint64OfInt
  rcases hw with rfl | rfl | rfl | rfl <;>
    (norm_num at h1 h2 ⊢ <;> split <;> omega)

/-- Decoding the encoder's big-endian bytes of an unsigned value recovers
it on the `w`-byte range. -/
theorem beBytes_uint_inv (w : Nat) (hw8 : w ≤ 8) (v : Nat) (hv : v < 2 ^ (w * 8)) :
    beBytesToNat (natToBEBytes w v) = v := by
  apply beBytesToNat_natToBEBytes_lt
  rw [pow256_eq]
  have : (2 : Nat) ^ (w * 8) ≤ 2 ^ (8 * w) := by
    rw [Nat.mul_comm]
  omega

theorem flatten_length_const (w : Nat) : ∀ gs : List (List Nat),
    (∀ g ∈ gs, g.length = w) → gs.flatten.length = gs.length * w := by
  intro gs
  induction gs with
  | nil => intro _; simp
  | cons g rest ih =>
      intro h
      rw [List.flatten_cons, List.length_append,
        ih (fun g hg => h g (List.mem_cons_of_mem _ hg)), h g (List.mem_cons_self _ _),
        List.length_cons]
      ring

theorem chunkBytesAux_flatten (w : Nat) (hw : 0 < w) : ∀ (gs : List (List Nat)) (fuel : Nat),
    (∀ g ∈ gs, g.length = w) → gs.flatten.length ≤ fuel →
    chunkBytesAux w fuel gs.flatten = gs := by
  intro gs
  induction gs with
  | nil =>
      intro fuel _ _
      cases fuel with
      | zero => rfl
      | succ f => simp [chunkBytesAux]
  | cons g rest ih =>
      intro fuel h hle
      have hg : g.length = w := h g (List.mem_cons_self _ _)
      have hgs : ∀ g2 ∈ rest, g2.length = w := fun g2 hg2 => h g2 (List.mem_cons_of_mem _ hg2)
      rw [List.flatten_cons] at hle ⊢
      have hlen : (g ++ rest.flatten).length = w + rest.flatten.length := by
        rw [List.length_append, hg]
      cases fuel with
      | zero => omega
      | succ f =>
          show (if g ++ rest.flatten = [] then []
            else (g ++ rest.flatten).take w :: chunkBytesAux w f ((g ++ rest.flatten).drop w)) = _
          rw [if_neg (fun hnil => by
            have hc := congrArg List.length hnil
            rw [hlen] at hc
            simp at hc
            omega)]
          rw [List.take_left' hg, List.drop_left' hg, ih f hgs (by omega)]

theorem chunkBytes_flatten (w : Nat) (hw : 0 < w) (gs : List (List Nat))
    (h : ∀ g ∈ gs, g.length = w) : chunkBytes w gs.flatten = gs := by
  unfold chunkBytes
  rw [if_neg (by omega)]
  exact chunkBytesAux_flatten w hw gs gs.flatten.length h le_rfl

theorem buildInputs_cons {α : Type} (cell : NodeInput → InputCell α) (zero : α)
    (inp : NodeInput) (rest : List NodeInput) (i : Nat) (vals : List α) (vars : VarMap) :
    buildInputs cell zero (inp :: rest) i vals vars =
      (match cell inp with
       | .val a => buildInputs cell zero rest (i + 1) (vals ++ [a]) vars
       | .variable s =>
           if (lookupVar vars s).isSome then none
           else buildInputs cell zero rest (i + 1) (vals ++ [zero]) (vars ++ [(s, i)])
       | .bad => none) := rfl

/-- The factory input loop on a list of pure value cells appends exactly
those values and registers no variable. -/
theorem buildInputs_all_vals {α : Type} (cell : NodeInput → InputCell α) (zero : α)
    (vc : α → NodeInput) : ∀ (l : List α), (∀ a ∈ l, cell (vc a) = .val a) →
    ∀ (i : Nat) (vals : List α) (vars : VarMap),
      buildInputs cell zero (l.map vc) i vals vars = some (vals ++ l, vars) := by
  intro l
  induction l with
  | nil => intro _ i vals vars; simp [buildInputs]
  | cons a rest ih =>
      intro h i vals vars
      rw [List.map_cons, buildInputs_cons, h a (List.mem_cons_self _ _)]
      show buildInputs cell zero (rest.map vc) (i + 1) (vals ++ [a]) vars = _
      rw [ih (fun b hb => h b (List.mem_cons_of_mem _ hb)) (i + 1) (vals ++ [a]) vars]
      simp

theorem insertByPos_ne_nil (e : String × Nat) (l : VarMap) : insertByPos e l ≠ [] := by
  cases l with
  | nil => simp [insertByPos]
  | cons e0 rest =>
      unfold insertByPos
      split <;> simp

theorem getVariableNames_eq_nil (m : VarMap) (h : getVariableNames m = []) : m = [] := by
  cases m with
  | nil => rfl
  | cons e rest =>
      exfalso
      unfold getVariableNames sortByPos at h
      rw [List.map_eq_nil_iff] at h
      exact insertByPos_ne_nil e (sortByPos rest) h

/-- For byte lengths up to 255 the header is the format byte with one
length byte holding the byte length itself. -/
theorem getHeaderBytes_small (typ : String) (n : Nat) (h : n * bytePerValue typ ≤ 255) :
    getHeaderBytes typ (n : Int) =
      some [formatCodeOf typ * 4 + 1, n * bytePerValue typ] := by
  have hd : getDataByteLength typ (n : Int) = ((n * bytePerValue typ : Nat) : Int) := by
    unfold getDataByteLength
    push_cast
    ring
  unfold getHeaderBytes
  rw [hd]
  have hmax : ¬ ((n * bytePerValue typ : Nat) : Int) > ((MAX_BYTE_SIZE : Nat) : Int) := by
    unfold MAX_BYTE_SIZE
    omega
  rw [if_neg hmax]
  have h0 : goByte (((n * bytePerValue typ : Nat) : Int) / 2 ^ 16) = 0 := by
    unfold goByte
    omega
  have h1 : goByte (((n * bytePerValue typ : Nat) : Int) / 2 ^ 8) = 0 := by
    unfold goByte
    omega
  have h2 : goByte ((n * bytePerValue typ : Nat) : Int) = n * bytePerValue typ := by
    unfold goByte
    omega
  simp only [h0, h1, h2]
  norm_num

theorem goDecodeLength_single (n : Nat) : goDecodeLength [n] = n % 256 := by
  simp [goDecodeLength]

theorem parseItem_succ_cons (fuel : Nat) (fb : Nat) (rest0 : List Nat) :
    parseItem (fuel + 1) (fb :: rest0) =
      (let formatCode := fb / 4
       let lengthBytesCount := fb % 4
       if lengthBytesCount = 0 then none
       else if rest0.length < lengthBytesCount then none
       else
         let length := goDecodeLength (rest0.take lengthBytesCount)
         let rest1 := rest0.drop lengthBytesCount
         if formatCode = 0o00 then
           match parseChildrenAux (parseItem fuel) length rest1 with
           | none => none
           | some (children, rest2) =>
               match NewListNode (children.map NodeInput.item) with
               | none => none
               | some item => some (item, rest2)
         else if formatCode = 0o20 then
           if rest1.length < length then none
           else
             match NewASCIINode (stringOfBytes (rest1.take length)) with
             | none => none
             | some item => some (item, rest1.drop length)
         else if formatCode = 0o10 then
           if rest1.length < length then none
           else
             match NewBinaryNode ((rest1.take length).map NodeInput.byte) with
             | none => none
             | some item => some (item, rest1.drop length)
         else if formatCode = 0o11 then
           if rest1.length < length then none
           else
             match NewBooleanNode ((rest1.take length).map
                 (fun v => NodeInput.bool (v ≠ 0))) with
             | none => none
             | some item => some (item, rest1.drop length)
         else if formatCode = 0o44 then parseFloatGo 4 length rest1
         else if formatCode = 0o40 then parseFloatGo 8 length rest1
         else if formatCode = 0o31 then parseIntGo 1 length rest1
         else if formatCode = 0o32 then parseIntGo 2 length rest1
         else if formatCode = 0o34 then parseIntGo 4 length rest1
         else if formatCode = 0o30 then parseIntGo 8 length rest1
         else if formatCode = 0o51 then parseUintGo 1 length rest1
         else if formatCode = 0o52 then parseUintGo 2 length rest1
         else if formatCode = 0o54 then parseUintGo 4 length rest1
         else if formatCode = 0o50 then parseUintGo 8 length rest1
         else none) := rfl

/-- One decoding step on a frame whose format byte declares one length byte
holding `L ≤ 255`: the decoder reaches the format-code dispatch with payload
length `L` and the remaining input. -/
theorem parseItem_one_length (fuel fmt L : Nat) (tail : List Nat) (hL : L ≤ 255) :
    parseItem (fuel + 1) ((fmt * 4 + 1) :: L :: tail) =
      (if fmt = 0o00 then
         match parseChildrenAux (parseItem fuel) L tail with
         | none => none
         | some (children, rest2) =>
             match NewListNode (children.map NodeInput.item) with
             | none => none
             | some item => some (item, rest2)
       else if fmt = 0o20 then
         if tail.length < L then none
         else
           match NewASCIINode (stringOfBytes (tail.take L)) with
           | none => none
           | some item => some (item, tail.drop L)
       else if fmt = 0o10 then
         if tail.length < L then none
         else
           match NewBinaryNode ((tail.take L).map NodeInput.byte) with
           | none => none
           | some item => some (item, tail.drop L)
       else if fmt = 0o11 then
         if tail.length < L then none
         else
           match NewBooleanNode ((tail.take L).map (fun v => NodeInput.bool (v ≠ 0))) with
           | none => none
           | some item => some (item, tail.drop L)
       else if fmt = 0o44 then parseFloatGo 4 L tail
       else if fmt = 0o40 then parseFloatGo 8 L tail
       else if fmt = 0o31 then parseIntGo 1 L tail
       else if fmt = 0o32 then parseIntGo 2 L tail
       else if fmt = 0o34 then parseIntGo 4 L tail
       else if fmt = 0o30 then parseIntGo 8 L tail
       else if fmt = 0o51 then parseUintGo 1 L tail
       else if fmt = 0o52 then parseUintGo 2 L tail
       else if fmt = 0o54 then parseUintGo 4 L tail
       else if fmt = 0o50 then parseUintGo 8 L tail
       else none) := by
  rw [parseItem_succ_cons]
  have hdiv : (fmt * 4 + 1) / 4 = fmt := by omega
  have hmod : (fmt * 4 + 1) % 4 = 1 := by omega
  simp only [hdiv, hmod]
  rw [if_neg (by omega), if_neg (by simp)]
  rw [show (L :: tail).take 1 = [L] from rfl, show (L :: tail).drop 1 = tail from rfl,
    goDecodeLength_single, Nat.mod_eq_of_lt (by omega)]

/-- parser.parseInt inverts the IntNode payload encoding on the signed
range, handing back the values and the unread suffix. -/
theorem parseIntGo_encode (b : Nat) (values : List Int) (extra : List Nat)
    (hb : b = 1 ∨ b = 2 ∨ b = 4 ∨ b = 8)
    (hrange : ∀ v ∈ values, -(2 ^ (b * 8 - 1) : Int) ≤ v ∧ v ≤ (2 ^ (b * 8 - 1) : Int) - 1)
    (hlen : values.length * b ≤ 255) :
    parseIntGo b (values.length * b)
      ((values.map (fun v => natToBEBytes b (goUint64OfInt v))).flatten ++ extra) =
      some (.int b values [], extra) := by
  have hb0 : 0 < b := by omega
  have hglen : ∀ g ∈ values.map (fun v => natToBEBytes b (goUint64OfInt v)), g.length = b := by
    intro g hg
    rw [List.mem_map] at hg
    obtain ⟨v, _, rfl⟩ := hg
    exact natToBEBytes_length b _
  have hplen : ((values.map (fun v => natToBEBytes b (goUint64OfInt v))).flatten).length
      = values.length * b := by
    rw [flatten_length_const b _ hglen, List.length_map]
  have hsize :
      ¬ getDataByteLength ("i" ++ toString b) ((values.map NodeInput.int).length : Int) >
        ((MAX_BYTE_SIZE : Nat) : Int) := by
    unfold getDataByteLength
    rw [List.length_map, bytePerValue_i b hb]
    have hc : ((values.length : Nat) : Int) * ((b : Nat) : Int) =
        ((values.length * b : Nat) : Int) := by
      push_cast
      ring
    rw [hc]
    unfold MAX_BYTE_SIZE
    omega
  have hcheck : intCheckRep b values [] = true := by
    unfold intCheckRep flatVarsCheckRep
    simp only [List.all_nil, List.map_nil, Bool.and_true, Bool.true_and, List.all_eq_true,
      Bool.and_eq_true, decide_eq_true_eq]
    refine ⟨⟨by rcases hb with rfl | rfl | rfl | rfl <;> simp, ?_⟩, rfl⟩
    intro v hv
    exact ⟨(hrange v hv).1, (hrange v hv).2⟩
  have hNew : NewIntNode b (values.map NodeInput.int) = some (.int b values []) := by
    unfold NewIntNode
    rw [if_neg hsize,
      buildInputs_all_vals intInputCell 0 NodeInput.int values (fun a ha => rfl) 0 [] []]
    show (if intCheckRep b ([] ++ values) [] then some (ItemNode.int b ([] ++ values) []) else none) = _
    rw [List.nil_append, if_pos hcheck]
  have hmap : values.map ((fun g => NodeInput.int (toSigned b (beBytesToNat g))) ∘
      (fun v => natToBEBytes b (goUint64OfInt v))) = values.map NodeInput.int := by
    apply List.map_congr_left
    intro v hv
    simp only [Function.comp_apply]
    rw [toSigned_beBytes_inv b hb v (hrange v hv).1 (hrange v hv).2]
  unfold parseIntGo
  rw [if_neg (by simp [Nat.mul_mod_left]), if_neg (by rw [List.length_append, hplen]; omega),
    List.take_left' hplen, List.drop_left' hplen,
    chunkBytes_flatten b hb0 _ hglen, List.map_map, hmap]
  simp only [hNew]

/-- parser.parseUint inverts the UintNode payload encoding on the unsigned
range. -/
theorem parseUintGo_encode (b : Nat) (values : List Nat) (extra : List Nat)
    (hb : b = 1 ∨ b = 2 ∨ b = 4 ∨ b = 8)
    (hrange : ∀ v ∈ values, v < 2 ^ (b * 8))
    (hlen : values.length * b ≤ 255) :
    parseUintGo b (values.length * b)
      ((values.map (natToBEBytes b)).flatten ++ extra) =
      some (.uint b values [], extra) := by
  have hb0 : 0 < b := by omega
  have hb8 : b ≤ 8 := by omega
  have hglen : ∀ g ∈ values.map (natToBEBytes b), g.length = b := by
    intro g hg
    rw [List.mem_map] at hg
    obtain ⟨v, _, rfl⟩ := hg
    exact natToBEBytes_length b _
  have hplen : ((values.map (natToBEBytes b)).flatten).length = values.length * b := by
    rw [flatten_length_const b _ hglen, List.length_map]
  have hsize :
      ¬ getDataByteLength ("u" ++ toString b)
          (((values.map (fun v => NodeInput.int (Int.ofNat v))).length : Nat) : Int) >
        ((MAX_BYTE_SIZE : Nat) : Int) := by
    unfold getDataByteLength
    rw [List.length_map, bytePerValue_u b hb]
    have hc : ((values.length : Nat) : Int) * ((b : Nat) : Int) =
        ((values.length * b : Nat) : Int) := by
      push_cast
      ring
    rw [hc]
    unfold MAX_BYTE_SIZE
    omega
  have hcheck : uintCheckRep b values [] = true := by
    unfold uintCheckRep flatVarsCheckRep
    simp only [List.all_nil, List.map_nil, Bool.and_true, Bool.true_and, List.all_eq_true,
      Bool.and_eq_true, decide_eq_true_eq]
    exact ⟨⟨by rcases hb with rfl | rfl | rfl | rfl <;> simp, hrange⟩, rfl⟩
  have hcell : ∀ a ∈ values, uintInputCell (NodeInput.int (Int.ofNat a)) = .val a := by
    intro a ha
    show InputCell.val (goUint64OfInt (Int.ofNat a)) = InputCell.val a
    have hle : goUint64OfInt (Int.ofNat a) = a := by
      unfold goUint64OfInt
      have hco : Int.ofNat a = (a : Int) := rfl
      rw [hco]
      have ha2 : a < 2 ^ (b * 8) := hrange a ha
      have hb64 : (2 : Nat) ^ (b * 8) ≤ 2 ^ 64 := Nat.pow_le_pow_right (by omega) (by omega)
      omega
    rw [hle]
  have hNew : NewUintNode b (values.map (fun v => NodeInput.int (Int.ofNat v))) =
      some (.uint b values []) := by
    unfold NewUintNode
    rw [if_neg hsize,
      buildInputs_all_vals uintInputCell 0 (fun v => NodeInput.int (Int.ofNat v)) values
        hcell 0 [] []]
    show (if uintCheckRep b ([] ++ values) [] then some (ItemNode.uint b ([] ++ values) []) else none) = _
    rw [List.nil_append, if_pos hcheck]
  have hmap : values.map ((fun g => NodeInput.int (beBytesToNat g)) ∘ natToBEBytes b) =
      values.map (fun v => NodeInput.int (Int.ofNat v)) := by
    apply List.map_congr_left
    intro v hv
    simp only [Function.comp_apply]
    rw [beBytes_uint_inv b hb8 v (hrange v hv)]
    rfl
  unfold parseUintGo
  rw [if_neg (by simp [Nat.mul_mod_left]), if_neg (by rw [List.length_append, hplen]; omega),
    List.take_left' hplen, List.drop_left' hplen,
    chunkBytes_flatten b hb0 _ hglen, List.map_map, hmap]
  simp only [hNew]

/-- parser.parseFloat inverts the FloatNode payload encoding on finite bit
patterns of the node's width. -/
theorem parseFloatGo_encode (b : Nat) (values : List Nat) (extra : List Nat)
    (hb : b = 4 ∨ b = 8)
    (hrange : ∀ v ∈ values, v < 2 ^ (b * 8) ∧ finiteFloatBits b v = true)
    (hlen : values.length * b ≤ 255) :
    parseFloatGo b (values.length * b)
      ((values.map (natToBEBytes b)).flatten ++ extra) =
      some (.float b values [], extra) := by
  have hb0 : 0 < b := by omega
  have hb8 : b ≤ 8 := by omega
  have hglen : ∀ g ∈ values.map (natToBEBytes b), g.length = b := by
    intro g hg
    rw [List.mem_map] at hg
    obtain ⟨v, _, rfl⟩ := hg
    exact natToBEBytes_length b _
  have hplen : ((values.map (natToBEBytes b)).flatten).length = values.length * b := by
    rw [flatten_length_const b _ hglen, List.length_map]
  have hsize :
      ¬ getDataByteLength ("f" ++ toString b)
          (((values.map NodeInput.float).length : Nat) : Int) >
        ((MAX_BYTE_SIZE : Nat) : Int) := by
    unfold getDataByteLength
    rw [List.length_map, bytePerValue_f b hb]
    have hc : ((values.length : Nat) : Int) * ((b : Nat) : Int) =
        ((values.length * b : Nat) : Int) := by
      push_cast
      ring
    rw [hc]
    unfold MAX_BYTE_SIZE
    omega
  have hcheck : floatCheckRep b values [] = true := by
    unfold floatCheckRep flatVarsCheckRep
    simp only [List.all_nil, List.map_nil, Bool.and_true, Bool.true_and, List.all_eq_true,
      Bool.and_eq_true, decide_eq_true_eq]
    refine ⟨⟨by rcases hb with rfl | rfl <;> simp, ?_⟩, rfl⟩
    intro v hv
    exact ⟨(hrange v hv).1, (hrange v hv).2⟩
  have hNew : NewFloatNode b (values.map NodeInput.float) = some (.float b values []) := by
    unfold NewFloatNode
    rw [if_neg hsize,
      buildInputs_all_vals floatInputCell 0 NodeInput.float values (fun a ha => rfl) 0 [] []]
    show (if floatCheckRep b ([] ++ values) [] then some (ItemNode.float b ([] ++ values) []) else none)
      = _
    rw [List.nil_append, if_pos hcheck]
  have hmap : values.map ((fun g => NodeInput.float (beBytesToNat g)) ∘ natToBEBytes b) =
      values.map NodeInput.float := by
    apply List.map_congr_left
    intro v hv
    simp only [Function.comp_apply]
    rw [beBytes_uint_inv b hb8 v (hrange v hv).1]
  unfold parseFloatGo
  rw [if_neg (by simp [Nat.mul_mod_left]), if_neg (by rw [List.length_append, hplen]; omega),
    List.take_left' hplen, List.drop_left' hplen,
    chunkBytes_flatten b hb0 _ hglen, List.map_map, hmap]
  simp only [hNew]

theorem parseItem_disp_list (fuel L : Nat) (tail : List Nat) (hL : L ≤ 255) :
    parseItem (fuel + 1) ((0o00 * 4 + 1) :: L :: tail) =
      (match parseChildrenAux (parseItem fuel) L tail with
       | none => none
       | some (children, rest2) =>
           match NewListNode (children.map NodeInput.item) with
           | none => none
           | some item => some (item, rest2)) := by
  rw [parseItem_one_length fuel 0o00 L tail hL]
  rfl

theorem parseItem_disp_ascii (fuel L : Nat) (tail : List Nat) (hL : L ≤ 255) :
    parseItem (fuel + 1) ((0o20 * 4 + 1) :: L :: tail) =
      (if tail.length < L then none
       else
         match NewASCIINode (stringOfBytes (tail.take L)) with
         | none => none
         | some item => some (item, tail.drop L)) := by
  rw [parseItem_one_length fuel 0o20 L tail hL]
  rfl

theorem parseItem_disp_binary (fuel L : Nat) (tail : List Nat) (hL : L ≤ 255) :
    parseItem (fuel + 1) ((0o10 * 4 + 1) :: L :: tail) =
      (if tail.length < L then none
       else
         match NewBinaryNode ((tail.take L).map NodeInput.byte) with
         | none => none
         | some item => some (item, tail.drop L)) := by
  rw [parseItem_one_length fuel 0o10 L tail hL]
  rfl

theorem parseItem_disp_boolean (fuel L : Nat) (tail : List Nat) (hL : L ≤ 255) :
    parseItem (fuel + 1) ((0o11 * 4 + 1) :: L :: tail) =
      (if tail.length < L then none
       else
         match NewBooleanNode ((tail.take L).map (fun v => NodeInput.bool (v ≠ 0))) with
         | none => none
         | some item => some (item, tail.drop L)) := by
  rw [parseItem_one_length fuel 0o11 L tail hL]
  rfl

theorem parseItem_disp_f4 (fuel L : Nat) (tail : List Nat) (hL : L ≤ 255) :
    parseItem (fuel + 1) ((0o44 * 4 + 1) :: L :: tail) = parseFloatGo 4 L tail := by
  rw [parseItem_one_length fuel 0o44 L tail hL]
  rfl

theorem parseItem_disp_f8 (fuel L : Nat) (tail : List Nat) (hL : L ≤ 255) :
    parseItem (fuel + 1) ((0o40 * 4 + 1) :: L :: tail) = parseFloatGo 8 L tail := by
  rw [parseItem_one_length fuel 0o40 L tail hL]
  rfl

theorem parseItem_disp_i1 (fuel L : Nat) (tail : List Nat) (hL : L ≤ 255) :
    parseItem (fuel + 1) ((0o31 * 4 + 1) :: L :: tail) = parseIntGo 1 L tail := by
  rw [parseItem_one_length fuel 0o31 L tail hL]
  rfl

theorem parseItem_disp_i2 (fuel L : Nat) (tail : List Nat) (hL : L ≤ 255) :
    parseItem (fuel + 1) ((0o32 * 4 + 1) :: L :: tail) = parseIntGo 2 L tail := by
  rw [parseItem_one_length fuel 0o32 L tail hL]
  rfl

theorem parseItem_disp_i4 (fuel L : Nat) (tail : List Nat) (hL : L ≤ 255) :
    parseItem (fuel + 1) ((0o34 * 4 + 1) :: L :: tail) = parseIntGo 4 L tail := by
  rw [parseItem_one_length fuel 0o34 L tail hL]
  rfl

theorem parseItem_disp_i8 (fuel L : Nat) (tail : List Nat) (hL : L ≤ 255) :
    parseItem (fuel + 1) ((0o30 * 4 + 1) :: L :: tail) = parseIntGo 8 L tail := by
  rw [parseItem_one_length fuel 0o30 L tail hL]
  rfl

theorem parseItem_disp_u1 (fuel L : Nat) (tail : List Nat) (hL : L ≤ 255) :
    parseItem (fuel + 1) ((0o51 * 4 + 1) :: L :: tail) = parseUintGo 1 L tail := by
  rw [parseItem_one_length fuel 0o51 L tail hL]
  rfl

theorem parseItem_disp_u2 (fuel L : Nat) (tail : List Nat) (hL : L ≤ 255) :
    parseItem (fuel + 1) ((0o52 * 4 + 1) :: L :: tail) = parseUintGo 2 L tail := by
  rw [parseItem_one_length fuel 0o52 L tail hL]
  rfl

theorem parseItem_disp_u4 (fuel L : Nat) (tail : List Nat) (hL : L ≤ 255) :
    parseItem (fuel + 1) ((0o54 * 4 + 1) :: L :: tail) = parseUintGo 4 L tail := by
  rw [parseItem_one_length fuel 0o54 L tail hL]
  rfl

theorem parseItem_disp_u8 (fuel L : Nat) (tail : List Nat) (hL : L ≤ 255) :
    parseItem (fuel + 1) ((0o50 * 4 + 1) :: L :: tail) = parseUintGo 8 L tail := by
  rw [parseItem_one_length fuel 0o50 L tail hL]
  rfl

/-- Full decoder inversion for an encoded variable-free IntNode. -/
theorem parse_encode_int (f b : Nat) (values : List Int)
    (hb : b = 1 ∨ b = 2 ∨ b = 4 ∨ b = 8)
    (hrange : ∀ v ∈ values, -(2 ^ (b * 8 - 1) : Int) ≤ v ∧ v ≤ (2 ^ (b * 8 - 1) : Int) - 1)
    (hlen : values.length * b ≤ 255) :
    (itemToBytes (.int b values [])).length = 2 + values.length * b ∧
    ∀ extra : List Nat,
      parseItem (f + 1) (itemToBytes (.int b values []) ++ extra) =
        some (.int b values [], extra) := by
  have hbv : bytePerValue ("i" ++ toString b) = b := bytePerValue_i b hb
  have hdr : getHeaderBytes ("i" ++ toString b) ((values.length : Nat) : Int) =
      some [formatCodeOf ("i" ++ toString b) * 4 + 1, values.length * b] := by
    have h2 := getHeaderBytes_small ("i" ++ toString b) values.length (by rw [hbv]; exact hlen)
    rw [hbv] at h2
    exact h2
  have henc : itemToBytes (.int b values []) =
      (formatCodeOf ("i" ++ toString b) * 4 + 1) :: (values.length * b) ::
        ((values.map (fun v => natToBEBytes b (goUint64OfInt v))).flatten) := by
    rw [itemToBytes_int, if_neg (by simp), hdr]
    rfl
  have hplen : ((values.map (fun v => natToBEBytes b (goUint64OfInt v))).flatten).length
      = values.length * b := by
    rw [flatten_length_const b _ (by
      intro g hg
      rw [List.mem_map] at hg
      obtain ⟨v, _, rfl⟩ := hg
      exact natToBEBytes_length b _), List.length_map]
  refine ⟨by rw [henc]; simp [List.length_cons, hplen]; omega, fun extra => ?_⟩
  rw [henc, List.cons_append, List.cons_append]
  rcases hb with rfl | rfl | rfl | rfl
  · rw [show formatCodeOf ("i" ++ toString (1 : Nat)) = 0o31 from rfl,
      parseItem_disp_i1 f _ _ (by omega)]
    exact parseIntGo_encode 1 values extra (Or.inl rfl) hrange hlen
  · rw [show formatCodeOf ("i" ++ toString (2 : Nat)) = 0o32 from rfl,
      parseItem_disp_i2 f _ _ (by omega)]
    exact parseIntGo_encode 2 values extra (Or.inr (Or.inl rfl)) hrange hlen
  · rw [show formatCodeOf ("i" ++ toString (4 : Nat)) = 0o34 from rfl,
      parseItem_disp_i4 f _ _ (by omega)]
    exact parseIntGo_encode 4 values extra (Or.inr (Or.inr (Or.inl rfl))) hrange hlen
  · rw [show formatCodeOf ("i" ++ toString (8 : Nat)) = 0o30 from rfl,
      parseItem_disp_i8 f _ _ (by omega)]
    exact parseIntGo_encode 8 values extra (Or.inr (Or.inr (Or.inr rfl))) hrange hlen

/-- Full decoder inversion for an encoded variable-free UintNode. -/
theorem parse_encode_uint (f b : Nat) (values : List Nat)
    (hb : b = 1 ∨ b = 2 ∨ b = 4 ∨ b = 8)
    (hrange : ∀ v ∈ values, v < 2 ^ (b * 8))
    (hlen : values.length * b ≤ 255) :
    (itemToBytes (.uint b values [])).length = 2 + values.length * b ∧
    ∀ extra : List Nat,
      parseItem (f + 1) (itemToBytes (.uint b values []) ++ extra) =
        some (.uint b values [], extra) := by
  have hbv : bytePerValue ("u" ++ toString b) = b := bytePerValue_u b hb
  have hdr : getHeaderBytes ("u" ++ toString b) ((values.length : Nat) : Int) =
      some [formatCodeOf ("u" ++ toString b) * 4 + 1, values.length * b] := by
    have h2 := getHeaderBytes_small ("u" ++ toString b) values.length (by rw [hbv]; exact hlen)
    rw [hbv] at h2
    exact h2
  have henc : itemToBytes (.uint b values []) =
      (formatCodeOf ("u" ++ toString b) * 4 + 1) :: (values.length * b) ::
        ((values.map (natToBEBytes b)).flatten) := by
    rw [itemToBytes_uint, if_neg (by simp), hdr]
    rfl
  have hplen : ((values.map (natToBEBytes b)).flatten).length = values.length * b := by
    rw [flatten_length_const b _ (by
      intro g hg
      rw [List.mem_map] at hg
      obtain ⟨v, _, rfl⟩ := hg
      exact natToBEBytes_length b _), List.length_map]
  refine ⟨by rw [henc]; simp [List.length_cons, hplen]; omega, fun extra => ?_⟩
  rw [henc, List.cons_append, List.cons_append]
  rcases hb with rfl | rfl | rfl | rfl
  · rw [show formatCodeOf ("u" ++ toString (1 : Nat)) = 0o51 from rfl,
      parseItem_disp_u1 f _ _ (by omega)]
    exact parseUintGo_encode 1 values extra (Or.inl rfl) hrange hlen
  · rw [show formatCodeOf ("u" ++ toString (2 : Nat)) = 0o52 from rfl,
      parseItem_disp_u2 f _ _ (by omega)]
    exact parseUintGo_encode 2 values extra (Or.inr (Or.inl rfl)) hrange hlen
  · rw [show formatCodeOf ("u" ++ toString (4 : Nat)) = 0o54 from rfl,
      parseItem_disp_u4 f _ _ (by omega)]
    exact parseUintGo_encode 4 values extra (Or.inr (Or.inr (Or.inl rfl))) hrange hlen
  · rw [show formatCodeOf ("u" ++ toString (8 : Nat)) = 0o50 from rfl,
      parseItem_disp_u8 f _ _ (by omega)]
    exact parseUintGo_encode 8 values extra (Or.inr (Or.inr (Or.inr rfl))) hrange hlen

/-- Full decoder inversion for an encoded variable-free FloatNode. -/
theorem parse_encode_float (f b : Nat) (values : List Nat)
    (hb : b = 4 ∨ b = 8)
    (hrange : ∀ v ∈ values, v < 2 ^ (b * 8) ∧ finiteFloatBits b v = true)
    (hlen : values.length * b ≤ 255) :
    (itemToBytes (.float b values [])).length = 2 + values.length * b ∧
    ∀ extra : List Nat,
      parseItem (f + 1) (itemToBytes (.float b values []) ++ extra) =
        some (.float b values [], extra) := by
  have hbv : bytePerValue ("f" ++ toString b) = b := bytePerValue_f b hb
  have hdr : getHeaderBytes ("f" ++ toString b) ((values.length : Nat) : Int) =
      some [formatCodeOf ("f" ++ toString b) * 4 + 1, values.length * b] := by
    have h2 := getHeaderBytes_small ("f" ++ toString b) values.length (by rw [hbv]; exact hlen)
    rw [hbv] at h2
    exact h2
  have henc : itemToBytes (.float b values []) =
      (formatCodeOf ("f" ++ toString b) * 4 + 1) :: (values.length * b) ::
        ((values.map (natToBEBytes b)).flatten) := by
    rw [itemToBytes_float, if_neg (by simp), hdr]
    rfl
  have hplen : ((values.map (natToBEBytes b)).flatten).length = values.length * b := by
    rw [flatten_length_const b _ (by
      intro g hg
      rw [List.mem_map] at hg
      obtain ⟨v, _, rfl⟩ := hg
      exact natToBEBytes_length b _), List.length_map]
  refine ⟨by rw [henc]; simp [List.length_cons, hplen]; omega, fun extra => ?_⟩
  rw [henc, List.cons_append, List.cons_append]
  rcases hb with rfl | rfl
  · rw [show formatCodeOf ("f" ++ toString (4 : Nat)) = 0o44 from rfl,
      parseItem_disp_f4 f _ _ (by omega)]
    exact parseFloatGo_encode 4 values extra (Or.inl rfl) hrange hlen
  · rw [show formatCodeOf ("f" ++ toString (8 : Nat)) = 0o40 from rfl,
      parseItem_disp_f8 f _ _ (by omega)]
    exact parseFloatGo_encode 8 values extra (Or.inr rfl) hrange hlen

/-- Full decoder inversion for an encoded variable-free BooleanNode. -/
theorem parse_encode_boolean (f : Nat) (values : List Bool)
    (hlen : values.length ≤ 255) :
    (itemToBytes (.boolean values [])).length = 2 + values.length ∧
    ∀ extra : List Nat,
      parseItem (f + 1) (itemToBytes (.boolean values []) ++ extra) =
        some (.boolean values [], extra) := by
  have hdr : getHeaderBytes "boolean" ((values.length : Nat) : Int) =
      some [0o11 * 4 + 1, values.length] := by
    have h2 := getHeaderBytes_small "boolean" values.length
      (by rw [show bytePerValue "boolean" = 1 from rfl]; omega)
    rw [show bytePerValue "boolean" = 1 from rfl, Nat.mul_one,
      show formatCodeOf "boolean" = 0o11 from rfl] at h2
    exact h2
  have hplen : (values.map boolByte).length = values.length := by rw [List.length_map]
  have henc : itemToBytes (.boolean values []) =
      (0o11 * 4 + 1) :: values.length :: values.map boolByte := by
    rw [itemToBytes_boolean, if_neg (by simp), hdr]
    rfl
  refine ⟨by rw [henc]; simp [List.length_cons, hplen]; omega, fun extra => ?_⟩
  rw [henc, List.cons_append, List.cons_append, parseItem_disp_boolean f _ _ (by omega),
    if_neg (by rw [List.length_append, hplen]; omega),
    List.take_left' hplen, List.drop_left' hplen, List.map_map]
  have hmap : values.map ((fun v => NodeInput.bool (v ≠ 0)) ∘ boolByte) =
      values.map NodeInput.bool := by
    apply List.map_congr_left
    intro bv hbv
    cases bv <;> rfl
  rw [hmap]
  have hsize :
      ¬ getDataByteLength "binary" (((values.map NodeInput.bool).length : Nat) : Int) >
        ((MAX_BYTE_SIZE : Nat) : Int) := by
    unfold getDataByteLength
    rw [List.length_map, show bytePerValue "binary" = 1 from rfl]
    unfold MAX_BYTE_SIZE
    omega
  have hcheck : booleanCheckRep values [] = true := by
    unfold booleanCheckRep flatVarsCheckRep
    simp [listNodup]
  have hNew : NewBooleanNode (values.map NodeInput.bool) = some (.boolean values []) := by
    unfold NewBooleanNode
    rw [if_neg hsize,
      buildInputs_all_vals boolInputCell false NodeInput.bool values (fun a ha => rfl) 0 [] []]
    show (if booleanCheckRep ([] ++ values) [] then some (ItemNode.boolean ([] ++ values) [])
      else none) = _
    rw [List.nil_append, if_pos hcheck]
  simp only [hNew]

/-- Full decoder inversion for an encoded literal ASCIINode whose
characters are 7-bit. -/
theorem parse_encode_ascii (f : Nat) (value : String)
    (hchars : ∀ c ∈ value.data, c.toNat ≤ 127)
    (hlen : value.length ≤ 255) :
    (itemToBytes (.ascii value "" 0 0 true)).length = 2 + value.length ∧
    ∀ extra : List Nat,
      parseItem (f + 1) (itemToBytes (.ascii value "" 0 0 true) ++ extra) =
        some (.ascii value "" 0 0 true, extra) := by
  have hdr : getHeaderBytes "ascii" ((value.length : Nat) : Int) =
      some [0o20 * 4 + 1, value.length] := by
    have h2 := getHeaderBytes_small "ascii" value.length
      (by rw [show bytePerValue "ascii" = 1 from rfl]; omega)
    rw [show bytePerValue "ascii" = 1 from rfl, Nat.mul_one,
      show formatCodeOf "ascii" = 0o20 from rfl] at h2
    exact h2
  have hplen : (value.data.map (fun c => c.toNat % 256)).length = value.length := by
    rw [List.length_map]
    rfl
  have henc : itemToBytes (.ascii value "" 0 0 true) =
      (0o20 * 4 + 1) :: value.length :: value.data.map (fun c => c.toNat % 256) := by
    rw [itemToBytes_ascii, if_neg (by simp), hdr]
    rfl
  have hstr : stringOfBytes (value.data.map (fun c => c.toNat % 256)) = value := by
    unfold stringOfBytes
    rw [List.map_map]
    have hid : value.data.map (Char.ofNat ∘ (fun c => c.toNat % 256)) =
        value.data.map id := by
      apply List.map_congr_left
      intro c hc
      simp only [Function.comp_apply, id]
      rw [Nat.mod_eq_of_lt (by have := hchars c hc; omega)]
      exact Char.ofNat_toNat c
    rw [hid, List.map_id]
  have hNew : NewASCIINode value = some (.ascii value "" 0 0 true) := by
    unfold NewASCIINode
    rw [if_neg ?hsz, if_pos ?hcr]
    case hsz =>
      unfold getDataByteLength
      rw [show bytePerValue "ascii" = 1 from rfl]
      unfold MAX_BYTE_SIZE
      omega
    case hcr =>
      unfold asciiCheckRep
      simp [List.all_eq_true]
      exact fun c hc => hchars c hc
  refine ⟨by rw [henc]; simp [List.length_cons, hplen]; omega, fun extra => ?_⟩
  rw [henc, List.cons_append, List.cons_append, parseItem_disp_ascii f _ _ (by omega),
    if_neg (by rw [List.length_append, hplen]; omega),
    List.take_left' hplen, List.drop_left' hplen, hstr]
  simp only [hNew]

/-- Full decoder inversion for an encoded empty BinaryNode (the only
Binary shape the decoder accepts back). -/
theorem parse_encode_binary_nil (f : Nat) :
    (itemToBytes (.binary [] [])).length = 2 ∧
    ∀ extra : List Nat,
      parseItem (f + 1) (itemToBytes (.binary [] []) ++ extra) =
        some (.binary [] [], extra) := by
  have henc : itemToBytes (ItemNode.binary [] []) = (0o10 * 4 + 1) :: (0 : Nat) :: [] := by
    decide
  have hNew : NewBinaryNode [] = some (.binary [] []) := rfl
  refine ⟨by rw [henc]; rfl, fun extra => ?_⟩
  rw [henc, List.cons_append, List.cons_append, List.nil_append,
    parseItem_disp_binary f 0 extra (by omega), if_neg (Nat.not_lt_zero _),
    List.take_zero, List.map_nil]
  simp only [hNew, List.drop_zero]

/-- A slot list with no variable table and an empty traversal consists of
non-empty children that themselves report no variables. -/
theorem slotVars_nil : ∀ (values : List ItemNode) (i : Nat),
    listSlotVariables values [] i = [] →
    ∀ c ∈ values, itemVariables c = [] ∧ isEmptyItem c = false := by
  intro values
  induction values with
  | nil => intro i _ c hc; simp at hc
  | cons c0 rest ih =>
      intro i h c hc
      rw [listSlotVariables_cons, List.append_eq_nil] at h
      obtain ⟨hhead, htail⟩ := h
      rcases List.mem_cons.mp hc with rfl | hmem
      · by_cases hec : isEmptyItem c = true
        · rw [if_pos hec] at hhead
          simp at hhead
        · rw [if_neg hec] at hhead
          rw [Bool.not_eq_true] at hec
          exact ⟨hhead, hec⟩
      · exact ih (i + 1) htail c hmem

theorem roundTrippable_list_eq (values : List ItemNode) (vars : VarMap) :
    roundTrippable (.list values vars) =
      (decide (values.length ≤ 255) && roundTrippableChildren values) := rfl

theorem roundTrippableChildren_cons (c : ItemNode) (rest : List ItemNode) :
    roundTrippableChildren (c :: rest) =
      (roundTrippable c && roundTrippableChildren rest) := rfl

theorem itemDepth_list_eq (values : List ItemNode) (vars : VarMap) :
    itemDepth (.list values vars) = 1 + itemDepthChildren values := rfl

theorem itemDepthChildren_cons (c : ItemNode) (rest : List ItemNode) :
    itemDepthChildren (c :: rest) = Nat.max (itemDepth c) (itemDepthChildren rest) := rfl

mutual

/-- Decoder inversion on the round-trippable class: a well-formed,
variable-free, non-empty, round-trippable item encodes to at least two
bytes, its nesting depth is at most its byte count, and with fuel at least
its depth the one-item decoder parses the encoding back to the identical
item, leaving exactly the appended suffix. -/
theorem parseItem_inverts :
    ∀ (item : ItemNode) (fuel : Nat),
      itemWf item = true → roundTrippable item = true →
      itemVariables item = [] → isEmptyItem item = false →
      itemDepth item ≤ fuel →
      2 ≤ (itemToBytes item).length ∧
      itemDepth item ≤ (itemToBytes item).length ∧
      ∀ extra : List Nat, parseItem fuel (itemToBytes item ++ extra) = some (item, extra)
  | .empty, fuel, _, _, _, hemp, _ => by cases hemp
  | .list values vars, fuel, hwf, hrt, hvars, _, hfuel => by
      have hv : vars = [] := by
        rcases hvv : vars with _ | ⟨e, vrest⟩
        · rfl
        · exfalso
          subst hvv
          have hmem := (listWf_direct values (e :: vrest) hwf e (List.mem_cons_self _ _)).2.2
          have hiv : itemVariables (ItemNode.list values (e :: vrest)) =
              listSlotVariables values (e :: vrest) 0 := rfl
          rw [hiv] at hvars
          rw [hvars] at hmem
          simp at hmem
      subst hv
      have hslots : listSlotVariables values [] 0 = [] := hvars
      have hinfo : ∀ c ∈ values, itemVariables c = [] ∧ isEmptyItem c = false :=
        slotVars_nil values 0 hslots
      have hwf2 := hwf
      rw [itemWf_list_eq, Bool.and_eq_true, Bool.and_eq_true, Bool.and_eq_true,
        Bool.and_eq_true] at hwf2
      obtain ⟨⟨⟨⟨_, _⟩, _⟩, _⟩, hcwf⟩ := hwf2
      have hrtl := hrt
      rw [roundTrippable_list_eq, Bool.and_eq_true] at hrtl
      obtain ⟨hlen255b, hrtc⟩ := hrtl
      have hlen255 : values.length ≤ 255 := of_decide_eq_true hlen255b
      have hdep := hfuel
      rw [itemDepth_list_eq] at hdep
      obtain ⟨f, rfl⟩ : ∃ f, fuel = f + 1 := ⟨fuel - 1, by omega⟩
      obtain ⟨body, hbody, hbd, hpc⟩ :=
        parseChildren_inverts values f hcwf hrtc hinfo (by omega)
      have hdr : getHeaderBytes "list" ((values.length : Nat) : Int) =
          some [0o00 * 4 + 1, values.length] := by
        have h2 := getHeaderBytes_small "list" values.length
          (by rw [show bytePerValue "list" = 1 from rfl]; omega)
        rw [show bytePerValue "list" = 1 from rfl, Nat.mul_one,
          show formatCodeOf "list" = 0o00 from rfl] at h2
        exact h2
      have henc : itemToBytes (.list values []) =
          (0o00 * 4 + 1) :: values.length :: body := by
        rw [itemToBytes_list, if_neg (by simp), hdr, hbody]
        rfl
      have hcheckrep : listCheckRep values [] = true := by
        unfold listCheckRep
        rw [show itemVariables (ItemNode.list values []) = listSlotVariables values [] 0
          from rfl, hslots]
        rfl
      have hNewL : NewListNode (values.map NodeInput.item) = some (.list values []) := by
        unfold NewListNode
        rw [if_neg ?hsz, buildInputs_all_vals listInputCell ItemNode.empty NodeInput.item
          values (fun a ha => rfl) 0 [] []]
        case hsz =>
          rw [getDataByteLength_list, List.length_map]
          have hc : ¬ ((values.length : Nat) : Int) > ((MAX_BYTE_SIZE : Nat) : Int) := by
            unfold MAX_BYTE_SIZE
            omega
          exact hc
        show (if listCheckRep ([] ++ values) [] then some (ItemNode.list ([] ++ values) [])
          else none) = _
        rw [List.nil_append, if_pos hcheckrep]
      refine ⟨by rw [henc]; simp, ?_, ?_⟩
      · rw [henc, itemDepth_list_eq]
        simp only [List.length_cons]
        omega
      · intro extra
        rw [henc, List.cons_append, List.cons_append,
          parseItem_disp_list f _ _ (by omega), hpc extra]
        simp only [hNewL]
  | .binary values vars, fuel, hwf, hrt, hvars, _, hfuel => by
      have hv : vars = [] := getVariableNames_eq_nil vars hvars
      subst hv
      have hnil : values = [] := by
        have := hrt
        rw [show roundTrippable (.binary values []) = decide (values = []) from rfl] at this
        exact of_decide_eq_true this
      subst hnil
      obtain ⟨f, rfl⟩ : ∃ f, fuel = f + 1 :=
        ⟨fuel - 1, by have h1 := le_trans (itemDepth_pos _) hfuel; omega⟩
      obtain ⟨hl2, hparse⟩ := parse_encode_binary_nil f
      exact ⟨by omega, by rw [show itemDepth (ItemNode.binary [] []) = 1 from rfl]; omega,
        hparse⟩
  | .boolean values vars, fuel, hwf, hrt, hvars, _, hfuel => by
      have hv : vars = [] := getVariableNames_eq_nil vars hvars
      subst hv
      have hlen : values.length ≤ 255 := by
        have := hrt
        rw [show roundTrippable (.boolean values []) = decide (values.length ≤ 255)
          from rfl] at this
        exact of_decide_eq_true this
      obtain ⟨f, rfl⟩ : ∃ f, fuel = f + 1 :=
        ⟨fuel - 1, by have h1 := le_trans (itemDepth_pos _) hfuel; omega⟩
      obtain ⟨hl2, hparse⟩ := parse_encode_boolean f values hlen
      exact ⟨by omega, by rw [show itemDepth (ItemNode.boolean values []) = 1 from rfl]; omega,
        hparse⟩
  | .ascii value varName minL maxL isValue, fuel, hwf, hrt, hvars, _, hfuel => by
      have hval : isValue = true := by
        cases isValue
        · exfalso
          have : itemVariables (ItemNode.ascii value varName minL maxL false) =
              [varName] := rfl
          rw [this] at hvars
          simp at hvars
        · rfl
      subst hval
      have hwf2 := hwf
      rw [itemWf_ascii_eq, if_pos rfl, Bool.and_eq_true, Bool.and_eq_true, Bool.and_eq_true,
        Bool.and_eq_true] at hwf2
      obtain ⟨⟨⟨⟨_, hcharsb⟩, hvn⟩, hmin⟩, hmax⟩ := hwf2
      have hvn2 : varName = "" := of_decide_eq_true hvn
      have hmin2 : minL = 0 := of_decide_eq_true hmin
      have hmax2 : maxL = 0 := of_decide_eq_true hmax
      subst hvn2
      subst hmin2
      subst hmax2
      have hchars : ∀ c ∈ value.data, c.toNat ≤ 127 := by
        rw [List.all_eq_true] at hcharsb
        intro c hc
        exact of_decide_eq_true (hcharsb c hc)
      have hlen : value.length ≤ 255 := by
        have := hrt
        rw [show roundTrippable (.ascii value "" 0 0 true) = decide (value.length ≤ 255)
          from rfl] at this
        exact of_decide_eq_true this
      obtain ⟨f, rfl⟩ : ∃ f, fuel = f + 1 :=
        ⟨fuel - 1, by have h1 := le_trans (itemDepth_pos _) hfuel; omega⟩
      obtain ⟨hl2, hparse⟩ := parse_encode_ascii f value hchars hlen
      exact ⟨by omega,
        by rw [show itemDepth (ItemNode.ascii value "" 0 0 true) = 1 from rfl]; omega, hparse⟩
  | .int b values vars, fuel, hwf, hrt, hvars, _, hfuel => by
      have hv : vars = [] := getVariableNames_eq_nil vars hvars
      subst hv
      have hwf2 := hwf
      rw [itemWf_int_eq, Bool.and_eq_true, Bool.and_eq_true, Bool.and_eq_true] at hwf2
      obtain ⟨⟨⟨hb, _⟩, hrangeb⟩, _⟩ := hwf2
      have hbor : b = 1 ∨ b = 2 ∨ b = 4 ∨ b = 8 := by
        simp only [Bool.or_eq_true, decide_eq_true_eq] at hb
        tauto
      have hrange : ∀ v ∈ values,
          -(2 ^ (b * 8 - 1) : Int) ≤ v ∧ v ≤ (2 ^ (b * 8 - 1) : Int) - 1 := by
        rw [List.all_eq_true] at hrangeb
        intro v hv2
        have := hrangeb v hv2
        simp only [Bool.and_eq_true, decide_eq_true_eq] at this
        exact this
      have hlen : values.length * b ≤ 255 := by
        have := hrt
        rw [show roundTrippable (.int b values []) = decide (values.length * b ≤ 255)
          from rfl] at this
        exact of_decide_eq_true this
      obtain ⟨f, rfl⟩ : ∃ f, fuel = f + 1 :=
        ⟨fuel - 1, by have h1 := le_trans (itemDepth_pos _) hfuel; omega⟩
      obtain ⟨hl2, hparse⟩ := parse_encode_int f b values hbor hrange hlen
      exact ⟨by omega, by rw [show itemDepth (ItemNode.int b values []) = 1 from rfl]; omega,
        hparse⟩
  | .uint b values vars, fuel, hwf, hrt, hvars, _, hfuel => by
      have hv : vars = [] := getVariableNames_eq_nil vars hvars
      subst hv
      have hwf2 := hwf
      rw [itemWf_uint_eq, Bool.and_eq_true, Bool.and_eq_true, Bool.and_eq_true] at hwf2
      obtain ⟨⟨⟨hb, _⟩, hrangeb⟩, _⟩ := hwf2
      have hbor : b = 1 ∨ b = 2 ∨ b = 4 ∨ b = 8 := by
        simp only [Bool.or_eq_true, decide_eq_true_eq] at hb
        tauto
      have hrange : ∀ v ∈ values, v < 2 ^ (b * 8) := by
        rw [List.all_eq_true] at hrangeb
        intro v hv2
        exact of_decide_eq_true (hrangeb v hv2)
      have hlen : values.length * b ≤ 255 := by
        have := hrt
        rw [show roundTrippable (.uint b values []) = decide (values.length * b ≤ 255)
          from rfl] at this
        exact of_decide_eq_true this
      obtain ⟨f, rfl⟩ : ∃ f, fuel = f + 1 :=
        ⟨fuel - 1, by have h1 := le_trans (itemDepth_pos _) hfuel; omega⟩
      obtain ⟨hl2, hparse⟩ := parse_encode_uint f b values hbor hrange hlen
      exact ⟨by omega, by rw [show itemDepth (ItemNode.uint b values []) = 1 from rfl]; omega,
        hparse⟩
  | .float b values vars, fuel, hwf, hrt, hvars, _, hfuel => by
      have hv : vars = [] := getVariableNames_eq_nil vars hvars
      subst hv
      have hwf2 := hwf
      rw [itemWf_float_eq, Bool.and_eq_true, Bool.and_eq_true, Bool.and_eq_true] at hwf2
      obtain ⟨⟨⟨hb, _⟩, hrangeb⟩, _⟩ := hwf2
      have hbor : b = 4 ∨ b = 8 := by
        simp only [Bool.or_eq_true, decide_eq_true_eq] at hb
        tauto
      have hrange : ∀ v ∈ values, v < 2 ^ (b * 8) ∧ finiteFloatBits b v = true := by
        rw [List.all_eq_true] at hrangeb
        intro v hv2
        have := hrangeb v hv2
        simp only [Bool.and_eq_true, decide_eq_true_eq] at this
        exact this
      have hlen : values.length * b ≤ 255 := by
        have := hrt
        rw [show roundTrippable (.float b values []) = decide (values.length * b ≤ 255)
          from rfl] at this
        exact of_decide_eq_true this
      obtain ⟨f, rfl⟩ : ∃ f, fuel = f + 1 :=
        ⟨fuel - 1, by have h1 := le_trans (itemDepth_pos _) hfuel; omega⟩
      obtain ⟨hl2, hparse⟩ := parse_encode_float f b values hbor hrange hlen
      exact ⟨by omega, by rw [show itemDepth (ItemNode.float b values []) = 1 from rfl]; omega,
        hparse⟩

/-- Child-loop inversion: the concatenated encodings of a round-trippable
slot list parse back, child by child, to the same children. -/
theorem parseChildren_inverts :
    ∀ (values : List ItemNode) (fuel : Nat),
      childrenWf values = true → roundTrippableChildren values = true →
      (∀ c ∈ values, itemVariables c = [] ∧ isEmptyItem c = false) →
      itemDepthChildren values ≤ fuel →
      ∃ body, childrenToBytes values = some body ∧
        itemDepthChildren values ≤ body.length ∧
        ∀ extra : List Nat,
          parseChildrenAux (parseItem fuel) values.length (body ++ extra) =
            some (values, extra)
  | [], fuel, _, _, _, _ =>
      ⟨[], rfl, by rw [show itemDepthChildren [] = 0 from rfl]; omega,
        fun extra => by simp [parseChildrenAux]⟩
  | c :: rest, fuel, hwf, hrt, hinfo, hfuel => by
      rw [childrenWf_cons, Bool.and_eq_true] at hwf
      have hrt2 := hrt
      rw [roundTrippableChildren_cons, Bool.and_eq_true] at hrt2
      obtain ⟨hrtc, hrtr⟩ := hrt2
      obtain ⟨hcvars, hcemp⟩ := hinfo c (List.mem_cons_self _ _)
      have hdc : itemDepth c ≤ fuel :=
        le_trans (itemDepthChildren_le c (c :: rest) (List.mem_cons_self _ _)) hfuel
      obtain ⟨hc2, hcd, hcparse⟩ := parseItem_inverts c fuel hwf.1 hrtc hcvars hcemp hdc
      have hdrest : itemDepthChildren rest ≤ fuel := by
        have hmx := hfuel
        rw [itemDepthChildren_cons] at hmx
        exact le_trans (Nat.le_max_right _ _) hmx
      obtain ⟨brest, hbrest, hbd, hbparse⟩ := parseChildren_inverts rest fuel hwf.2 hrtr
        (fun x hx => hinfo x (List.mem_cons_of_mem _ hx)) hdrest
      refine ⟨itemToBytes c ++ brest, ?_, ?_, ?_⟩
      · rw [childrenToBytes_cons,
          if_neg (fun hnil => by rw [hnil] at hc2; simp at hc2), hbrest]
      · rw [List.length_append, itemDepthChildren_cons]
        exact Nat.max_le.mpr ⟨le_trans hcd (Nat.le_add_right _ _),
          le_trans hbd (Nat.le_add_left _ _)⟩
      · intro extra
        rw [List.append_assoc]
        have hstep : parseChildrenAux (parseItem fuel) ((c :: rest).length)
            (itemToBytes c ++ (brest ++ extra)) =
            (match parseItem fuel (itemToBytes c ++ (brest ++ extra)) with
             | none => none
             | some (item, r) =>
                 match parseChildrenAux (parseItem fuel) rest.length r with
                 | none => none
                 | some (items, rest2) => some (item :: items, rest2)) := rfl
        rw [hstep, hcparse (brest ++ extra)]
        show (match parseChildrenAux (parseItem fuel) rest.length (brest ++ extra) with
              | none => none
              | some (items, rest2) => some (c :: items, rest2)) = some (c :: rest, extra)
        rw [hbparse extra]

end

/-- hsms.Parse on an explicit data frame: 4-byte length prefix, 10 header
bytes with PType and SType zero, then the item bytes. -/
theorem Parse_data_explicit (msgItem : ItemNode) (mOut : DataMessage)
    (itemBytes : List Nat) (sb0 sb1 stb fnb s0 s1 s2 s3 : Nat)
    (hlen32 : itemBytes.length + 10 < 2 ^ 32)
    (hparse : parseMessageText (itemBytes.length + 14) (itemBytes.length + 10) itemBytes =
      some msgItem)
    (hNew : NewHSMSDataMessage "" (((stb : Nat) : Int) % 128) ((fnb : Nat) : Int)
        (stb / 128) "H<->E" msgItem (((beBytesToNat [sb0, sb1] : Nat)) : Int)
        [s0, s1, s2, s3] = some mOut) :
    Parse (natToBEBytes 4 (itemBytes.length + 10) ++
      (sb0 :: sb1 :: stb :: fnb :: 0 :: 0 :: s0 :: s1 :: s2 :: s3 :: itemBytes)) =
      some (.data mOut) := by
  have hA : (natToBEBytes 4 (itemBytes.length + 10)).length = 4 := natToBEBytes_length 4 _
  have hTlen :
      (sb0 :: sb1 :: stb :: fnb :: 0 :: 0 :: s0 :: s1 :: s2 :: s3 :: itemBytes).length =
        itemBytes.length + 10 := by
    simp only [List.length_cons]
  have hIL : (natToBEBytes 4 (itemBytes.length + 10) ++
      (sb0 :: sb1 :: stb :: fnb :: 0 :: 0 :: s0 :: s1 :: s2 :: s3 :: itemBytes)).length =
        itemBytes.length + 14 := by
    rw [List.length_append, hA, hTlen]
    omega
  have hdrop : (natToBEBytes 4 (itemBytes.length + 10) ++
      (sb0 :: sb1 :: stb :: fnb :: 0 :: 0 :: s0 :: s1 :: s2 :: s3 :: itemBytes)).drop 14 =
        itemBytes := by
    have h14 : (14 : Nat) = (natToBEBytes 4 (itemBytes.length + 10)).length + 10 := by
      rw [hA]
    rw [h14, List.drop_append]
    rfl
  have hbe : beBytesToNat (natToBEBytes 4 (itemBytes.length + 10)) =
      itemBytes.length + 10 := by
    apply beBytesToNat_natToBEBytes_lt
    have h4 : (256 : Nat) ^ 4 = 2 ^ 32 := by norm_num
    omega
  simp only [Parse]
  rw [hIL, if_neg (by omega), List.take_left' hA, hbe, List.drop_left' hA, hTlen,
    if_neg (by omega),
    show (sb0 :: sb1 :: stb :: fnb :: 0 :: 0 :: s0 :: s1 :: s2 :: s3 :: itemBytes).take 10 =
      [sb0, sb1, stb, fnb, 0, 0, s0, s1, s2, s3] from rfl,
    show List.getD [sb0, sb1, stb, fnb, 0, 0, s0, s1, s2, s3] 4 0 = 0 from rfl,
    if_neg (by omega),
    show List.getD [sb0, sb1, stb, fnb, 0, 0, s0, s1, s2, s3] 5 0 = 0 from rfl,
    if_pos rfl,
    show List.getD [sb0, sb1, stb, fnb, 0, 0, s0, s1, s2, s3] 2 0 = stb from rfl,
    show List.getD [sb0, sb1, stb, fnb, 0, 0, s0, s1, s2, s3] 3 0 = fnb from rfl,
    show List.take 2 [sb0, sb1, stb, fnb, 0, 0, s0, s1, s2, s3] = [sb0, sb1] from rfl,
    show List.take 4 (List.drop 6 [sb0, sb1, stb, fnb, 0, 0, s0, s1, s2, s3]) =
      [s0, s1, s2, s3] from rfl,
    hdrop]
  simp only [hparse, hNew]

/-- NewHSMSDataMessage succeeds when its three guarded panics cannot fire
and the resulting message satisfies checkRep. -/
theorem NewHSMSDataMessage_some (name : String) (stream function : Int) (waitBit : Nat)
    (direction : String) (dataItem : ItemNode) (sessionID : Int) (systemBytes : List Nat)
    (hw : waitBit = 0 ∨ waitBit = 1) (hsid : sessionID ≠ -1)
    (hvars : itemVariables dataItem = [])
    (hcr : dmCheckRep ⟨name, stream, function, waitBit, direction, dataItem, sessionID,
      copy4 systemBytes⟩ = true) :
    NewHSMSDataMessage name stream function waitBit direction dataItem sessionID systemBytes =
      some ⟨name, stream, function, waitBit, direction, dataItem, sessionID,
        copy4 systemBytes⟩ := by
  unfold NewHSMSDataMessage
  rw [if_neg (by tauto), if_neg hsid, if_neg (by rw [hvars]; simp)]
  simp only [hcr, if_true]

/-- C1 amended, data part: hsms.Parse inverts DataMessage.ToBytes on
serializable messages (wait bit strictly boolean, no variables, session id
set) whose item is round-trippable and whose frame fits the 4-byte length
field; the decoder restores every field except name (set to "") and
direction (set to "H<->E"). -/
theorem dm_round_trip (m : DataMessage) (bs : List Nat)
    (hwf : dmWf m = true) (hw2 : m.waitBit ≠ 2) (hvars : dmVariables m = [])
    (hsid : m.sessionID ≠ -1) (hrt : roundTrippable m.dataItem = true)
    (hlen32 : (itemToBytes m.dataItem).length + 10 < 2 ^ 32)
    (henc : dmToBytes m = some bs) :
    Parse bs = some (.data { m with name := "", direction := "H<->E" }) := by
  obtain ⟨name, stream, function, waitBit, direction, dataItem, sessionID, sys⟩ := m
  unfold dmWf at hwf
  rw [Bool.and_eq_true, Bool.and_eq_true] at hwf
  obtain ⟨⟨hcr, _⟩, hitem⟩ := hwf
  have hcrp := hcr
  unfold dmCheckRep at hcrp
  simp only [Bool.and_eq_true, decide_eq_true_eq] at hcrp
  obtain ⟨⟨⟨⟨⟨⟨⟨⟨⟨⟨h1, h2⟩, h3⟩, h4⟩, h5⟩, h6⟩, h7⟩, h8⟩, h9⟩, h10⟩, h11⟩ := hcrp
  obtain ⟨s0, s1, s2, s3, rfl⟩ : ∃ a b c d, sys = [a, b, c, d] := by
    rcases sys with _ | ⟨a, sys⟩
    · simp at h10
    rcases sys with _ | ⟨b, sys⟩
    · simp at h10
    rcases sys with _ | ⟨c, sys⟩
    · simp at h10
    rcases sys with _ | ⟨d, sys⟩
    · simp at h10
    rcases sys with _ | ⟨e, sys⟩
    · exact ⟨a, b, c, d, rfl⟩
    · simp at h10
  have hvars2 : itemVariables dataItem = [] := hvars
  have hsid2 : sessionID ≠ -1 := hsid
  have hsidnn : (0 : Int) ≤ sessionID := by omega
  have hrt2 : roundTrippable dataItem = true := hrt
  have hlen2 : (itemToBytes dataItem).length + 10 < 2 ^ 32 := hlen32
  have hparse : parseMessageText ((itemToBytes dataItem).length + 14)
      ((itemToBytes dataItem).length + 10) (itemToBytes dataItem) = some dataItem := by
    by_cases hemp : isEmptyItem dataItem = true
    · rw [isEmptyItem_iff] at hemp
      subst hemp
      rfl
    · rw [Bool.not_eq_true] at hemp
      have hdep := (parseItem_inverts dataItem (itemDepth dataItem) hitem hrt2 hvars2
        hemp le_rfl).2.1
      obtain ⟨hl2, _, hp⟩ := parseItem_inverts dataItem ((itemToBytes dataItem).length + 14)
        hitem hrt2 hvars2 hemp (by omega)
      unfold parseMessageText
      rw [if_neg (by omega)]
      have hp2 := hp []
      rw [List.append_nil] at hp2
      rw [hp2]
  have hw01 : waitBit = 0 ∨ waitBit = 1 := by
    have : waitBit ≠ 2 := hw2
    omega
  rcases hw01 with rfl | rfl
  · -- wait bit false
    have hF : dmToBytes ⟨name, stream, function, 0, direction, dataItem, sessionID,
        [s0, s1, s2, s3]⟩ =
        some (natToBEBytes 4 ((itemToBytes dataItem).length + 10) ++
          (goByte (sessionID / 2 ^ 8) :: goByte sessionID ::
            goByte (stream + if ("false" : String) = "true" then 128 else 0) ::
            goByte function :: 0 :: 0 :: s0 :: s1 :: s2 :: s3 :: itemToBytes dataItem)) := by
      show (if ("false" : String) = "optional" ∨
          dmVariables ⟨name, stream, function, 0, direction, dataItem, sessionID,
            [s0, s1, s2, s3]⟩ ≠ [] ∨ sessionID = -1 then some []
        else if ([s0, s1, s2, s3] : List Nat).length < 4 then none
        else some (natToBEBytes 4 ((itemToBytes dataItem).length + 10) ++
          [goByte (sessionID / 2 ^ 8), goByte sessionID,
            goByte (stream + if ("false" : String) = "true" then 128 else 0),
            goByte function, 0, 0] ++
          ([s0, s1, s2, s3] : List Nat).take 4 ++ itemToBytes dataItem)) = _
      rw [if_neg (by
        simp only [not_or]
        refine ⟨by decide, ?_, hsid2⟩
        show ¬ itemVariables dataItem ≠ []
        rw [hvars2]
        simp), if_neg (by simp)]
      simp [List.append_assoc]
    rw [hF] at henc
    injection henc with hbs
    subst hbs
    have hcr2 : dmCheckRep ⟨"", stream, function, 0, "H<->E", dataItem, sessionID,
        [s0, s1, s2, s3]⟩ = true := by
      unfold dmCheckRep
      simp only [Bool.and_eq_true, decide_eq_true_eq]
      exact ⟨⟨⟨⟨⟨⟨⟨⟨⟨⟨rfl, h2⟩, h3⟩, h4⟩, h5⟩, h6⟩, h7⟩, h8⟩, h9⟩, rfl⟩, by simp⟩
    have hNew := NewHSMSDataMessage_some "" stream function 0 "H<->E" dataItem sessionID
      [s0, s1, s2, s3] (Or.inl rfl) hsid2 hvars2 hcr2
    have hstb : ((goByte (stream + if ("false" : String) = "true" then 128 else 0)
        : Nat) : Int) % 128 = stream := by
      rw [if_neg (by decide)]
      unfold goByte
      omega
    have hwb : goByte (stream + if ("false" : String) = "true" then 128 else 0) / 128 = 0 := by
      rw [if_neg (by decide)]
      unfold goByte
      omega
    have hfnb : ((goByte function : Nat) : Int) = function := by
      unfold goByte
      omega
    have hsb : ((beBytesToNat [goByte (sessionID / 2 ^ 8), goByte sessionID] : Nat) : Int) =
        sessionID := by
      have hb2 : beBytesToNat [goByte (sessionID / 2 ^ 8), goByte sessionID] =
          goByte (sessionID / 2 ^ 8) * 256 + goByte sessionID := by
        simp [beBytesToNat]
      rw [hb2]
      unfold goByte
      omega
    refine Parse_data_explicit dataItem _ (itemToBytes dataItem)
      (goByte (sessionID / 2 ^ 8)) (goByte sessionID)
      (goByte (stream + if ("false" : String) = "true" then 128 else 0))
      (goByte function) s0 s1 s2 s3 hlen2 hparse ?_
    rw [hstb, hwb, hfnb, hsb]
    exact hNew
  · -- wait bit true
    have hF : dmToBytes ⟨name, stream, function, 1, direction, dataItem, sessionID,
        [s0, s1, s2, s3]⟩ =
        some (natToBEBytes 4 ((itemToBytes dataItem).length + 10) ++
          (goByte (sessionID / 2 ^ 8) :: goByte sessionID ::
            goByte (stream + if ("true" : String) = "true" then 128 else 0) ::
            goByte function :: 0 :: 0 :: s0 :: s1 :: s2 :: s3 :: itemToBytes dataItem)) := by
      show (if ("true" : String) = "optional" ∨
          dmVariables ⟨name, stream, function, 1, direction, dataItem, sessionID,
            [s0, s1, s2, s3]⟩ ≠ [] ∨ sessionID = -1 then some []
        else if ([s0, s1, s2, s3] : List Nat).length < 4 then none
        else some (natToBEBytes 4 ((itemToBytes dataItem).length + 10) ++
          [goByte (sessionID / 2 ^ 8), goByte sessionID,
            goByte (stream + if ("true" : String) = "true" then 128 else 0),
            goByte function, 0, 0] ++
          ([s0, s1, s2, s3] : List Nat).take 4 ++ itemToBytes dataItem)) = _
      rw [if_neg (by
        simp only [not_or]
        refine ⟨by decide, ?_, hsid2⟩
        show ¬ itemVariables dataItem ≠ []
        rw [hvars2]
        simp), if_neg (by simp)]
      simp [List.append_assoc]
    rw [hF] at henc
    injection henc with hbs
    subst hbs
    have hcr2 : dmCheckRep ⟨"", stream, function, 1, "H<->E", dataItem, sessionID,
        [s0, s1, s2, s3]⟩ = true := by
      unfold dmCheckRep
      simp only [Bool.and_eq_true, decide_eq_true_eq]
      exact ⟨⟨⟨⟨⟨⟨⟨⟨⟨⟨rfl, h2⟩, h3⟩, h4⟩, h5⟩, h6⟩, h7⟩, h8⟩, h9⟩, rfl⟩, by simp⟩
    have hNew := NewHSMSDataMessage_some "" stream function 1 "H<->E" dataItem sessionID
      [s0, s1, s2, s3] (Or.inr rfl) hsid2 hvars2 hcr2
    have hstb : ((goByte (stream + if ("true" : String) = "true" then 128 else 0)
        : Nat) : Int) % 128 = stream := by
      rw [if_pos rfl]
      unfold goByte
      omega
    have hwb : goByte (stream + if ("true" : String) = "true" then 128 else 0) / 128 = 1 := by
      rw [if_pos rfl]
      unfold goByte
      omega
    have hfnb : ((goByte function : Nat) : Int) = function := by
      unfold goByte
      omega
    have hsb : ((beBytesToNat [goByte (sessionID / 2 ^ 8), goByte sessionID] : Nat) : Int) =
        sessionID := by
      have hb2 : beBytesToNat [goByte (sessionID / 2 ^ 8), goByte sessionID] =
          goByte (sessionID / 2 ^ 8) * 256 + goByte sessionID := by
        simp [beBytesToNat]
      rw [hb2]
      unfold goByte
      omega
    refine Parse_data_explicit dataItem _ (itemToBytes dataItem)
      (goByte (sessionID / 2 ^ 8)) (goByte sessionID)
      (goByte (stream + if ("true" : String) = "true" then 128 else 0))
      (goByte function) s0 s1 s2 s3 hlen2 hparse ?_
    rw [hstb, hwb, hfnb, hsb]
    exact hNew

theorem map_range_getD_10 (l : List Nat) (h : l.length = 10) :
    (List.range 10).map (fun i => l.getD i 0) = l := by
  rcases l with _ | ⟨a0, l⟩
  · simp at h
  rcases l with _ | ⟨a1, l⟩
  · simp at h
  rcases l with _ | ⟨a2, l⟩
  · simp at h
  rcases l with _ | ⟨a3, l⟩
  · simp at h
  rcases l with _ | ⟨a4, l⟩
  · simp at h
  rcases l with _ | ⟨a5, l⟩
  · simp at h
  rcases l with _ | ⟨a6, l⟩
  · simp at h
  rcases l with _ | ⟨a7, l⟩
  · simp at h
  rcases l with _ | ⟨a8, l⟩
  · simp at h
  rcases l with _ | ⟨a9, l⟩
  · simp at h
  rcases l with _ | ⟨a10, l⟩
  · rfl
  · simp at h

/-- hsms.Parse on the bytes of a 10-byte control header with PType 0 and a
recognized SType: the identical header comes back. -/
theorem Parse_control (hdr : List Nat) (hlen : hdr.length = 10)
    (hp : hdr.getD 4 0 = 0)
    (hs : hdr.getD 5 0 = 1 ∨ hdr.getD 5 0 = 2 ∨ hdr.getD 5 0 = 3 ∨ hdr.getD 5 0 = 4 ∨
      hdr.getD 5 0 = 5 ∨ hdr.getD 5 0 = 6 ∨ hdr.getD 5 0 = 7 ∨ hdr.getD 5 0 = 9) :
    Parse (controlToBytes ⟨hdr⟩) = some (.control ⟨hdr⟩) := by
  unfold controlToBytes
  have hN : NewHSMSControlMessage hdr = ⟨hdr⟩ := by
    unfold NewHSMSControlMessage
    rw [map_range_getD_10 hdr hlen]
  have h4 : (([0, 0, 0, 10] : List Nat)).length = 4 := rfl
  simp only [Parse]
  rw [List.length_append, h4, hlen, if_neg (by omega),
    List.take_left' h4, show beBytesToNat [0, 0, 0, 10] = 10 from rfl,
    List.drop_left' h4, hlen, if_neg (by omega),
    List.take_of_length_le (by omega), hp, if_neg (by omega)]
  rcases hs with hx | hx | hx | hx | hx | hx | hx | hx <;>
    rw [hx, if_neg (by omega), if_pos (by omega), hN]

theorem control_round_trip_selectReq (sessionID : Nat) (systemBytes : List Nat)
    (c : ControlMessage) (h : NewHSMSMessageSelectReq sessionID systemBytes = some c) :
    Parse (controlToBytes c) = some (.control c) := by
  unfold NewHSMSMessageSelectReq at h
  by_cases hlen : systemBytes.length < 4
  · rw [if_pos hlen] at h
    cases h
  · rw [if_neg hlen] at h
    injection h with hc
    subst hc
    exact Parse_control _ rfl rfl (Or.inl rfl)

theorem control_round_trip_selectRsp (selectReq : ControlMessage) (selectStatus : Nat)
    (c : ControlMessage) (h : NewHSMSMessageSelectRsp selectReq selectStatus = some c) :
    Parse (controlToBytes c) = some (.control c) := by
  unfold NewHSMSMessageSelectRsp at h
  by_cases hty : controlType selectReq ≠ "select.req"
  · rw [if_pos hty] at h
    cases h
  · rw [if_neg hty] at h
    injection h with hc
    subst hc
    exact Parse_control _ rfl rfl (Or.inr (Or.inl rfl))

theorem control_round_trip_deselectReq (sessionID : Nat) (systemBytes : List Nat)
    (c : ControlMessage) (h : NewHSMSMessageDeselectReq sessionID systemBytes = some c) :
    Parse (controlToBytes c) = some (.control c) := by
  unfold NewHSMSMessageDeselectReq at h
  by_cases hlen : systemBytes.length < 4
  · rw [if_pos hlen] at h
    cases h
  · rw [if_neg hlen] at h
    injection h with hc
    subst hc
    exact Parse_control _ rfl rfl (Or.inr (Or.inr (Or.inl rfl)))

theorem control_round_trip_deselectRsp (deselectReq : ControlMessage) (deselectStatus : Nat)
    (c : ControlMessage) (h : NewHSMSMessageDeselectRsp deselectReq deselectStatus = some c) :
    Parse (controlToBytes c) = some (.control c) := by
  unfold NewHSMSMessageDeselectRsp at h
  by_cases hty : controlType deselectReq ≠ "deselect.req"
  · rw [if_pos hty] at h
    cases h
  · rw [if_neg hty] at h
    injection h with hc
    subst hc
    exact Parse_control _ rfl rfl (Or.inr (Or.inr (Or.inr (Or.inl rfl))))

theorem control_round_trip_linktestReq (systemBytes : List Nat)
    (c : ControlMessage) (h : NewHSMSMessageLinktestReq systemBytes = some c) :
    Parse (controlToBytes c) = some (.control c) := by
  unfold NewHSMSMessageLinktestReq at h
  by_cases hlen : systemBytes.length < 4
  · rw [if_pos hlen] at h
    cases h
  · rw [if_neg hlen] at h
    injection h with hc
    subst hc
    exact Parse_control _ rfl rfl (Or.inr (Or.inr (Or.inr (Or.inr (Or.inl rfl)))))

theorem control_round_trip_linktestRsp (linktestReq : ControlMessage)
    (c : ControlMessage) (h : NewHSMSMessageLinktestRsp linktestReq = some c) :
    Parse (controlToBytes c) = some (.control c) := by
  unfold NewHSMSMessageLinktestRsp at h
  by_cases hty : controlType linktestReq ≠ "linktest.req"
  · rw [if_pos hty] at h
    cases h
  · rw [if_neg hty] at h
    injection h with hc
    subst hc
    exact Parse_control _ rfl rfl (Or.inr (Or.inr (Or.inr (Or.inr (Or.inr (Or.inl rfl))))))

theorem control_round_trip_rejectReq (sessionID pType sType : Nat)
    (systemBytes : List Nat) (reasonCode : Nat)
    (c : ControlMessage)
    (h : NewHSMSMessageRejectReq sessionID pType sType systemBytes reasonCode = some c) :
    Parse (controlToBytes c) = some (.control c) := by
  unfold NewHSMSMessageRejectReq at h
  by_cases hlen : systemBytes.length < 4
  · rw [if_pos hlen] at h
    cases h
  · rw [if_neg hlen] at h
    injection h with hc
    subst hc
    exact Parse_control _ rfl rfl
      (Or.inr (Or.inr (Or.inr (Or.inr (Or.inr (Or.inr (Or.inl rfl)))))))

theorem control_round_trip_separateReq (sessionID : Nat) (systemBytes : List Nat)
    (c : ControlMessage) (h : NewHSMSMessageSeparateReq sessionID systemBytes = some c) :
    Parse (controlToBytes c) = some (.control c) := by
  unfold NewHSMSMessageSeparateReq at h
  by_cases hlen : systemBytes.length < 4
  · rw [if_pos hlen] at h
    cases h
  · rw [if_neg hlen] at h
    injection h with hc
    subst hc
    exact Parse_control _ rfl rfl
      (Or.inr (Or.inr (Or.inr (Or.inr (Or.inr (Or.inr (Or.inr rfl)))))))

/-- C1 (amended): hsms.Parse inverts the HSMS encodings.  Data part: for
every well-formed DataMessage that is serializable (wait bit strictly true
or false, no variables remaining, session id set), whose data item is
round-trippable (every item's payload fits one length byte and Binary items
are empty — the decoder's length-byte truncation and its rejection of
decoded binary values exclude the rest), and whose frame fits the 4-byte
length field, Parse of ToBytes succeeds and returns a message with the same
stream, function, wait bit, session id, system bytes and data item, the
name set to "" and the direction to "H<->E".  Control part: for each of the
eight control-message constructors, Parse of ToBytes succeeds and returns a
control message with the identical 10-byte header. -/
theorem c1_round_trip :
    (∀ (m : DataMessage) (bs : List Nat),
      dmWf m = true → m.waitBit ≠ 2 → dmVariables m = [] → m.sessionID ≠ -1 →
      roundTrippable m.dataItem = true →
      (itemToBytes m.dataItem).length + 10 < 2 ^ 32 →
      dmToBytes m = some bs →
      Parse bs = some (.data { m with name := "", direction := "H<->E" })) ∧
    (∀ (sessionID : Nat) (systemBytes : List Nat) (c : ControlMessage),
      NewHSMSMessageSelectReq sessionID systemBytes = some c →
      Parse (controlToBytes c) = some (.control c)) ∧
    (∀ (selectReq : ControlMessage) (selectStatus : Nat) (c : ControlMessage),
      NewHSMSMessageSelectRsp selectReq selectStatus = some c →
      Parse (controlToBytes c) = some (.control c)) ∧
    (∀ (sessionID : Nat) (systemBytes : List Nat) (c : ControlMessage),
      NewHSMSMessageDeselectReq sessionID systemBytes = some c →
      Parse (controlToBytes c) = some (.control c)) ∧
    (∀ (deselectReq : ControlMessage) (deselectStatus : Nat) (c : ControlMessage),
      NewHSMSMessageDeselectRsp deselectReq deselectStatus = some c →
      Parse (controlToBytes c) = some (.control c)) ∧
    (∀ (systemBytes : List Nat) (c : ControlMessage),
      NewHSMSMessageLinktestReq systemBytes = some c →
      Parse (controlToBytes c) = some (.control c)) ∧
    (∀ (linktestReq : ControlMessage) (c : ControlMessage),
      NewHSMSMessageLinktestRsp linktestReq = some c →
      Parse (controlToBytes c) = some (.control c)) ∧
    (∀ (sessionID pType sType : Nat) (systemBytes : List Nat) (reasonCode : Nat)
        (c : ControlMessage),
      NewHSMSMessageRejectReq sessionID pType sType systemBytes reasonCode = some c →
      Parse (controlToBytes c) = some (.control c)) ∧
    (∀ (sessionID : Nat) (systemBytes : List Nat) (c : ControlMessage),
      NewHSMSMessageSeparateReq sessionID systemBytes = some c →
      Parse (controlToBytes c) = some (.control c)) :=
  ⟨dm_round_trip, control_round_trip_selectReq, control_round_trip_selectRsp,
    control_round_trip_deselectReq, control_round_trip_deselectRsp,
    control_round_trip_linktestReq, control_round_trip_linktestRsp,
    control_round_trip_rejectReq, control_round_trip_separateReq⟩

/-- Concrete instance of C1: a one-boolean data message and a select.req
control message both survive the encode/decode round trip. -/
theorem c1_round_trip_witness :
    Parse [0, 0, 0, 13, 0, 0, 1, 1, 0, 0, 0, 0, 0, 0, 37, 1, 1] =
      some (.data ⟨"", 1, 1, 0, "H<->E", .boolean [true] [], 0, [0, 0, 0, 0]⟩) ∧
    Parse (controlToBytes ⟨[0, 0, 0, 0, 0, 1, 0, 0, 0, 0]⟩) =
      some (.control ⟨[0, 0, 0, 0, 0, 1, 0, 0, 0, 0]⟩) :=
  ⟨c1_round_trip.1 ⟨"", 1, 1, 0, "H<->E", .boolean [true] [], 0, [0, 0, 0, 0]⟩
      [0, 0, 0, 13, 0, 0, 1, 1, 0, 0, 0, 0, 0, 0, 37, 1, 1]
      (by decide) (by decide) rfl (by decide) (by decide) (by decide) rfl,
    c1_round_trip.2.1 0 [0, 0, 0, 0] ⟨[0, 0, 0, 0, 0, 1, 0, 0, 0, 0]⟩ rfl⟩

/-- C1, refutation of the unrestricted claim: a well-formed, serializable
DataMessage (wait bit false, no variables, session id set) holding the
one-byte Binary item `0x2A` encodes to a non-empty HSMS frame, yet Parse
of that frame fails: the decoder's binary branch passes Go `byte` values
to NewBinaryNode, whose type switch has no `byte` case and panics. -/
theorem c1_round_trip_refuted :
    ∃ (m : DataMessage) (bs : List Nat),
      dmWf m = true ∧ m.waitBit = 0 ∧ dmVariables m = [] ∧ m.sessionID = 0 ∧
      dmToBytes m = some bs ∧ bs ≠ [] ∧ Parse bs = none := by
  refine ⟨⟨"", 1, 1, 0, "H<->E", .binary [42] [], 0, [0, 0, 0, 0]⟩,
    [0, 0, 0, 13, 0, 0, 1, 1, 0, 0, 0, 0, 0, 0, 33, 1, 42], ?_, rfl, rfl, rfl, ?_, ?_, ?_⟩
  · decide
  · rfl
  · decide
  · rfl

end SecsII
